import Mathlib

/-!
# UX: a LOUDS trie with tail compression (`src/ux.cpp`)

A shallow embedding of `ux_tool::UX` and proofs about it.

Conventions of the embedding.

* A key (`std::string`, or a `const char*` with its `len`) is the list of its
  bytes as unsigned values (`List Nat`); `std::string::operator<` compares
  bytes as unsigned values, and so does `keyLess`.
* Indices (`size_t`, `uint32_t`) are natural numbers: the development is
  about dictionaries whose bit vectors fit 32-bit indices.  The position
  value `NOTFOUND` of `getChild` is rendered as `none` of an inner `Option`.
* A read outside a vector (a bit vector, `edges_`, `vtails_`, a key) and a
  failed `assert` make the surrounding function return `none`; so does a
  loop that runs out of fuel.  `some r` therefore says that the code runs
  to the end, inside all its vectors, and returns `r`.
* `BitVector` and the packed `tailIDs_` vector are not part of `ux.cpp`;
  they are modelled on lists of bits.
-/

namespace ux_tool

/-- Byte string. -/
abbrev Key := List Nat

/-- Sentinel `NOTFOUND` for identifiers. -/
def NOTFOUND : Nat := 0xFFFFFFFF

/-! ## Bit vectors -/

/-- Modelled from the spec: `BitVector::getBit(i)`, the bit at position `i`
(`BitVector` is declared outside `ux.cpp`). -/
def getBit (bv : List Bool) (i : Nat) : Option Bool := bv[i]?

/-- Modelled from the spec: `BitVector::rank(i, b)` as the call sites of
`ux.cpp` need it, the number of bits `b` at positions `0..i` inclusive. -/
def rank (bv : List Bool) (i : Nat) (b : Bool) : Nat := (bv.take (i + 1)).count b

/-- Scan for the `r`-th occurrence of `b`, `off` being the position of the head. -/
def selectFrom (b : Bool) : List Bool → Nat → Nat → Option Nat
  | [], _, _ => none
  | x :: xs, r, off =>
    if x = b then
      if r = 1 then some off else selectFrom b xs (r - 1) (off + 1)
    else selectFrom b xs r (off + 1)

/-- Modelled from the spec: `BitVector::select(r, b)`, the position of the
`r`-th occurrence of `b`, counting from 1; no value when there is none. -/
def select (bv : List Bool) (r : Nat) (b : Bool) : Option Nat :=
  if r = 0 then none else selectFrom b bv r 0

/-- Modelled from the spec: `rank(i, b)` as the spec contracts it, the number
of bits `b` in the half-open range `[0, i)`. -/
def rankHalfOpen (bv : List Bool) (i : Nat) (b : Bool) : Nat := (bv.take i).count b

/-! ## Packed integers -/

/-- Modelled from the spec: `push_back_with_len(value, width)` appends the
`width` low bits of `value` (lowest bit first). -/
def pushBackWithLen (v : List Bool) (value width : Nat) : List Bool :=
  v ++ (List.range width).map (fun k => value.testBit k)

/-- Value of a run of bits, lowest bit first. -/
def bitsToNat : List Bool → Nat
  | [] => 0
  | b :: bs => (if b then 1 else 0) + 2 * bitsToNat bs

/-- Modelled from the spec: `getBits(offset, width)`, the integer encoded at
`[offset, offset + width)`. -/
def getBits (v : List Bool) (offset width : Nat) : Nat :=
  bitsToNat ((v.drop offset).take width)

/-- Floor of the binary logarithm, by repeated halving. -/
def log2Aux : Nat → Nat → Nat
  | 0, _ => 0
  | fuel + 1, n => if n < 2 then 0 else log2Aux fuel (n / 2) + 1

/-- The conversion `tailIDLen_ = log2(n)` of a `double` to `uint32_t`: the
floor of the binary logarithm (taken as 0 at `n = 0`, where C++ leaves the
conversion undefined). -/
def log2 (n : Nat) : Nat := log2Aux n n

/-! ## Sorting the word list -/

/-- Comparison `a < b` of `std::string`: lexicographic on unsigned bytes. -/
def keyLess : Key → Key → Bool
  | [], [] => false
  | [], _ :: _ => true
  | _ :: _, [] => false
  | a :: as, b :: bs => if a < b then true else if b < a then false else keyLess as bs

/-- Insert a key into an ascending list. -/
def insertKey (k : Key) : List Key → List Key
  | [] => [k]
  | x :: xs => if keyLess x k then x :: insertKey k xs else k :: x :: xs

/-- Ascending order `std::sort(wordList.begin(), wordList.end())`. -/
def sortKeys : List Key → List Key
  | [] => []
  | k :: ks => insertKey k (sortKeys ks)

/-- Removal of consecutive duplicates, `std::unique` followed by `erase`. -/
def unique : List Key → List Key
  | [] => []
  | [x] => [x]
  | x :: y :: rest => if x = y then unique (y :: rest) else x :: unique (y :: rest)

/-- The word list as `build` leaves it: sorted, duplicates removed. -/
def sortUnique (wordList : List Key) : List Key := unique (sortKeys wordList)

/-! ## The dictionary -/

/-- A range `[left, right)` of the sorted word list. -/
structure RangeNode where
  left : Nat
  right : Nat
deriving DecidableEq, Repr

/-- The members of a `UX` object other than the pointer `vtailux_`. -/
structure Core where
  loud : List Bool
  terminal : List Bool
  tail : List Bool
  edges : List Nat
  vtails : List Key
  tailIDs : List Bool
  tailIDLen : Nat
  keyNum : Nat
  isReady : Bool
deriving DecidableEq, Repr

/-- A `UX` object: `flat` when `vtailux_ == NULL`, `nested` when it points to
a dictionary of reversed tails. -/
inductive UX where
  | flat (c : Core) : UX
  | nested (c : Core) (vtailux : UX) : UX
deriving DecidableEq, Repr

/-- The object's own members. -/
def UX.core : UX → Core
  | .flat c => c
  | .nested c _ => c

/-- The state of a freshly constructed `UX` (constructor `UX::UX`). -/
def Core.empty : Core :=
  { loud := [], terminal := [], tail := [], edges := [], vtails := [],
    tailIDs := [], tailIDLen := 0, keyNum := 0, isReady := false }

/-! ## build -/

/-- Local bit vectors and members that the main loop of `build` appends to. -/
structure BuildState where
  loudBV : List Bool
  terminalBV : List Bool
  tailBV : List Bool
  edges : List Nat
  vtails : List Key
deriving DecidableEq, Repr

/-- The byte `wordList[i][depth]`. -/
def charAt (wordList : List Key) (i depth : Nat) : Option Nat :=
  match wordList[i]? with
  | none => none
  | some w => w[depth]?

/-- One child edge: `edges_.push_back(prevC); loudBV.push_back(0);
nextQ.push(RangeNode(prev, i))`. -/
def pushChild (st : BuildState) (nextQ : List RangeNode) (prevC prev i : Nat) :
    BuildState × List RangeNode :=
  ({ st with edges := st.edges ++ [prevC], loudBV := st.loudBV ++ [false] },
   nextQ ++ [⟨prev, i⟩])

/-- The loop `for (size_t i = prev+1; ; ++i)` of `build` that groups the
range by the byte at `depth`. -/
def groupLoop (wordList : List Key) (depth right : Nat) :
    Nat → Nat → Nat → Nat → BuildState → List RangeNode →
    Option (BuildState × List RangeNode)
  | 0, _, _, _, _, _ => none
  | fuel + 1, prev, prevC, i, st, nextQ =>
    if i < right then
      match charAt wordList i depth with
      | none => none
      | some c =>
        if prevC = c then groupLoop wordList depth right fuel prev prevC (i + 1) st nextQ
        else
          let r := pushChild st nextQ prevC prev i
          groupLoop wordList depth right fuel i c (i + 1) r.1 r.2
    else
      let r := pushChild st nextQ prevC prev i
      if i = right then some r
      else
        match charAt wordList i depth with
        | none => none
        | some c => groupLoop wordList depth right fuel i c (i + 1) r.1 r.2

/-- The body of the main loop of `build` for one popped range. -/
def processNode (wordList : List Key) (depth : Nat) (rn : RangeNode)
    (st : BuildState) (nextQ : List RangeNode) : Option (BuildState × List RangeNode) :=
  match wordList[rn.left]? with
  | none => none
  | some cur =>
    if rn.left + 1 = rn.right ∧ depth + 1 < cur.length then
      some ({ st with loudBV := st.loudBV ++ [true],
                      terminalBV := st.terminalBV ++ [true],
                      tailBV := st.tailBV ++ [true],
                      vtails := st.vtails ++ [cur.drop depth] }, nextQ)
    else
      let st1 := { st with tailBV := st.tailBV ++ [false] }
      if depth = cur.length then
        let st2 := { st1 with terminalBV := st1.terminalBV ++ [true] }
        let newLeft := rn.left + 1
        if newLeft = rn.right then
          some ({ st2 with loudBV := st2.loudBV ++ [true] }, nextQ)
        else
          match charAt wordList newLeft depth with
          | none => none
          | some prevC =>
            match groupLoop wordList depth rn.right (wordList.length + 1) newLeft prevC
                (newLeft + 1) st2 nextQ with
            | none => none
            | some r => some ({ r.1 with loudBV := r.1.loudBV ++ [true] }, r.2)
      else
        let st2 := { st1 with terminalBV := st1.terminalBV ++ [false] }
        match charAt wordList rn.left depth with
        | none => none
        | some prevC =>
          match groupLoop wordList depth rn.right (wordList.length + 1) rn.left prevC
              (rn.left + 1) st2 nextQ with
          | none => none
          | some r => some ({ r.1 with loudBV := r.1.loudBV ++ [true] }, r.2)

/-- The main loop `for (size_t depth = 0;;)` of `build` with its two queues. -/
def buildLoop (wordList : List Key) :
    Nat → Nat → List RangeNode → List RangeNode → BuildState → Option BuildState
  | 0, _, _, _, _ => none
  | fuel + 1, depth, [], nextQ, st =>
    match nextQ with
    | [] => some st
    | rn :: q =>
      match processNode wordList (depth + 1) rn st [] with
      | none => none
      | some r => buildLoop wordList fuel (depth + 1) q r.2 r.1
  | fuel + 1, depth, rn :: q, nextQ, st =>
    match processNode wordList depth rn st nextQ with
    | none => none
    | some r => buildLoop wordList fuel depth q r.2 r.1

/-- Length of the longest key. -/
def maxLen : List Key → Nat
  | [] => 0
  | w :: ws => max w.length (maxLen ws)

/-- A bound on the number of rounds of the main loop of `build`: one per
key and depth, and the final one. -/
def buildFuel (wordList : List Key) : Nat := wordList.length * (maxLen wordList + 1) + 1

/-- The body of `build` up to and including `isReady_ = true`, on a fresh object. -/
def buildCore (wordList : List Key) : Option Core :=
  let sorted := sortUnique wordList
  let keyNum := sorted.length
  let q : List RangeNode := if keyNum ≠ 0 then [⟨0, keyNum⟩] else []
  let st0 : BuildState :=
    { loudBV := [false, true], terminalBV := [], tailBV := [], edges := [], vtails := [] }
  match buildLoop sorted (buildFuel sorted) 0 q [] st0 with
  | none => none
  | some st =>
    some { loud := st.loudBV, terminal := st.terminalBV, tail := st.tailBV,
           edges := st.edges, vtails := st.vtails, tailIDs := [], tailIDLen := 0,
           keyNum := keyNum, isReady := decide (keyNum > 0) }

/-! ## Navigation -/

/-- The scan of `getChild`; `fuel` bounds the number of positions visited. -/
def getChildLoop (c : Core) (ch : Nat) : Nat → Nat → Nat → Option (Option (Nat × Nat))
  | 0, _, _ => none
  | fuel + 1, pos, zeros =>
    match getBit c.loud pos with
    | none => none
    | some true => some none
    | some false =>
      if zeros < 2 then none
      else
        match c.edges[zeros - 2]? with
        | none => none
        | some e =>
          if e = ch then
            match select c.loud zeros true with
            | none => none
            | some p => some (some (p + 1, p + 1 - zeros + 1))
          else getChildLoop c ch fuel (pos + 1) (zeros + 1)

/-- Function `getChild(c, pos, zeros)`: the new `(pos, zeros)`, or the inner
`none` for `pos = NOTFOUND`. -/
def getChild (c : Core) (ch pos zeros : Nat) : Option (Option (Nat × Nat)) :=
  getChildLoop c ch (c.loud.length + 1 - pos) pos zeros

/-- Function `getParent(c, pos, zeros)`: the new `(c, pos, zeros)`. -/
def getParent (c : Core) (ch pos zeros : Nat) : Option (Nat × Nat × Nat) :=
  let zeros1 := pos - zeros + 1
  match select c.loud zeros1 false with
  | none => none
  | some pos1 =>
    if zeros1 < 2 then some (ch, pos1, zeros1)
    else
      match c.edges[zeros1 - 2]? with
      | none => none
      | some e => some (e, pos1, zeros1)

/-! ## Queries -/

/-- Function `tailMatch` on the tail already fetched: whether it matches
`str` from `depth` on, and `retLen`. -/
def tailMatch (str : Key) (depth : Nat) (tail : Key) : Option Nat :=
  if tail.length > str.length - depth then none
  else if (List.range tail.length).all (fun i => str[i + depth]? == tail[i]?) then
    some tail.length
  else none

/-- The loop of `traverse`; the state is `(pos, zeros)` or `NOTFOUND`,
`lastLen` and `retIDs`. -/
def traverseLoop (c : Core) (getTail : Nat → Option Key) (str : Key) (limit : Nat) :
    Nat → Nat → Option (Nat × Nat) → Nat → List Nat → Option (Nat × List Nat)
  | 0, _, _, _, _ => none
  | _ + 1, _, none, lastLen, retIDs => some (lastLen, retIDs)
  | fuel + 1, depth, some (pos, zeros), lastLen, retIDs =>
    let ones := pos - zeros
    match getBit c.tail ones with
    | none => none
    | some true =>
      match getTail (rank c.tail ones true - 1) with
      | none => none
      | some tail =>
        match tailMatch str depth tail with
        | some retLen => some (depth + retLen, retIDs ++ [rank c.terminal ones true - 1])
        | none => some (lastLen, retIDs)
    | some false =>
      match getBit c.terminal ones with
      | none => none
      | some true =>
        let retIDs1 := retIDs ++ [rank c.terminal ones true - 1]
        if retIDs1.length = limit then some (depth, retIDs1)
        else if depth = str.length then some (depth, retIDs1)
        else
          match str[depth]? with
          | none => none
          | some ch =>
            match getChild c ch pos zeros with
            | none => none
            | some p => traverseLoop c getTail str limit fuel (depth + 1) p depth retIDs1
      | some false =>
        if depth = str.length then some (lastLen, retIDs)
        else
          match str[depth]? with
          | none => none
          | some ch =>
            match getChild c ch pos zeros with
            | none => none
            | some p => traverseLoop c getTail str limit fuel (depth + 1) p lastLen retIDs

/-- Function `traverse`: the final `lastLen` and `retIDs` (started empty). -/
def traverseWith (c : Core) (getTail : Nat → Option Key) (str : Key) (limit : Nat) :
    Option (Nat × List Nat) :=
  if !c.isReady then some (0, [])
  else if limit = 0 then some (0, [])
  else traverseLoop c getTail str limit (str.length + 2) 0 (some (2, 2)) 0 []

/-- The loop `for (;;)` of `decode` that climbs to the root. -/
def decodeLoop (c : Core) : Nat → Nat → Nat → Key → Option Key
  | 0, _, _, _ => none
  | fuel + 1, pos, zeros, ret =>
    match getParent c 0 pos zeros with
    | none => none
    | some (ch, pos1, zeros1) =>
      if pos1 = 0 then some ret
      else decodeLoop c fuel pos1 zeros1 (ret ++ [ch])

/-- Function `decode(id, ret)` given the tail store. -/
def decodeWith (c : Core) (getTail : Nat → Option Key) (id : Nat) : Option Key :=
  if !c.isReady then some []
  else
    match select c.terminal (id + 1) true with
    | none => none
    | some nodeID =>
      match select c.loud (nodeID + 1) true with
      | none => none
      | some p =>
        let pos := p + 1
        let zeros := pos - nodeID
        match decodeLoop c (c.loud.length + 1) pos zeros [] with
        | none => none
        | some ret =>
          let ret1 := ret.reverse
          match getBit c.tail nodeID with
          | none => none
          | some true =>
            match getTail (rank c.tail nodeID true - 1) with
            | none => none
            | some t => some (ret1 ++ t)
          | some false => some ret1

/-- Function `getTail(i)`. -/
def getTail : UX → Nat → Option Key
  | .flat c, i => c.vtails[i]?
  | .nested c vtailux, i =>
    (decodeWith vtailux.core (getTail vtailux) (getBits c.tailIDs (c.tailIDLen * i) c.tailIDLen)).map
      List.reverse

/-- Function `decode(id)`. -/
def decode (d : UX) (id : Nat) : Option Key := decodeWith d.core (getTail d) id

/-- Function `traverse(str, len, lastLen, retIDs, limit)`. -/
def traverse (d : UX) (str : Key) (limit : Nat) : Option (Nat × List Nat) :=
  traverseWith d.core (getTail d) str limit

/-- Function `prefixSearch(str, len, retLen)`: the returned identifier and `retLen`. -/
def prefixSearch (d : UX) (str : Key) : Option (Nat × Nat) :=
  match traverse d str 0xFFFFFFFF with
  | none => none
  | some (retLen, retIDs) =>
    match retIDs.getLast? with
    | none => some (NOTFOUND, retLen)
    | some id => some (id, retLen)

/-- Function `commonPrefixSearch(str, len, retIDs, limit)`: the final `retIDs`
(the returned count is its length). -/
def commonPrefixSearch (d : UX) (str : Key) (limit : Nat) : Option (List Nat) :=
  match traverse d str limit with
  | none => none
  | some (_, retIDs) => some retIDs

/-- The loop `for (uint32_t i = 0; ...)` of `enumerateAll`; `self` is the
recursive call, `fuel` bounds the number of children visited. -/
def enumerateLoop (c : Core) (limit : Nat) (self : Nat → Nat → List Nat → Option (List Nat)) :
    Nat → Nat → Nat → Nat → List Nat → Option (List Nat)
  | 0, _, _, _, _ => none
  | fuel + 1, pos, zeros, i, retIDs =>
    match getBit c.loud (pos + i) with
    | none => none
    | some true => some retIDs
    | some false =>
      if retIDs.length < limit then
        match select c.loud (zeros + i) true with
        | none => none
        | some p =>
          let nextPos := p + 1
          match self nextPos (nextPos - zeros - i + 1) retIDs with
          | none => none
          | some retIDs1 => enumerateLoop c limit self fuel pos zeros (i + 1) retIDs1
      else some retIDs

/-- Function `enumerateAll(pos, zeros, retIDs, limit)`; the first argument
bounds the depth of the recursion. -/
def enumerateAll (c : Core) (limit : Nat) : Nat → Nat → Nat → List Nat → Option (List Nat)
  | 0, _, _, _ => none
  | fuel + 1, pos, zeros, retIDs =>
    let ones := pos - zeros
    match getBit c.terminal ones with
    | none => none
    | some t =>
      let retIDs1 := if t then retIDs ++ [rank c.terminal ones true - 1] else retIDs
      enumerateLoop c limit (enumerateAll c limit fuel) (c.loud.length + 1) pos zeros 0 retIDs1

/-- The descent loop of `predictiveSearch`: `(lastPos, lastZeros)` after
following `str` from position `i` on, or the inner `none` when a step fails. -/
def descend (c : Core) : Key → Nat → Nat → Nat → Nat → Option (Option (Nat × Nat))
  | [], lastPos, lastZeros, _, _ => some (some (lastPos, lastZeros))
  | ch :: rest, _, _, pos, zeros =>
    match getChild c ch pos zeros with
    | none => none
    | some none => some none
    | some (some (pos1, zeros1)) => descend c rest pos zeros pos1 zeros1

/-- Function `predictiveSearch(str, len, retIDs, limit)`: the final `retIDs`. -/
def predictiveSearch (d : UX) (str : Key) (limit : Nat) : Option (List Nat) :=
  let c := d.core
  if !c.isReady then some []
  else if limit = 0 then some []
  else
    match descend c str 0 0 2 2 with
    | none => none
    | some none => some []
    | some (some (lastPos, lastZeros)) =>
      enumerateAll c limit (c.terminal.length + 1) lastPos lastZeros []

/-- Function `getKeyNum()`. -/
def getKeyNum (d : UX) : Nat := d.core.keyNum

/-! ## The nested tail dictionary -/

/-- The loop of `buildTailUX` that looks each tail up in the nested
dictionary and packs its identifier. -/
def packTails (vtailux : UX) (tailIDLen : Nat) : List Key → List Bool → Option (List Bool)
  | [], tailIDs => some tailIDs
  | t :: rest, tailIDs =>
    let r := t.reverse
    match prefixSearch vtailux r with
    | none => none
    | some (id, retLen) =>
      if id = NOTFOUND then none
      else if retLen ≠ r.length then none
      else packTails vtailux tailIDLen rest (pushBackWithLen tailIDs id tailIDLen)

/-- Function `buildTailUX()` (the allocation is taken to succeed). -/
def buildTailUX (c : Core) : Option UX :=
  let origTails := c.vtails
  match buildCore (c.vtails.map List.reverse) with
  | none => none
  | some ic =>
    let vtailux := UX.flat ic
    let tailIDLen := log2 (getKeyNum vtailux)
    match packTails vtailux tailIDLen origTails c.tailIDs with
    | none => none
    | some ids =>
      some (.nested { c with tailIDs := ids, tailIDLen := tailIDLen, vtails := [] } vtailux)

/-- Function `build(wordList, isTailUX)` on a fresh object. -/
def build (wordList : List Key) (isTailUX : Bool) : Option UX :=
  match buildCore wordList with
  | none => none
  | some c => if isTailUX then buildTailUX c else some (.flat c)

/-! ## save and load -/

/-- What `save` writes to the stream, field by field; a bit vector or the
packed vector is one item, `BitVector::load` reading back what
`BitVector::save` wrote. -/
inductive Item where
  | bits (bv : List Bool) : Item
  | size (n : Nat) : Item
  | int (n : Nat) : Item
  | bytes (b : List Nat) : Item
deriving DecidableEq, Repr

/-- The loop of `save` over `vtails_`. -/
def saveTails : List Key → List Item
  | [] => []
  | t :: ts => Item.size t.length :: Item.bytes t :: saveTails ts

/-- Function `save(os)`: the items written (the stream is taken to accept them). -/
def save : UX → List Item
  | .flat c =>
    [Item.bits c.loud, Item.bits c.terminal, Item.bits c.tail, Item.bits c.tailIDs,
      Item.size c.keyNum, Item.size c.edges.length, Item.bytes c.edges, Item.int 0,
      Item.size c.vtails.length] ++ saveTails c.vtails
  | .nested c vtailux =>
    [Item.bits c.loud, Item.bits c.terminal, Item.bits c.tail, Item.bits c.tailIDs,
      Item.size c.keyNum, Item.size c.edges.length, Item.bytes c.edges, Item.int 1] ++
      save vtailux

/-- The loop of `load` that reads `tailsNum` tails. -/
def loadTails : Nat → List Item → Option (List Key × List Item)
  | 0, rest => some ([], rest)
  | n + 1, Item.size len :: Item.bytes b :: rest =>
    if b.length = len then
      match loadTails n rest with
      | none => none
      | some r => some (b :: r.1, r.2)
    else none
  | _ + 1, _ => none

/-- Function `load(is)` on a fresh object: the object and the rest of the
stream; `none` is `LOAD_ERROR`. `fuel` bounds the nesting. -/
def load : Nat → List Item → Option (UX × List Item)
  | 0, _ => none
  | fuel + 1, Item.bits lo :: Item.bits te :: Item.bits ta :: Item.bits ids :: Item.size kn ::
      Item.size es :: Item.bytes ed :: Item.int useUX :: rest =>
    if ed.length ≠ es then none
    else if useUX ≠ 0 then
      match load fuel rest with
      | none => none
      | some (vtailux, rest2) =>
        some (.nested { loud := lo, terminal := te, tail := ta, edges := ed, vtails := [],
                        tailIDs := ids, tailIDLen := log2 (getKeyNum vtailux), keyNum := kn,
                        isReady := true } vtailux, rest2)
    else
      match rest with
      | Item.size tailsNum :: rest1 =>
        match loadTails tailsNum rest1 with
        | none => none
        | some (tails, rest2) =>
          some (.flat { loud := lo, terminal := te, tail := ta, edges := ed, vtails := tails,
                        tailIDs := ids, tailIDLen := 0, keyNum := kn, isReady := true }, rest2)
      | _ => none
  | _ + 1, _ => none

/-- A fresh `UX` loaded from what `save` wrote for `d`. -/
def reload (d : UX) : Option UX :=
  match load ((save d).length + 1) (save d) with
  | none => none
  | some r => some r.1

end ux_tool

namespace ux_tool

/-! ## The trie behind the bit vectors

The builder visits the trie nodes in level order.  `NodeInfo` records what it
emits for one node together with the node's place in the trie; `Table` says
that a dictionary is the concatenation of what a list of nodes emits. -/

/-- One trie node as the builder sees it: its range, depth and common
prefix, its terminal bit, its tail, and the labels and ranges of its children. -/
structure NodeInfo where
  rn : RangeNode
  depth : Nat
  pre : Key
  term : Bool
  tail : Option Key
  labels : List Nat
  kids : List RangeNode

/-- The range `rn` holds exactly the keys of `W` that start with `p`, and
`p` has length `depth`. -/
def RangeOK (W : List Key) (depth : Nat) (rn : RangeNode) (p : Key) : Prop :=
  rn.left < rn.right ∧ rn.right ≤ W.length ∧ p.length = depth ∧
  ∀ i w, W[i]? = some w → ((rn.left ≤ i ∧ i < rn.right) ↔ p <+: w)

/-- Size of a range. -/
def RangeNode.size (rn : RangeNode) : Nat := rn.right - rn.left

/-- The groups that the grouping loop cuts `[prev, right)` into. -/
structure GroupsOK (W : List Key) (depth prev right : Nat) (labels : List Nat)
    (kids : List RangeNode) : Prop where
  len : labels.length = kids.length
  group : ∀ (t c : Nat) (k : RangeNode), labels[t]? = some c → kids[t]? = some k →
    k.left < k.right ∧ prev ≤ k.left ∧ k.right ≤ right ∧
    ∀ j, prev ≤ j → j < right → ((k.left ≤ j ∧ j < k.right) ↔ charAt W j depth = some c)
  sorted : labels.Pairwise (fun a b => a < b)
  cover : ∀ j, prev ≤ j → j < right → ∃ c, c ∈ labels ∧ charAt W j depth = some c
  sizes : (kids.map RangeNode.size).sum = right - prev
  chain : kids.flatMap (fun k => List.range' k.left k.size) = List.range' prev (right - prev)

/-- What holds of a node that the builder emitted for the sorted list `W`. -/
structure InfoOK (W : List Key) (n : NodeInfo) : Prop where
  range : RangeOK W n.depth n.rn n.pre
  tailCase : ∀ t, n.tail = some t →
    n.term = true ∧ n.kids = [] ∧ n.labels = [] ∧ W[n.rn.left]? = some (n.pre ++ t) ∧
    n.rn.right = n.rn.left + 1 ∧ 2 ≤ t.length
  termCase : n.tail = none → (n.term = true ↔ W[n.rn.left]? = some n.pre)
  len : n.labels.length = n.kids.length
  kidsOK : ∀ (t c : Nat) (k : RangeNode), n.labels[t]? = some c → n.kids[t]? = some k →
    RangeOK W (n.depth + 1) k (n.pre ++ [c])
  sorted : n.labels.Pairwise (fun a b => a < b)
  cover : n.tail = none → ∀ w, w ∈ W → ∀ c, (n.pre ++ [c]) <+: w → c ∈ n.labels
  sizes : (n.kids.map RangeNode.size).sum + (if n.term then 1 else 0) = n.rn.size
  chain : n.tail = none →
    (if n.term then [n.rn.left] else []) ++ n.kids.flatMap (fun k => List.range' k.left k.size) =
      List.range' n.rn.left n.rn.size
  noTail : n.tail = none → ∀ cur, W[n.rn.left]? = some cur →
    ¬ (n.rn.left + 1 = n.rn.right ∧ n.depth + 1 < cur.length)

/-- The builder's output after a list of nodes. -/
def stateOf (nodes : List NodeInfo) : BuildState :=
  { loudBV := [false, true] ++ nodes.flatMap (fun n => List.replicate n.kids.length false ++ [true]),
    terminalBV := nodes.map (fun n => n.term),
    tailBV := nodes.map (fun n => n.tail.isSome),
    edges := nodes.flatMap (fun n => n.labels),
    vtails := nodes.flatMap (fun n => n.tail.toList) }

/-- The builder's output after one more node. -/
def appendNode (st : BuildState) (n : NodeInfo) : BuildState :=
  { loudBV := st.loudBV ++ (List.replicate n.kids.length false ++ [true]),
    terminalBV := st.terminalBV ++ [n.term],
    tailBV := st.tailBV ++ [n.tail.isSome],
    edges := st.edges ++ n.labels,
    vtails := st.vtails ++ n.tail.toList }

/-- Index of the first child of node `j`: one more than the number of
children of the nodes before it. -/
def firstChild (nodes : List NodeInfo) (j : Nat) : Nat :=
  1 + ((nodes.take j).map (fun n => n.kids.length)).sum

/-- A node's range and depth. -/
def NodeInfo.id (n : NodeInfo) : RangeNode × Nat := (n.rn, n.depth)

/-- A node's children with their depth. -/
def NodeInfo.kidsD (n : NodeInfo) : List (RangeNode × Nat) := n.kids.map (fun k => (k, n.depth + 1))

/-- The dictionary `c` is what the builder emits for the nodes `nodes` of the
trie of the sorted list `W`, in level order: each node's children follow, in
order, those of the nodes before it. -/
structure Table (W : List Key) (c : Core) (nodes : List NodeInfo) : Prop where
  loud_eq : c.loud = (stateOf nodes).loudBV
  terminal_eq : c.terminal = (stateOf nodes).terminalBV
  tail_eq : c.tail = (stateOf nodes).tailBV
  edges_eq : c.edges = (stateOf nodes).edges
  vtails_eq : c.vtails = (stateOf nodes).vtails
  keyNum_eq : c.keyNum = W.length
  ready : c.isReady = true
  link : nodes.map NodeInfo.id = (⟨0, W.length⟩, 0) :: nodes.flatMap NodeInfo.kidsD
  ok : ∀ n, n ∈ nodes → InfoOK W n
  termCount : (nodes.filter (fun n => n.term)).length = W.length
  order : ∀ j, j < nodes.length → j < firstChild nodes j
  sortedW : W.Pairwise (fun a b => keyLess a b = true)

/-- The invariant of the main loop of `build`: `done` are the nodes emitted so
far, and the nodes emitted or queued are the root followed by the children
of the emitted nodes in order. -/
structure BuildInv (W : List Key) (depth : Nat) (q nextQ : List RangeNode) (st : BuildState)
    (done : List NodeInfo) : Prop where
  st_eq : st = stateOf done
  link : done.map NodeInfo.id ++
      (q.map (fun r => (r, depth)) ++ nextQ.map (fun r => (r, depth + 1))) =
    (⟨0, W.length⟩, 0) :: done.flatMap NodeInfo.kidsD
  ok : ∀ n, n ∈ done → InfoOK W n
  qOK : ∀ r, r ∈ q → ∃ p, RangeOK W depth r p
  nqOK : ∀ r, r ∈ nextQ → ∃ p, RangeOK W (depth + 1) r p
  count : (done.filter (fun n => n.term)).length + (q.map RangeNode.size).sum +
    (nextQ.map RangeNode.size).sum = W.length
  order : ∀ j, j < done.length → j < firstChild done j

/-- Position in `loud` where the description of node `j` starts. -/
def posOf (nodes : List NodeInfo) (j : Nat) : Nat := firstChild nodes j + j + 1

/-- The part of `loud` before the description of node `j`. -/
def loudBefore (nodes : List NodeInfo) (j : Nat) : List Bool :=
  [false, true] ++ (nodes.take j).flatMap (fun n => List.replicate n.kids.length false ++ [true])

/-- Index in the tail pool of the tail of node `j`: the number of tails before it. -/
def tailIdx (nodes : List NodeInfo) (j : Nat) : Nat :=
  ((nodes.take j).flatMap (fun n => n.tail.toList)).length

/-- Identifier of node `j`: the number of terminal nodes before it. -/
def idOf (nodes : List NodeInfo) (j : Nat) : Nat := ((nodes.take j).filter (fun n => n.term)).length

/-- The key that ends at a terminal node. -/
def NodeInfo.key (n : NodeInfo) : Key := n.pre ++ (n.tail.getD [])

/-- Identifier `i` belongs to a terminal node whose key is `k`. -/
def IdKey (nodes : List NodeInfo) (i : Nat) (k : Key) : Prop :=
  ∃ j n, nodes[j]? = some n ∧ n.term = true ∧ idOf nodes j = i ∧ n.key = k

/-- The keys of `W` among the beginnings of `s` of lengths `d, d+1, ..., d+r-1`,
in this order. -/
def hitsSpec (W : List Key) (s : Key) : Nat → Nat → List Key
  | 0, _ => []
  | r + 1, d => (if s.take d ∈ W then [s.take d] else []) ++ hitsSpec W s r (d + 1)

/-- The keys of `W` at the given indices. -/
def keysAt (W : List Key) (idxs : List Nat) : List Key := idxs.filterMap (fun i => W[i]?)

/-- Work left for the builder in a queue of ranges at one depth. -/
def potential (M depth : Nat) (q : List RangeNode) : Nat :=
  (q.map (fun rn => rn.size * (M + 1 - depth))).sum

/-- Whether `k` is the only key of `W` that starts with the first `d` bytes of `k`. -/
def alone (W : List Key) (k : Key) (d : Nat) : Bool :=
  W.all (fun w => !(decide (k.take d <+: w)) || decide (w = k))

/-- The first depth among `d, d+1, ..., d+r-1` at which `k` is alone, or the
length of `k` when there is none. -/
def firstAlone (W : List Key) (k : Key) : Nat → Nat → Nat
  | 0, _ => k.length
  | r + 1, d => if alone W k d then d else firstAlone W k r (d + 1)

/-- Depth of the trie node at which the key `k` of `W` ends: the first depth
`d` with `d + 1 < |k|` at which `k` is alone (the rest of `k` is then stored as a
tail), or the length of `k`. -/
def termDepth (W : List Key) (k : Key) : Nat := firstAlone W k (k.length - 1) 0

/-- Level order of the keys of `W`: `a` ends at a shallower node than `b`, or at
the same depth and `a` is the smaller key. -/
def levelBefore (W : List Key) (a b : Key) : Bool :=
  decide (termDepth W a < termDepth W b) ||
    (decide (termDepth W a = termDepth W b) && keyLess a b)

end ux_tool

namespace ux_tool

/-- Level order of two nodes: `a` is shallower than `b`, or at the same depth
with its range to the left of that of `b`. -/
def NodeBefore (a b : NodeInfo) : Prop :=
  a.depth < b.depth ∨ (a.depth = b.depth ∧ a.rn.right ≤ b.rn.left)

end ux_tool

namespace ux_tool

/-! ## Facts about the order on keys and the sorted word list -/

theorem keyLess_irrefl (a : Key) : keyLess a a = false := by
  induction a with
  | nil => rfl
  | cons x xs ih => simp [keyLess, ih]

theorem keyLess_trans : ∀ (a b c : Key), keyLess a b = true → keyLess b c = true →
    keyLess a c = true
  | [], [], _, h, _ => by simp [keyLess] at h
  | [], _ :: _, [], _, h => by simp [keyLess] at h
  | [], _ :: _, _ :: _, _, _ => by simp [keyLess]
  | _ :: _, [], _, h, _ => by simp [keyLess] at h
  | _ :: _, _ :: _, [], _, h => by simp [keyLess] at h
  | x :: xs, y :: ys, z :: zs, h1, h2 => by
    simp only [keyLess] at h1 h2 ⊢
    by_cases hxy : x < y
    · by_cases hyz : y < z
      · have : x < z := lt_trans hxy hyz
        simp [this]
      · by_cases hzy : z < y
        · simp [hyz, hzy] at h2
        · have : y = z := by omega
          subst this
          simp [hxy]
    · by_cases hyx : y < x
      · simp [hxy, hyx] at h1
      · have hxy2 : x = y := by omega
        subst hxy2
        simp only [hxy, if_false] at h1
        by_cases hxz : x < z
        · simp [hxz]
        · by_cases hzx : z < x
          · simp [hxz, hzx] at h2
          · simp only [hxz, hzx, if_false] at h2 ⊢
            exact keyLess_trans xs ys zs h1 h2

theorem keyLess_total : ∀ (a b : Key), keyLess a b = false → keyLess b a = false → a = b
  | [], [], _, _ => rfl
  | [], _ :: _, h, _ => by simp [keyLess] at h
  | _ :: _, [], _, h => by simp [keyLess] at h
  | x :: xs, y :: ys, h1, h2 => by
    simp only [keyLess] at h1 h2
    by_cases hxy : x < y
    · simp [hxy] at h1
    · by_cases hyx : y < x
      · simp [hyx] at h2
      · have : x = y := by omega
        subst this
        simp only [hxy, if_false] at h1 h2
        rw [keyLess_total xs ys h1 h2]

theorem keyLess_asymm (a b : Key) (h : keyLess a b = true) : keyLess b a = false := by
  cases hba : keyLess b a with
  | false => rfl
  | true =>
    have := keyLess_trans a b a h hba
    rw [keyLess_irrefl] at this
    exact absurd this (by simp)

theorem mem_insertKey (k x : Key) (l : List Key) : x ∈ insertKey k l ↔ x = k ∨ x ∈ l := by
  induction l with
  | nil => simp [insertKey]
  | cons y ys ih =>
    simp only [insertKey]
    split
    · simp only [List.mem_cons, ih]
      tauto
    · simp only [List.mem_cons]

theorem mem_sortKeys (x : Key) (l : List Key) : x ∈ sortKeys l ↔ x ∈ l := by
  induction l with
  | nil => simp [sortKeys]
  | cons y ys ih => simp [sortKeys, mem_insertKey, ih]

theorem insertKey_sorted (k : Key) (l : List Key)
    (h : l.Pairwise (fun a b => keyLess b a = false)) :
    (insertKey k l).Pairwise (fun a b => keyLess b a = false) := by
  induction l with
  | nil => simp [insertKey]
  | cons y ys ih =>
    rw [List.pairwise_cons] at h
    simp only [insertKey]
    split
    · rename_i hyk
      rw [List.pairwise_cons]
      refine ⟨?_, ih h.2⟩
      intro z hz
      rw [mem_insertKey] at hz
      rcases hz with rfl | hz
      · exact keyLess_asymm _ _ hyk
      · exact h.1 z hz
    · rename_i hyk
      have hyk2 : keyLess y k = false := by simpa using hyk
      rw [List.pairwise_cons]
      refine ⟨?_, List.pairwise_cons.mpr h⟩
      intro z hz
      rcases List.mem_cons.mp hz with rfl | hz
      · exact hyk2
      · cases hzk : keyLess z k with
        | false => rfl
        | true =>
          have h1 := h.1 z hz
          cases hyz : keyLess y z with
          | true =>
            have := keyLess_trans y z k hyz hzk
            rw [hyk2] at this
            exact absurd this (by simp)
          | false =>
            have := keyLess_total y z hyz h1
            subst this
            rw [hyk2] at hzk
            exact absurd hzk (by simp)

theorem sortKeys_sorted (l : List Key) :
    (sortKeys l).Pairwise (fun a b => keyLess b a = false) := by
  induction l with
  | nil => simp [sortKeys]
  | cons y ys ih => exact insertKey_sorted y _ ih

theorem mem_unique (x : Key) (l : List Key) : x ∈ unique l ↔ x ∈ l := by
  induction l with
  | nil => simp [unique]
  | cons y ys ih =>
    cases ys with
    | nil => simp [unique]
    | cons z zs =>
      rw [unique]
      split
      · rename_i hyz
        subst hyz
        rw [ih]
        simp
      · simp only [List.mem_cons] at ih ⊢
        rw [ih]

theorem unique_sorted (l : List Key) (h : l.Pairwise (fun a b => keyLess b a = false)) :
    (unique l).Pairwise (fun a b => keyLess a b = true) := by
  induction l with
  | nil => simp [unique]
  | cons y ys ih =>
    rw [List.pairwise_cons] at h
    cases ys with
    | nil => simp [unique]
    | cons z zs =>
      rw [unique]
      split
      · exact ih h.2
      · rename_i hyz
        rw [List.pairwise_cons]
        refine ⟨?_, ih h.2⟩
        intro w hw
        rw [mem_unique] at hw
        have hwy := h.1 w hw
        have hzy := h.1 z (List.mem_cons_self _ _)
        -- y < z and z ≤ w
        have hyz2 : keyLess y z = true := by
          cases hh : keyLess y z with
          | true => rfl
          | false => exact absurd (keyLess_total y z hh hzy) hyz
        rcases List.mem_cons.mp hw with rfl | hw2
        · exact hyz2
        · have hwz := (List.pairwise_cons.mp h.2).1 w hw2
          cases hh : keyLess z w with
          | true => exact keyLess_trans _ _ _ hyz2 hh
          | false =>
            have := keyLess_total z w hh hwz
            subst this
            exact hyz2

theorem sortUnique_sorted (l : List Key) :
    (sortUnique l).Pairwise (fun a b => keyLess a b = true) :=
  unique_sorted _ (sortKeys_sorted l)

theorem mem_sortUnique (x : Key) (l : List Key) : x ∈ sortUnique l ↔ x ∈ l := by
  simp [sortUnique, mem_unique, mem_sortKeys]

theorem sortUnique_nodup (l : List Key) : (sortUnique l).Nodup := by
  have h := sortUnique_sorted l
  refine List.Pairwise.imp ?_ h
  intro a b hab heq
  subst heq
  rw [keyLess_irrefl] at hab
  exact absurd hab (by simp)

end ux_tool

namespace ux_tool

/-! ## Keys with a common beginning -/

theorem keyLess_append_left (p a b : Key) : keyLess (p ++ a) (p ++ b) = keyLess a b := by
  induction p with
  | nil => rfl
  | cons x xs ih => simp [keyLess, ih]

theorem keyLess_append_self (p x : Key) : keyLess (p ++ x) p = false := by
  have h := keyLess_append_left p x []
  simp only [List.append_nil] at h
  rw [h]
  cases x <;> rfl

theorem getElem?_append_length (p r : Key) : (p ++ r)[p.length]? = r[0]? := by
  rw [List.getElem?_append_right (le_refl _)]
  simp

theorem isPrefix_snoc {p w : Key} {c : Nat} (h : p <+: w) (hc : w[p.length]? = some c) :
    (p ++ [c]) <+: w := by
  obtain ⟨r, rfl⟩ := h
  rw [getElem?_append_length] at hc
  cases r with
  | nil => simp at hc
  | cons y ys =>
    simp at hc
    subst hc
    exact ⟨ys, by simp⟩

theorem isPrefix_snoc_inv {p w : Key} {c : Nat} (h : (p ++ [c]) <+: w) :
    p <+: w ∧ w[p.length]? = some c := by
  obtain ⟨r, rfl⟩ := h
  constructor
  · exact ⟨[c] ++ r, by simp⟩
  · rw [List.append_assoc, getElem?_append_length]
    simp

theorem isPrefix_length_eq {p w : Key} (h : p <+: w) (hl : w.length = p.length) : w = p := by
  obtain ⟨r, rfl⟩ := h
  have : r = [] := by
    simp at hl
    exact hl
  simp [this]

theorem keyLess_char_mono {p w w2 : Key} {c c2 : Nat} (hlt : keyLess w w2 = true)
    (h1 : p <+: w) (h2 : p <+: w2) (hc : w[p.length]? = some c)
    (hc2 : w2[p.length]? = some c2) : c ≤ c2 := by
  obtain ⟨r, rfl⟩ := h1
  obtain ⟨r2, rfl⟩ := h2
  rw [keyLess_append_left] at hlt
  rw [getElem?_append_length] at hc hc2
  cases r with
  | nil => simp at hc
  | cons y ys =>
    cases r2 with
    | nil => simp at hc2
    | cons z zs =>
      simp at hc hc2
      subst hc
      subst hc2
      simp only [keyLess] at hlt
      by_cases h : y < z
      · omega
      · by_cases h2 : z < y
        · simp [h, h2] at hlt
        · omega

theorem sorted_lt {W : List Key} (hs : W.Pairwise (fun a b => keyLess a b = true))
    {i j : Nat} {a b : Key} (hi : W[i]? = some a) (hj : W[j]? = some b) (hij : i < j) :
    keyLess a b = true := by
  rw [List.getElem?_eq_some] at hi hj
  obtain ⟨hi1, rfl⟩ := hi
  obtain ⟨hj1, rfl⟩ := hj
  exact (List.pairwise_iff_getElem.mp hs) i j hi1 hj1 hij

theorem charAt_eq {W : List Key} {i d c : Nat} :
    charAt W i d = some c ↔ ∃ w, W[i]? = some w ∧ w[d]? = some c := by
  unfold charAt
  cases h : W[i]? with
  | none => simp
  | some w => simp

/-! ## The grouping loop -/

theorem range'_split (a m b : Nat) (h1 : a ≤ m) (h2 : m ≤ b) :
    List.range' a (m - a) ++ List.range' m (b - m) = List.range' a (b - a) := by
  obtain ⟨x, rfl⟩ := Nat.exists_eq_add_of_le h1
  obtain ⟨y, rfl⟩ := Nat.exists_eq_add_of_le h2
  have e1 : a + x - a = x := by omega
  have e2 : a + x + y - (a + x) = y := by omega
  have e3 : a + x + y - a = y + x := by omega
  rw [e1, e2, e3, List.range'_append_1]

theorem groupLoop_spec (W : List Key) (depth right : Nat) :
    ∀ (fuel prev prevC i : Nat) (st : BuildState) (nq : List RangeNode),
      prev < i → i ≤ right →
      (∀ j, prev ≤ j → j < right → ∃ c, charAt W j depth = some c) →
      (∀ j j2 c c2, prev ≤ j → j ≤ j2 → j2 < right → charAt W j depth = some c →
        charAt W j2 depth = some c2 → c ≤ c2) →
      (∀ j, prev ≤ j → j < i → charAt W j depth = some prevC) →
      right + 1 - i ≤ fuel →
      ∃ labels kids,
        groupLoop W depth right fuel prev prevC i st nq =
          some ({ st with edges := st.edges ++ labels,
                          loudBV := st.loudBV ++ List.replicate kids.length false },
                nq ++ kids) ∧
        GroupsOK W depth prev right labels kids := by
  intro fuel
  induction fuel with
  | zero =>
    intro prev prevC i st nq _ h2 _ _ _ hf
    omega
  | succ fuel ih =>
    intro prev prevC i st nq h1 h2 hdef hmono hrun hf
    by_cases hir : i < right
    · obtain ⟨c, hc⟩ := hdef i (by omega) hir
      by_cases hpc : prevC = c
      · -- the run goes on
        have hrun2 : ∀ j, prev ≤ j → j < i + 1 → charAt W j depth = some prevC := by
          intro j hj1 hj2
          by_cases hji : j = i
          · subst hji; rw [hc, hpc]
          · exact hrun j hj1 (by omega)
        obtain ⟨labels, kids, heq, hok⟩ :=
          ih prev prevC (i + 1) st nq (by omega) (by omega) hdef hmono hrun2 (by omega)
        refine ⟨labels, kids, ?_, hok⟩
        simp only [groupLoop, hir, if_true, hc, hpc]
        rw [← hpc]
        exact heq
      · -- a new group starts at `i`
        have hprev : charAt W prev depth = some prevC := hrun prev (le_refl _) h1
        have hlt : prevC < c := by
          have := hmono prev i prevC c (le_refl _) (by omega) hir hprev hc
          omega
        obtain ⟨labels, kids, heq, hok⟩ :=
          ih i c (i + 1) (pushChild st nq prevC prev i).1 (pushChild st nq prevC prev i).2
            (by omega) (by omega)
            (fun j hj1 hj2 => hdef j (by omega) hj2)
            (fun j j2 c1 c2 hj1 hj2 hj3 => hmono j j2 c1 c2 (by omega) hj2 hj3)
            (fun j hj1 hj2 => by
              have : j = i := by omega
              subst this; exact hc)
            (by omega)
        refine ⟨prevC :: labels, ⟨prev, i⟩ :: kids, ?_, ?_⟩
        · simp only [groupLoop, hir, if_true, hc, hpc, if_false]
          rw [heq]
          simp [pushChild, List.replicate_succ]
        · -- every later label is larger than `prevC`
          have hlab : ∀ c2, c2 ∈ labels → c ≤ c2 := by
            intro c2 hc2
            obtain ⟨t, ht⟩ := List.mem_iff_getElem?.mp hc2
            have htl : t < kids.length := by
              rw [← hok.len]
              exact (List.getElem?_eq_some.mp ht).1
            obtain ⟨k, hk⟩ : ∃ k, kids[t]? = some k := ⟨kids[t], List.getElem?_eq_getElem htl⟩
            obtain ⟨g1, g2, g3, g4⟩ := hok.group t c2 k ht hk
            have hkc := (g4 k.left g2 (by omega)).mp ⟨le_refl _, g1⟩
            exact hmono i k.left c c2 (by omega) g2 (by omega) hc hkc
          constructor
          · simp [hok.len]
          · intro t c2 k ht hk
            cases t with
            | zero =>
              simp at ht hk
              subst ht
              subst hk
              dsimp only
              refine ⟨h1, le_refl _, by omega, ?_⟩
              intro j hj1 hj2
              constructor
              · intro hj
                exact hrun j hj.1 hj.2
              · intro hj
                refine ⟨hj1, ?_⟩
                by_contra hcon
                have := hmono i j c prevC (by omega) (by omega) hj2 hc hj
                omega
            | succ t =>
              simp at ht hk
              obtain ⟨g1, g2, g3, g4⟩ := hok.group t c2 k ht hk
              refine ⟨g1, by omega, g3, ?_⟩
              intro j hj1 hj2
              by_cases hji : i ≤ j
              · exact g4 j hji hj2
              · have hjc := hrun j hj1 (by omega)
                have hc2 := hlab c2 (List.mem_iff_getElem?.mpr ⟨t, ht⟩)
                constructor
                · intro hj; omega
                · intro hj
                  rw [hjc] at hj
                  simp at hj
                  omega
          · rw [List.pairwise_cons]
            refine ⟨?_, hok.sorted⟩
            intro c2 hc2
            have := hlab c2 hc2
            omega
          · intro j hj1 hj2
            by_cases hji : i ≤ j
            · obtain ⟨c2, hc2, hc3⟩ := hok.cover j hji hj2
              exact ⟨c2, List.mem_cons_of_mem _ hc2, hc3⟩
            · exact ⟨prevC, List.mem_cons_self _ _, hrun j hj1 (by omega)⟩
          · simp only [List.map_cons, List.sum_cons, hok.sizes, RangeNode.size]
            omega
          · rw [List.flatMap_cons, hok.chain]
            exact range'_split prev i right (by omega) (by omega)
    · -- the last group ends at `right`
      have hieq : i = right := by omega
      subst hieq
      refine ⟨[prevC], [⟨prev, i⟩], ?_, ?_⟩
      · simp [groupLoop, pushChild]
      · constructor
        · rfl
        · intro t c2 k ht hk
          cases t with
          | zero =>
            simp at ht hk
            subst ht
            subst hk
            dsimp only
            refine ⟨h1, le_refl _, le_refl _, ?_⟩
            intro j hj1 hj2
            constructor
            · intro _; exact hrun j hj1 hj2
            · intro _; exact ⟨hj1, hj2⟩
          | succ t => simp at ht
        · simp
        · intro j hj1 hj2
          exact ⟨prevC, by simp, hrun j hj1 hj2⟩
        · simp [RangeNode.size]
        · simp [RangeNode.size]

end ux_tool

namespace ux_tool

/-! ## One round of the builder -/

theorem range_longer {W : List Key} (hs : W.Pairwise (fun a b => keyLess a b = true))
    {depth : Nat} {rn : RangeNode} {p : Key} (hr : RangeOK W depth rn p)
    {j : Nat} {w : Key} (hw : W[j]? = some w) (h1 : rn.left < j) (h2 : j < rn.right) :
    depth < w.length := by
  obtain ⟨hlr, hrN, hpl, hiff⟩ := hr
  have hl : rn.left < W.length := by omega
  have hcur : W[rn.left]? = some W[rn.left] := List.getElem?_eq_getElem hl
  have hpc : p <+: W[rn.left] := (hiff _ _ hcur).mp ⟨le_refl _, hlr⟩
  have hpw : p <+: w := (hiff _ _ hw).mp ⟨by omega, h2⟩
  have hlt := sorted_lt hs hcur hw h1
  by_contra hcon
  have hle := hpw.length_le
  have hweq : w = p := isPrefix_length_eq hpw (by omega)
  obtain ⟨x, hx⟩ := hpc
  rw [hweq, ← hx, keyLess_append_self] at hlt
  exact absurd hlt (by simp)

theorem charAt_of_lt {W : List Key} {j depth : Nat} {w : Key} (hw : W[j]? = some w)
    (h : depth < w.length) : charAt W j depth = some w[depth] := by
  rw [charAt_eq]
  exact ⟨w, hw, List.getElem?_eq_getElem h⟩

theorem range_mono {W : List Key} (hs : W.Pairwise (fun a b => keyLess a b = true))
    {depth : Nat} {rn : RangeNode} {p : Key} (hr : RangeOK W depth rn p)
    {j j2 c c2 : Nat} (h1 : rn.left ≤ j) (h2 : j ≤ j2) (h3 : j2 < rn.right)
    (hc : charAt W j depth = some c) (hc2 : charAt W j2 depth = some c2) : c ≤ c2 := by
  obtain ⟨hlr, hrN, hpl, hiff⟩ := hr
  rw [charAt_eq] at hc hc2
  obtain ⟨w, hw, hwc⟩ := hc
  obtain ⟨w2, hw2, hwc2⟩ := hc2
  by_cases hjj : j = j2
  · subst hjj
    rw [hw] at hw2
    cases hw2
    rw [hwc] at hwc2
    cases hwc2
    exact le_refl _
  · have hlt := sorted_lt hs hw hw2 (by omega)
    have hp1 : p <+: w := (hiff _ _ hw).mp ⟨h1, by omega⟩
    have hp2 : p <+: w2 := (hiff _ _ hw2).mp ⟨by omega, h3⟩
    subst hpl
    exact keyLess_char_mono hlt hp1 hp2 hwc hwc2

theorem kids_of_groups {W : List Key} {depth : Nat} {rn : RangeNode} {p : Key}
    (hr : RangeOK W depth rn p) {prev : Nat} (hprev : rn.left ≤ prev)
    (hlen : ∀ j w, W[j]? = some w → rn.left ≤ j → j < rn.right →
      (prev ≤ j ↔ depth < w.length))
    {labels : List Nat} {kids : List RangeNode}
    (hg : GroupsOK W depth prev rn.right labels kids) :
    (∀ (t c : Nat) (k : RangeNode), labels[t]? = some c → kids[t]? = some k →
        RangeOK W (depth + 1) k (p ++ [c])) ∧
    (∀ w, w ∈ W → ∀ c, (p ++ [c]) <+: w → c ∈ labels) := by
  obtain ⟨hlr, hrN, hpl, hiff⟩ := hr
  constructor
  · intro t c k ht hk
    obtain ⟨g1, g2, g3, g4⟩ := hg.group t c k ht hk
    refine ⟨g1, le_trans g3 hrN, by simp [hpl], ?_⟩
    intro j w hw
    constructor
    · intro hj
      have hc := (g4 j (by omega) (by omega)).mp hj
      rw [charAt_eq] at hc
      obtain ⟨w2, hw2, hwc⟩ := hc
      rw [hw] at hw2
      cases hw2
      have hpw : p <+: w := (hiff _ _ hw).mp ⟨by omega, by omega⟩
      subst hpl
      exact isPrefix_snoc hpw hwc
    · intro hj
      obtain ⟨hpw, hwc⟩ := isPrefix_snoc_inv hj
      have hjr := (hiff _ _ hw).mpr hpw
      have hdl : depth < w.length := by
        rw [← hpl]
        exact (List.getElem?_eq_some.mp hwc).1
      have hpj : prev ≤ j := (hlen j w hw hjr.1 hjr.2).mpr hdl
      apply (g4 j hpj hjr.2).mpr
      rw [charAt_eq]
      exact ⟨w, hw, by rw [← hpl]; exact hwc⟩
  · intro w hwW c hj
    obtain ⟨j, hw⟩ := List.mem_iff_getElem?.mp hwW
    obtain ⟨hpw, hwc⟩ := isPrefix_snoc_inv hj
    have hjr := (hiff _ _ hw).mpr hpw
    have hdl : depth < w.length := by
      rw [← hpl]
      exact (List.getElem?_eq_some.mp hwc).1
    have hpj : prev ≤ j := (hlen j w hw hjr.1 hjr.2).mpr hdl
    obtain ⟨c2, hc2, hc3⟩ := hg.cover j hpj hjr.2
    rw [charAt_eq] at hc3
    obtain ⟨w2, hw2, hwc2⟩ := hc3
    rw [hw] at hw2
    cases hw2
    rw [← hpl, hwc] at hwc2
    cases hwc2
    exact hc2

theorem processNode_spec (W : List Key) (hs : W.Pairwise (fun a b => keyLess a b = true))
    (depth : Nat) (rn : RangeNode) (p : Key) (hr : RangeOK W depth rn p)
    (st : BuildState) (nq : List RangeNode) :
    ∃ n : NodeInfo, n.rn = rn ∧ n.depth = depth ∧ n.pre = p ∧
      processNode W depth rn st nq = some (appendNode st n, nq ++ n.kids) ∧ InfoOK W n := by
  have hr0 := hr
  obtain ⟨hlr, hrN, hpl, hiff⟩ := hr
  have hl : rn.left < W.length := by omega
  have hcur : W[rn.left]? = some W[rn.left] := List.getElem?_eq_getElem hl
  generalize hcdef : W[rn.left] = cur at hcur
  have hpc : p <+: cur := (hiff _ _ hcur).mp ⟨le_refl _, hlr⟩
  have hple := hpc.length_le
  have hcureq : cur = p ++ cur.drop depth := by
    have := List.prefix_iff_eq_take.mp hpc
    rw [hpl] at this
    conv_lhs => rw [← List.take_append_drop depth cur]
    rw [← this]
  by_cases htail : rn.left + 1 = rn.right ∧ depth + 1 < cur.length
  · -- a tail
    refine ⟨⟨rn, depth, p, true, some (cur.drop depth), [], []⟩, rfl, rfl, rfl, ?_, ?_⟩
    · simp [processNode, hcur, htail, appendNode]
    · refine ⟨hr0, ?_, ?_, rfl, ?_, ?_, ?_, ?_, ?_, ?_⟩
      · intro t ht
        simp only [Option.some.injEq] at ht
        subst ht
        refine ⟨rfl, rfl, rfl, ?_, htail.1.symm, ?_⟩
        · show W[rn.left]? = some (p ++ cur.drop depth)
          rw [← hcureq]; exact hcur
        · simp; omega
      · intro h; simp at h
      · intro t c k ht; simp at ht
      · simp
      · intro h; simp at h
      · simp [RangeNode.size]; omega
      · intro h; simp at h
      · intro h; simp at h
  · by_cases hterm : depth = cur.length
    · have hcp : cur = p := isPrefix_length_eq hpc (by omega)
      by_cases hleaf : rn.left + 1 = rn.right
      · -- a terminal leaf
        refine ⟨⟨rn, depth, p, true, none, [], []⟩, rfl, rfl, rfl, ?_, ?_⟩
        · simp [processNode, hcur, htail, hterm, hleaf, appendNode]
        · refine ⟨hr0, ?_, ?_, rfl, ?_, ?_, ?_, ?_, ?_, ?_⟩
          rotate_right
          · intro _ cur2 hc2
            dsimp only at hc2 ⊢
            rw [hcur] at hc2
            cases hc2
            exact htail
          · intro t ht; simp at ht
          · intro _
            simp only [true_iff]
            rw [← hcp]; exact hcur
          · intro t c k ht; simp at ht
          · simp
          · intro _ w hwW c hj
            dsimp only at hj
            obtain ⟨j, hw⟩ := List.mem_iff_getElem?.mp hwW
            obtain ⟨hpw, hwc⟩ := isPrefix_snoc_inv hj
            have hjr := (hiff _ _ hw).mpr hpw
            have hjl : j = rn.left := by omega
            subst hjl
            rw [hcur] at hw
            cases hw
            have := (List.getElem?_eq_some.mp hwc).1
            omega
          · simp [RangeNode.size]; omega
          · intro _
            have : rn.right - rn.left = 1 := by omega
            simp [RangeNode.size, this]
      · -- a terminal node with children
        have hl1 : rn.left + 1 < rn.right := by omega
        have hl1W : rn.left + 1 < W.length := by omega
        have hw1 : W[rn.left + 1]? = some W[rn.left + 1] := List.getElem?_eq_getElem hl1W
        have hlong : ∀ j w, W[j]? = some w → rn.left ≤ j → j < rn.right →
            (rn.left + 1 ≤ j ↔ depth < w.length) := by
          intro j w hw h1 h2
          constructor
          · intro h; exact range_longer hs hr0 hw (by omega) h2
          · intro h
            by_contra hcon
            have : j = rn.left := by omega
            subst this
            rw [hcur] at hw
            cases hw
            omega
        have hdef : ∀ j, rn.left + 1 ≤ j → j < rn.right → ∃ c, charAt W j depth = some c := by
          intro j h1 h2
          have hjW : j < W.length := by omega
          have hw : W[j]? = some W[j] := List.getElem?_eq_getElem hjW
          exact ⟨_, charAt_of_lt hw ((hlong j _ hw (by omega) h2).mp h1)⟩
        obtain ⟨prevC, hprevC⟩ := hdef (rn.left + 1) (le_refl _) hl1
        obtain ⟨labels, kids, heq, hok⟩ := groupLoop_spec W depth rn.right (W.length + 1)
          (rn.left + 1) prevC (rn.left + 1 + 1)
          { st with tailBV := st.tailBV ++ [false], terminalBV := st.terminalBV ++ [true] } nq
          (by omega) (by omega) hdef
          (fun j j2 c c2 h1 h2 h3 => range_mono hs hr0 (by omega) h2 h3)
          (fun j h1 h2 => by
            have : j = rn.left + 1 := by omega
            subst this; exact hprevC)
          (by omega)
        obtain ⟨hk1, hk2⟩ := kids_of_groups hr0 (by omega) hlong hok
        refine ⟨⟨rn, depth, p, true, none, labels, kids⟩, rfl, rfl, rfl, ?_, ?_⟩
        · unfold processNode
          simp only [hcur]
          rw [if_neg htail, if_pos hterm, if_neg hleaf]
          simp only [hprevC]
          rw [heq]
          simp [appendNode]
        · refine ⟨hr0, ?_, ?_, hok.len, hk1, hok.sorted, fun _ => hk2, ?_, ?_, ?_⟩
          rotate_right
          · intro _ cur2 hc2
            dsimp only at hc2 ⊢
            rw [hcur] at hc2
            cases hc2
            exact htail
          · intro t ht; simp at ht
          · intro _
            simp only [true_iff]
            rw [← hcp]; exact hcur
          · simp only [hok.sizes, RangeNode.size, if_true]
            omega
          · intro _
            show (if true = true then [rn.left] else []) ++ kids.flatMap _ = _
            rw [if_pos rfl, hok.chain]
            have h1 : [rn.left] = List.range' rn.left (rn.left + 1 - rn.left) := by simp
            rw [h1]
            exact range'_split rn.left (rn.left + 1) rn.right (by omega) (by omega)
    · -- an inner node where no key ends
      have hdl : depth < cur.length := by omega
      have hlong : ∀ j w, W[j]? = some w → rn.left ≤ j → j < rn.right →
          (rn.left ≤ j ↔ depth < w.length) := by
        intro j w hw h1 h2
        constructor
        · intro _
          by_cases hjl : j = rn.left
          · subst hjl
            rw [hcur] at hw
            cases hw
            exact hdl
          · exact range_longer hs hr0 hw (by omega) h2
        · intro _; exact h1
      have hdef : ∀ j, rn.left ≤ j → j < rn.right → ∃ c, charAt W j depth = some c := by
        intro j h1 h2
        have hjW : j < W.length := by omega
        have hw : W[j]? = some W[j] := List.getElem?_eq_getElem hjW
        exact ⟨_, charAt_of_lt hw ((hlong j _ hw h1 h2).mp h1)⟩
      obtain ⟨prevC, hprevC⟩ := hdef rn.left (le_refl _) hlr
      obtain ⟨labels, kids, heq, hok⟩ := groupLoop_spec W depth rn.right (W.length + 1)
        rn.left prevC (rn.left + 1)
        { st with tailBV := st.tailBV ++ [false], terminalBV := st.terminalBV ++ [false] } nq
        (by omega) (by omega) hdef
        (fun j j2 c c2 h1 h2 h3 => range_mono hs hr0 h1 h2 h3)
        (fun j h1 h2 => by
          have : j = rn.left := by omega
          subst this; exact hprevC)
        (by omega)
      obtain ⟨hk1, hk2⟩ := kids_of_groups hr0 (le_refl _) hlong hok
      refine ⟨⟨rn, depth, p, false, none, labels, kids⟩, rfl, rfl, rfl, ?_, ?_⟩
      · unfold processNode
        simp only [hcur]
        rw [if_neg htail, if_neg hterm]
        simp only [hprevC]
        rw [heq]
        simp [appendNode]
      · refine ⟨hr0, ?_, ?_, hok.len, hk1, hok.sorted, fun _ => hk2, ?_, ?_, ?_⟩
        rotate_right
        · intro _ cur2 hc2
          dsimp only at hc2 ⊢
          rw [hcur] at hc2
          cases hc2
          exact htail
        · intro t ht; simp at ht
        · intro _
          constructor
          · intro h; simp at h
          · intro h
            dsimp only at h
            rw [hcur] at h
            cases h
            omega
        · simp [hok.sizes, RangeNode.size]
        · intro _
          show (if false = true then [rn.left] else []) ++ kids.flatMap _ = _
          rw [if_neg (by simp), List.nil_append, hok.chain]
          rfl

end ux_tool

namespace ux_tool

/-! ## The main loop of the builder -/

theorem stateOf_append (done : List NodeInfo) (n : NodeInfo) :
    stateOf (done ++ [n]) = appendNode (stateOf done) n := by
  simp [stateOf, appendNode, List.flatMap_append]

theorem length_le_maxLen {W : List Key} {w : Key} (h : w ∈ W) : w.length ≤ maxLen W := by
  induction W with
  | nil => simp at h
  | cons x xs ih =>
    simp only [maxLen]
    rcases List.mem_cons.mp h with rfl | h2
    · exact le_max_left _ _
    · exact le_trans (ih h2) (le_max_right _ _)

theorem potential_cons (M d : Nat) (rn : RangeNode) (q : List RangeNode) :
    potential M d (rn :: q) = rn.size * (M + 1 - d) + potential M d q := by
  simp [potential]

theorem potential_append (M d : Nat) (q q2 : List RangeNode) :
    potential M d (q ++ q2) = potential M d q + potential M d q2 := by
  simp [potential]

theorem potential_eq (M d : Nat) (q : List RangeNode) :
    potential M d q = (q.map RangeNode.size).sum * (M + 1 - d) := by
  induction q with
  | nil => simp [potential]
  | cons x xs ih =>
    rw [potential_cons, ih]
    simp only [List.map_cons, List.sum_cons]
    ring

theorem depth_le_maxLen {W : List Key} {depth : Nat} {rn : RangeNode} {p : Key}
    (hr : RangeOK W depth rn p) : depth ≤ maxLen W := by
  obtain ⟨hlr, hrN, hpl, hiff⟩ := hr
  have hl : rn.left < W.length := by omega
  have hcur : W[rn.left]? = some W[rn.left] := List.getElem?_eq_getElem hl
  have hpc : p <+: W[rn.left] := (hiff _ _ hcur).mp ⟨le_refl _, hlr⟩
  have := hpc.length_le
  have := length_le_maxLen (List.getElem_mem hl)
  omega

/-- One round of the loop keeps the invariant and uses up potential. -/
theorem build_step (W : List Key) (hs : W.Pairwise (fun a b => keyLess a b = true))
    (depth : Nat) (rn : RangeNode) (q nextQ : List RangeNode) (st : BuildState)
    (done : List NodeInfo) (hinv : BuildInv W depth (rn :: q) nextQ st done) :
    ∃ n : NodeInfo,
      processNode W depth rn st nextQ = some (appendNode st n, nextQ ++ n.kids) ∧
      BuildInv W depth q (nextQ ++ n.kids) (appendNode st n) (done ++ [n]) ∧
      potential (maxLen W) depth q + potential (maxLen W) (depth + 1) (nextQ ++ n.kids) <
        potential (maxLen W) depth (rn :: q) + potential (maxLen W) (depth + 1) nextQ := by
  obtain ⟨p, hp⟩ := hinv.qOK rn (List.mem_cons_self _ _)
  obtain ⟨n, hrn, hdepth, hpre, heq, hok⟩ := processNode_spec W hs depth rn p hp st nextQ
  refine ⟨n, heq, ?_, ?_⟩
  · constructor
    · rw [hinv.st_eq, stateOf_append]
    · have h := hinv.link
      have hid : n.id = (rn, depth) := by simp [NodeInfo.id, hrn, hdepth]
      have hkd : n.kidsD = List.map (fun r => (r, depth + 1)) n.kids := by
        simp [NodeInfo.kidsD, hdepth]
      have key : (done ++ [n]).map NodeInfo.id ++ (q.map (fun r => (r, depth)) ++
            (nextQ ++ n.kids).map (fun r => (r, depth + 1))) =
          (done.map NodeInfo.id ++ ((rn :: q).map (fun r => (r, depth)) ++
            nextQ.map (fun r => (r, depth + 1)))) ++ n.kidsD := by
        simp [hid, hkd]
      rw [key, h]
      simp [List.flatMap_append]
    · intro m hm
      rcases List.mem_append.mp hm with hm | hm
      · exact hinv.ok m hm
      · simp at hm
        subst hm
        exact hok
    · intro r hr
      exact hinv.qOK r (List.mem_cons_of_mem _ hr)
    · intro r hr
      rcases List.mem_append.mp hr with hr | hr
      · exact hinv.nqOK r hr
      · obtain ⟨t, ht⟩ := List.mem_iff_getElem?.mp hr
        have htl : t < n.labels.length := by
          rw [hok.len]
          exact (List.getElem?_eq_some.mp ht).1
        have := hok.kidsOK t _ r (List.getElem?_eq_getElem htl) ht
        rw [hdepth] at this
        exact ⟨_, this⟩
    · have h := hinv.count
      have hsz := hok.sizes
      rw [hrn] at hsz
      simp only [List.filter_append, List.length_append, List.map_append, List.sum_append,
        List.map_cons, List.sum_cons] at h ⊢
      by_cases hterm : n.term = true
      · simp [hterm] at hsz ⊢
        omega
      · simp [hterm] at hsz ⊢
        omega
    · intro j hj
      by_cases hjd : j < done.length
      · have := hinv.order j hjd
        simp only [firstChild] at this ⊢
        rw [List.take_append_of_le_length (by omega)]
        exact this
      · have hjeq : j = done.length := by
          simp at hj; omega
        subst hjeq
        have hl := congrArg List.length hinv.link
        simp only [firstChild, List.take_left', List.length_append, List.length_map,
          List.length_cons, List.length_flatMap, NodeInfo.kidsD, Function.comp_def] at hl ⊢
        omega
  · have hsz := hok.sizes
    rw [hrn] at hsz
    have hd := depth_le_maxLen hp
    have hpos : 1 ≤ rn.size := by
      have := hp.1
      simp only [RangeNode.size]
      omega
    rw [potential_cons, potential_append, potential_eq _ _ n.kids]
    have h1 : (n.kids.map RangeNode.size).sum ≤ rn.size := by omega
    have h2 : maxLen W + 1 - depth = (maxLen W + 1 - (depth + 1)) + 1 := by omega
    rw [h2]
    have h3 : (n.kids.map RangeNode.size).sum * (maxLen W + 1 - (depth + 1)) ≤
        rn.size * (maxLen W + 1 - (depth + 1)) := Nat.mul_le_mul_right _ h1
    have h4 : rn.size * (maxLen W + 1 - (depth + 1) + 1) =
        rn.size * (maxLen W + 1 - (depth + 1)) + rn.size := by ring
    rw [h4]
    omega

theorem buildLoop_spec (W : List Key) (hs : W.Pairwise (fun a b => keyLess a b = true)) :
    ∀ (fuel depth : Nat) (q nextQ : List RangeNode) (st : BuildState) (done : List NodeInfo),
      BuildInv W depth q nextQ st done →
      potential (maxLen W) depth q + potential (maxLen W) (depth + 1) nextQ < fuel →
      ∃ nodes d2, buildLoop W fuel depth q nextQ st = some (stateOf nodes) ∧
        BuildInv W d2 [] [] (stateOf nodes) nodes := by
  intro fuel
  induction fuel with
  | zero => intro depth q nextQ st done _ h; omega
  | succ fuel ih =>
    intro depth q nextQ st done hinv hpot
    cases q with
    | nil =>
      cases nextQ with
      | nil =>
        refine ⟨done, depth, ?_, ?_⟩
        · simp [buildLoop, hinv.st_eq]
        · rw [← hinv.st_eq]; exact hinv
      | cons rn q2 =>
        have hinv2 : BuildInv W (depth + 1) (rn :: q2) [] st done := by
          constructor
          · exact hinv.st_eq
          · have h := hinv.link
            simpa using h
          · exact hinv.ok
          · exact hinv.nqOK
          · intro r hr; simp at hr
          · have h := hinv.count
            simpa using h
          · exact hinv.order
        obtain ⟨n, heq, hinv3, hlt⟩ := build_step W hs (depth + 1) rn q2 [] st done hinv2
        have hp0 : potential (maxLen W) depth [] = 0 := by simp [potential]
        have hp1 : potential (maxLen W) (depth + 1 + 1) [] = 0 := by simp [potential]
        obtain ⟨nodes, d2, h1, h2⟩ := ih (depth + 1) q2 ([] ++ n.kids) (appendNode st n)
          (done ++ [n]) hinv3 (by omega)
        refine ⟨nodes, d2, ?_, h2⟩
        simp only [buildLoop, heq]
        exact h1
    | cons rn q2 =>
      obtain ⟨n, heq, hinv3, hlt⟩ := build_step W hs depth rn q2 nextQ st done hinv
      obtain ⟨nodes, d2, h1, h2⟩ := ih depth q2 (nextQ ++ n.kids) (appendNode st n)
        (done ++ [n]) hinv3 (by omega)
      refine ⟨nodes, d2, ?_, h2⟩
      simp only [buildLoop, heq]
      exact h1

theorem buildCore_empty (wl : List Key) (h : sortUnique wl = []) :
    buildCore wl = some (⟨[false, true], [], [], [], [], [], 0, 0, false⟩ : Core) := by
  simp [buildCore, h, buildFuel, buildLoop]

theorem buildCore_table (wl : List Key) (hne : sortUnique wl ≠ []) :
    ∃ c nodes, buildCore wl = some c ∧ Table (sortUnique wl) c nodes := by
  have hs := sortUnique_sorted wl
  generalize hW : sortUnique wl = W at hs hne
  have hN : 0 < W.length := List.length_pos.mpr hne
  have hinv : BuildInv W 0 [⟨0, W.length⟩] []
      { loudBV := [false, true], terminalBV := [], tailBV := [], edges := [], vtails := [] }
      [] := by
    constructor
    · simp [stateOf]
    · simp
    · intro n hn; simp at hn
    · intro r hr
      simp at hr
      subst hr
      refine ⟨[], hN, le_refl _, rfl, ?_⟩
      intro i w hw
      have := (List.getElem?_eq_some.mp hw).1
      simp
      exact this
    · intro r hr; simp at hr
    · simp [RangeNode.size]
    · intro j hj; simp at hj
  obtain ⟨nodes, d2, h1, h2⟩ := buildLoop_spec W hs (buildFuel W) 0 [⟨0, W.length⟩] [] _ []
    hinv (by simp [potential, buildFuel, RangeNode.size])
  refine ⟨⟨(stateOf nodes).loudBV, (stateOf nodes).terminalBV, (stateOf nodes).tailBV,
    (stateOf nodes).edges, (stateOf nodes).vtails, [], 0, W.length, decide (W.length > 0)⟩,
    nodes, ?_, ?_⟩
  · simp only [buildCore, hW]
    have hne2 : W.length ≠ 0 := by omega
    simp only [hne2, ne_eq, not_false_eq_true, if_true, h1]
  · constructor
    · rfl
    · rfl
    · rfl
    · rfl
    · rfl
    · rfl
    · simp; omega
    · have h := h2.link
      simpa using h
    · exact h2.ok
    · have h := h2.count
      simpa using h
    · exact h2.order
    · exact hs

end ux_tool

namespace ux_tool

/-! ## Bit vectors: rank and select -/

theorem selectFrom_append (b : Bool) : ∀ (X Y : List Bool) (off : Nat),
    selectFrom b (X ++ b :: Y) (X.count b + 1) off = some (off + X.length)
  | [], Y, off => by simp [selectFrom]
  | x :: X, Y, off => by
    by_cases hx : x = b
    · subst hx
      simp only [List.cons_append, selectFrom, if_true, List.count_cons_self, List.length_cons]
      have h1 : ¬ (List.count x X + 1 + 1 = 1) := by omega
      rw [if_neg h1]
      have h2 : List.count x X + 1 + 1 - 1 = List.count x X + 1 := by omega
      rw [h2]
      have := selectFrom_append x X Y (off + 1)
      simp only [List.append_eq] at this ⊢
      rw [this]
      congr 1
      omega
    · have hx2 : (x == b) = false := by simpa using hx
      simp only [List.cons_append, selectFrom, hx, if_false, List.length_cons]
      rw [List.count_cons, hx2]
      simp only [Bool.false_eq_true, if_false, Nat.add_zero]
      have := selectFrom_append b X Y (off + 1)
      simp only [List.append_eq] at this ⊢
      rw [this]
      congr 1
      omega

theorem select_append (b : Bool) (X Y : List Bool) :
    select (X ++ b :: Y) (X.count b + 1) b = some X.length := by
  simp [select, selectFrom_append]

theorem select_of_getBit {bv : List Bool} {q : Nat} {b : Bool} (h : getBit bv q = some b) :
    select bv ((bv.take q).count b + 1) b = some q := by
  unfold getBit at h
  obtain ⟨hq, hb⟩ := List.getElem?_eq_some.mp h
  have hsplit : bv = bv.take q ++ b :: bv.drop (q + 1) := by
    rw [← hb]
    simp
  have hlen : (bv.take q).length = q := by
    rw [List.length_take]; omega
  conv_lhs => rw [hsplit]
  rw [List.take_left' hlen, select_append, hlen]

theorem rank_of_getBit {bv : List Bool} {q : Nat} {b : Bool} (h : getBit bv q = some b) :
    rank bv q b = (bv.take q).count b + 1 := by
  unfold getBit at h
  unfold rank
  rw [List.take_succ, h]
  simp

theorem rank_of_getBit_ne {bv : List Bool} {q : Nat} {b : Bool} (h : getBit bv q = some (!b)) :
    rank bv q b = (bv.take q).count b := by
  unfold getBit at h
  unfold rank
  rw [List.take_succ, h]
  cases b <;> simp

/-- The `r`-th occurrence exists when there are at least `r` occurrences. -/
theorem select_exists (b : Bool) : ∀ (bv : List Bool) (r : Nat), 1 ≤ r → r ≤ bv.count b →
    ∃ q, getBit bv q = some b ∧ (bv.take q).count b + 1 = r := by
  intro bv
  induction bv using List.reverseRecOn with
  | nil => intro r h1 h2; simp at h2; omega
  | append_singleton xs x ih =>
    intro r h1 h2
    by_cases hr : r ≤ xs.count b
    · obtain ⟨q, hq1, hq2⟩ := ih r h1 hr
      have hq : q < xs.length := (List.getElem?_eq_some.mp hq1).1
      refine ⟨q, ?_, ?_⟩
      · unfold getBit at hq1 ⊢
        rw [List.getElem?_append_left hq]; exact hq1
      · rw [List.take_append_of_le_length (by omega)]; exact hq2
    · have hxb : x = b := by
        by_contra hne
        have : (x == b) = false := by simpa using hne
        simp [List.count_append, List.count_cons, this] at h2
        omega
      subst hxb
      have hc : r = xs.count x + 1 := by
        simp [List.count_append] at h2
        omega
      refine ⟨xs.length, ?_, ?_⟩
      · unfold getBit
        simp
      · simp [hc]

/-! ## The shape of `loud` -/

theorem count_true_desc (l : List NodeInfo) :
    (l.flatMap (fun n => List.replicate n.kids.length false ++ [true])).count true = l.length := by
  induction l with
  | nil => rfl
  | cons x xs ih =>
    simp only [List.flatMap_cons, List.count_append, ih, List.length_cons]
    simp [List.count_replicate]
    omega

theorem count_false_desc (l : List NodeInfo) :
    (l.flatMap (fun n => List.replicate n.kids.length false ++ [true])).count false =
      (l.map (fun n => n.kids.length)).sum := by
  induction l with
  | nil => rfl
  | cons x xs ih =>
    simp only [List.flatMap_cons, List.count_append, ih, List.map_cons, List.sum_cons]
    simp [List.count_replicate]

theorem length_desc (l : List NodeInfo) :
    (l.flatMap (fun n => List.replicate n.kids.length false ++ [true])).length =
      (l.map (fun n => n.kids.length)).sum + l.length := by
  induction l with
  | nil => rfl
  | cons x xs ih =>
    simp only [List.flatMap_cons, List.length_append, ih, List.map_cons, List.sum_cons,
      List.length_cons, List.length_replicate, List.length_nil]
    omega

end ux_tool

namespace ux_tool

theorem nodes_split {nodes : List NodeInfo} {j : Nat} {n : NodeInfo} (h : nodes[j]? = some n) :
    nodes = nodes.take j ++ n :: nodes.drop (j + 1) := by
  obtain ⟨hj, hn⟩ := List.getElem?_eq_some.mp h
  rw [← hn]
  simp

theorem length_take_of_get {nodes : List NodeInfo} {j : Nat} {n : NodeInfo}
    (h : nodes[j]? = some n) : (nodes.take j).length = j := by
  obtain ⟨hj, _⟩ := List.getElem?_eq_some.mp h
  rw [List.length_take]; omega

theorem loud_split {nodes : List NodeInfo} {j : Nat} {n : NodeInfo} (h : nodes[j]? = some n) :
    (stateOf nodes).loudBV = loudBefore nodes j ++
      ((List.replicate n.kids.length false ++ [true]) ++
        (nodes.drop (j + 1)).flatMap (fun n => List.replicate n.kids.length false ++ [true])) := by
  have hs := nodes_split h
  simp only [stateOf, loudBefore]
  conv_lhs => rw [hs]
  simp only [List.flatMap_append, List.flatMap_cons, List.append_assoc]

theorem loudBefore_length {nodes : List NodeInfo} {j : Nat} (hj : j ≤ nodes.length) :
    (loudBefore nodes j).length = posOf nodes j := by
  simp only [loudBefore, List.length_append, length_desc, posOf, firstChild, List.length_take,
    List.length_cons, List.length_nil]
  omega

theorem loudBefore_count_true {nodes : List NodeInfo} {j : Nat} (hj : j ≤ nodes.length) :
    (loudBefore nodes j).count true = j + 1 := by
  simp only [loudBefore, List.count_append, count_true_desc, List.length_take]
  simp
  omega

theorem loudBefore_count_false (nodes : List NodeInfo) (j : Nat) :
    (loudBefore nodes j).count false = firstChild nodes j := by
  simp only [loudBefore, List.count_append, count_false_desc, firstChild]
  simp

theorem loudBefore_last (nodes : List NodeInfo) (j : Nat) :
    ∃ B, loudBefore nodes j = B ++ [true] := by
  unfold loudBefore
  rcases List.eq_nil_or_concat (nodes.take j) with h | ⟨l, x, h⟩
  · rw [h]
    exact ⟨[false], rfl⟩
  · rw [h]
    refine ⟨[false, true] ++ l.flatMap (fun n => List.replicate n.kids.length false ++ [true]) ++
      List.replicate x.kids.length false, ?_⟩
    simp [List.flatMap_append]

theorem select_loud_true {nodes : List NodeInfo} {j : Nat} (hj : j < nodes.length) :
    select (stateOf nodes).loudBV (j + 1) true = some (posOf nodes j - 1) := by
  have hn : nodes[j]? = some nodes[j] := List.getElem?_eq_getElem hj
  rw [loud_split hn]
  obtain ⟨B, hB⟩ := loudBefore_last nodes j
  have hc := @loudBefore_count_true nodes j (by omega)
  have hl := @loudBefore_length nodes j (by omega)
  rw [hB] at hc hl ⊢
  simp only [List.count_append, List.count_singleton, List.length_append,
    List.length_singleton] at hc hl
  simp only [beq_self_eq_true, if_true] at hc
  have hcB : B.count true = j := by omega
  have := select_append true B ((List.replicate nodes[j].kids.length false ++ [true]) ++
        (nodes.drop (j + 1)).flatMap (fun n => List.replicate n.kids.length false ++ [true]))
  rw [hcB] at this
  simp only [List.append_assoc, List.singleton_append] at this ⊢
  rw [this]
  congr 1
  omega

theorem getBit_loud_false {nodes : List NodeInfo} {j t : Nat} {n : NodeInfo}
    (h : nodes[j]? = some n) (ht : t < n.kids.length) :
    getBit (stateOf nodes).loudBV (posOf nodes j + t) = some false := by
  have hj := (List.getElem?_eq_some.mp h).1
  have hl := @loudBefore_length nodes j (by omega)
  unfold getBit
  rw [loud_split h, List.getElem?_append_right (by omega), hl]
  simp only [Nat.add_sub_cancel_left, List.append_assoc]
  rw [List.getElem?_append_left (by simpa using ht)]
  simp [List.getElem?_replicate, ht]

theorem getBit_loud_true {nodes : List NodeInfo} {j : Nat} {n : NodeInfo}
    (h : nodes[j]? = some n) :
    getBit (stateOf nodes).loudBV (posOf nodes j + n.kids.length) = some true := by
  have hj := (List.getElem?_eq_some.mp h).1
  have hl := @loudBefore_length nodes j (by omega)
  unfold getBit
  rw [loud_split h, List.getElem?_append_right (by omega), hl]
  simp only [Nat.add_sub_cancel_left, List.append_assoc]
  rw [List.getElem?_append_right (by simp)]
  simp

theorem select_loud_false {nodes : List NodeInfo} {j t : Nat} {n : NodeInfo}
    (h : nodes[j]? = some n) (ht : t < n.kids.length) :
    select (stateOf nodes).loudBV (firstChild nodes j + t + 1) false = some (posOf nodes j + t) := by
  have hj := (List.getElem?_eq_some.mp h).1
  have hl := @loudBefore_length nodes j (by omega)
  have hc := loudBefore_count_false nodes j
  rw [loud_split h]
  have hrep : List.replicate n.kids.length false =
      List.replicate t false ++ false :: List.replicate (n.kids.length - t - 1) false := by
    have : n.kids.length = t + (1 + (n.kids.length - t - 1)) := by omega
    conv_lhs => rw [this]
    rw [List.replicate_add, List.replicate_add]
    rfl
  rw [hrep]
  have := select_append false (loudBefore nodes j ++ List.replicate t false)
    (List.replicate (n.kids.length - t - 1) false ++ ([true] ++
        (nodes.drop (j + 1)).flatMap (fun n => List.replicate n.kids.length false ++ [true])))
  simp only [List.count_append, hc, List.count_replicate, beq_self_eq_true, if_true,
    List.length_append, hl, List.length_replicate] at this
  simp only [List.append_assoc, List.cons_append] at this ⊢
  exact this

theorem select_loud_false_one (nodes : List NodeInfo) :
    select (stateOf nodes).loudBV 1 false = some 0 := by
  simp [stateOf, select, selectFrom]

theorem loud_length (nodes : List NodeInfo) :
    (stateOf nodes).loudBV.length = posOf nodes nodes.length := by
  have := @loudBefore_length nodes nodes.length (le_refl _)
  rw [← this]
  simp [stateOf, loudBefore]

end ux_tool

namespace ux_tool

/-! ## Indexing into concatenations -/

theorem flatMap_getElem? {α β : Type} (l : List α) (f : α → List β) (j t : Nat) (x : α)
    (h : l[j]? = some x) (ht : t < (f x).length) :
    (l.flatMap f)[((l.take j).flatMap f).length + t]? = (f x)[t]? := by
  obtain ⟨hj, hx⟩ := List.getElem?_eq_some.mp h
  have hs : l = l.take j ++ x :: l.drop (j + 1) := by
    rw [← hx]; simp
  conv_lhs => rw [hs]
  rw [List.flatMap_append, List.flatMap_cons]
  have htk : List.take j (List.take j l ++ x :: List.drop (j + 1) l) = List.take j l := by
    rw [← hs]
  rw [htk]
  rw [List.getElem?_append_right (by omega)]
  simp only [Nat.add_sub_cancel_left]
  rw [List.getElem?_append_left ht]

theorem flatMap_index {α β : Type} (f : α → List β) : ∀ (l : List α) (x : Nat),
    x < (l.flatMap f).length →
    ∃ j t a, l[j]? = some a ∧ t < (f a).length ∧ x = ((l.take j).flatMap f).length + t
  | [], x, h => by simp at h
  | a :: l, x, h => by
    by_cases hx : x < (f a).length
    · exact ⟨0, x, a, by simp, hx, by simp⟩
    · have h2 : x - (f a).length < (l.flatMap f).length := by
        simp only [List.flatMap_cons, List.length_append] at h
        omega
      obtain ⟨j, t, b, hb, ht, he⟩ := flatMap_index f l (x - (f a).length) h2
      refine ⟨j + 1, t, b, by simpa using hb, ht, ?_⟩
      simp only [List.take_succ_cons, List.flatMap_cons, List.length_append]
      omega

/-! ## Nodes and their children -/

theorem length_kidsD_take (nodes : List NodeInfo) (j : Nat) :
    ((nodes.take j).flatMap NodeInfo.kidsD).length + 1 = firstChild nodes j := by
  simp only [firstChild, List.length_flatMap, NodeInfo.kidsD, Function.comp_def, List.length_map]
  omega

theorem child_at {W : List Key} {c : Core} {nodes : List NodeInfo} (hT : Table W c nodes)
    {j t : Nat} {n : NodeInfo} {k : RangeNode} (h : nodes[j]? = some n)
    (hk : n.kids[t]? = some k) :
    ∃ m, nodes[firstChild nodes j + t]? = some m ∧ m.rn = k ∧ m.depth = n.depth + 1 := by
  have ht : t < n.kidsD.length := by
    simp only [NodeInfo.kidsD, List.length_map]
    exact (List.getElem?_eq_some.mp hk).1
  have h1 := flatMap_getElem? nodes NodeInfo.kidsD j t n h ht
  have h2 : (nodes.map NodeInfo.id)[firstChild nodes j + t]? = some (k, n.depth + 1) := by
    rw [hT.link, ← length_kidsD_take]
    have : ((nodes.take j).flatMap NodeInfo.kidsD).length + 1 + t =
        (((nodes.take j).flatMap NodeInfo.kidsD).length + t) + 1 := by omega
    rw [this, List.getElem?_cons_succ, h1]
    simp [NodeInfo.kidsD, hk]
  rw [List.getElem?_map] at h2
  cases hm : nodes[firstChild nodes j + t]? with
  | none => rw [hm] at h2; simp at h2
  | some m =>
    rw [hm] at h2
    simp only [Option.map_some', Option.some.injEq, NodeInfo.id, Prod.mk.injEq] at h2
    exact ⟨m, rfl, h2.1, h2.2⟩

theorem root_at {W : List Key} {c : Core} {nodes : List NodeInfo} (hT : Table W c nodes) :
    ∃ r, nodes[0]? = some r ∧ r.rn = ⟨0, W.length⟩ ∧ r.depth = 0 := by
  have h2 : (nodes.map NodeInfo.id)[0]? = some (⟨0, W.length⟩, 0) := by
    rw [hT.link]; simp
  rw [List.getElem?_map] at h2
  cases hm : nodes[0]? with
  | none => rw [hm] at h2; simp at h2
  | some m =>
    rw [hm] at h2
    simp only [Option.map_some', Option.some.injEq, NodeInfo.id, Prod.mk.injEq] at h2
    exact ⟨m, rfl, h2.1, h2.2⟩

theorem parent_of {W : List Key} {c : Core} {nodes : List NodeInfo} (hT : Table W c nodes)
    {j2 : Nat} (h1 : 0 < j2) (h2 : j2 < nodes.length) :
    ∃ j t n k, nodes[j]? = some n ∧ n.kids[t]? = some k ∧ j2 = firstChild nodes j + t := by
  have hl := congrArg List.length hT.link
  simp only [List.length_map, List.length_cons] at hl
  obtain ⟨j, t, n, hn, ht, he⟩ := flatMap_index NodeInfo.kidsD nodes (j2 - 1) (by omega)
  have ht2 : t < n.kids.length := by
    simpa [NodeInfo.kidsD] using ht
  refine ⟨j, t, n, n.kids[t], hn, List.getElem?_eq_getElem ht2, ?_⟩
  rw [← length_kidsD_take]
  omega

theorem rangeOK_pre_unique {W : List Key} {d : Nat} {rn : RangeNode} {p p2 : Key}
    (h1 : RangeOK W d rn p) (h2 : RangeOK W d rn p2) : p = p2 := by
  obtain ⟨hlr, hrN, hpl, hiff⟩ := h1
  obtain ⟨_, _, hpl2, hiff2⟩ := h2
  have hl : rn.left < W.length := by omega
  have hcur : W[rn.left]? = some W[rn.left] := List.getElem?_eq_getElem hl
  have a1 := List.prefix_iff_eq_take.mp ((hiff _ _ hcur).mp ⟨le_refl _, hlr⟩)
  have a2 := List.prefix_iff_eq_take.mp ((hiff2 _ _ hcur).mp ⟨le_refl _, hlr⟩)
  rw [a1, a2, hpl, hpl2]

theorem mem_of_get {nodes : List NodeInfo} {j : Nat} {n : NodeInfo} (h : nodes[j]? = some n) :
    n ∈ nodes := List.mem_iff_getElem?.mpr ⟨j, h⟩

theorem child_pre {W : List Key} {c : Core} {nodes : List NodeInfo} (hT : Table W c nodes)
    {j t ch : Nat} {n : NodeInfo} {k : RangeNode} (h : nodes[j]? = some n)
    (hk : n.kids[t]? = some k) (hc : n.labels[t]? = some ch) :
    ∃ m, nodes[firstChild nodes j + t]? = some m ∧ m.rn = k ∧ m.depth = n.depth + 1 ∧
      m.pre = n.pre ++ [ch] := by
  obtain ⟨m, hm, hmr, hmd⟩ := child_at hT h hk
  refine ⟨m, hm, hmr, hmd, ?_⟩
  have r1 := (hT.ok m (mem_of_get hm)).range
  rw [hmr, hmd] at r1
  have r2 := (hT.ok n (mem_of_get h)).kidsOK t ch k hc hk
  exact rangeOK_pre_unique r1 r2

theorem root_pre {W : List Key} {c : Core} {nodes : List NodeInfo} (hT : Table W c nodes) :
    ∃ r, nodes[0]? = some r ∧ r.rn = ⟨0, W.length⟩ ∧ r.depth = 0 ∧ r.pre = [] := by
  obtain ⟨r, hr, h1, h2⟩ := root_at hT
  refine ⟨r, hr, h1, h2, ?_⟩
  have := (hT.ok r (mem_of_get hr)).range.2.2.1
  rw [h2] at this
  exact List.length_eq_zero.mp this

/-! ## The parallel vectors -/

theorem getBit_terminal {W : List Key} {c : Core} {nodes : List NodeInfo} (hT : Table W c nodes)
    {j : Nat} {n : NodeInfo} (h : nodes[j]? = some n) :
    getBit c.terminal j = some n.term := by
  unfold getBit
  rw [hT.terminal_eq]
  simp [stateOf, h]

theorem getBit_tail {W : List Key} {c : Core} {nodes : List NodeInfo} (hT : Table W c nodes)
    {j : Nat} {n : NodeInfo} (h : nodes[j]? = some n) :
    getBit c.tail j = some n.tail.isSome := by
  unfold getBit
  rw [hT.tail_eq]
  simp [stateOf, h]

theorem count_take_map_term (nodes : List NodeInfo) (j : Nat) :
    (((nodes.map (fun n => n.term)).take j).count true) = idOf nodes j := by
  simp only [idOf, ← List.map_take]
  induction (nodes.take j) with
  | nil => rfl
  | cons x xs ih =>
    simp only [List.map_cons, List.count_cons, ih, List.filter_cons]
    cases x.term <;> simp

theorem rank_terminal {W : List Key} {c : Core} {nodes : List NodeInfo} (hT : Table W c nodes)
    {j : Nat} {n : NodeInfo} (h : nodes[j]? = some n) (ht : n.term = true) :
    rank c.terminal j true - 1 = idOf nodes j := by
  have hb := getBit_terminal hT h
  rw [ht] at hb
  rw [rank_of_getBit hb, hT.terminal_eq]
  simp only [stateOf, count_take_map_term]
  omega

theorem count_take_map_tail (nodes : List NodeInfo) (j : Nat) :
    (((nodes.map (fun n => n.tail.isSome)).take j).count true) = tailIdx nodes j := by
  simp only [tailIdx, ← List.map_take]
  induction (nodes.take j) with
  | nil => rfl
  | cons x xs ih =>
    simp only [List.map_cons, List.flatMap_cons, List.length_append, List.count_cons, ih]
    cases x.tail
    · simp
    · simp
      omega

theorem rank_tail {W : List Key} {c : Core} {nodes : List NodeInfo} (hT : Table W c nodes)
    {j : Nat} {n : NodeInfo} {t : Key} (h : nodes[j]? = some n) (ht : n.tail = some t) :
    rank c.tail j true - 1 = tailIdx nodes j := by
  have hb := getBit_tail hT h
  rw [ht] at hb
  simp only [Option.isSome_some] at hb
  rw [rank_of_getBit hb, hT.tail_eq]
  simp only [stateOf, count_take_map_tail]
  omega

theorem vtails_at {W : List Key} {c : Core} {nodes : List NodeInfo} (hT : Table W c nodes)
    {j : Nat} {n : NodeInfo} {t : Key} (h : nodes[j]? = some n) (ht : n.tail = some t) :
    c.vtails[tailIdx nodes j]? = some t := by
  have := flatMap_getElem? nodes (fun n => n.tail.toList) j 0 n h (by simp [ht])
  rw [hT.vtails_eq]
  simp only [stateOf, tailIdx]
  simp only [Nat.add_zero] at this
  rw [this, ht]
  simp

theorem length_labels_take {W : List Key} {c : Core} {nodes : List NodeInfo}
    (hT : Table W c nodes) (j : Nat) :
    ((nodes.take j).flatMap (fun n => n.labels)).length + 1 = firstChild nodes j := by
  simp only [firstChild, List.length_flatMap, Function.comp_def]
  have : List.map (fun x => x.labels.length) (List.take j nodes) =
      List.map (fun n => n.kids.length) (List.take j nodes) := by
    apply List.map_congr_left
    intro n hn
    exact (hT.ok n (List.mem_of_mem_take hn)).len
  rw [this]
  omega

theorem edges_at {W : List Key} {c : Core} {nodes : List NodeInfo} (hT : Table W c nodes)
    {j t : Nat} {n : NodeInfo} (h : nodes[j]? = some n) (ht : t < n.kids.length) :
    c.edges[firstChild nodes j + t - 1]? = n.labels[t]? := by
  have hl := (hT.ok n (mem_of_get h)).len
  have := flatMap_getElem? nodes (fun n => n.labels) j t n h (by dsimp only; omega)
  rw [hT.edges_eq]
  simp only [stateOf]
  rw [← this]
  congr 1
  have := length_labels_take hT j
  omega

end ux_tool

namespace ux_tool

/-! ## Moving between a node and its children -/

theorem posOf_eq (nodes : List NodeInfo) (j : Nat) : posOf nodes j = firstChild nodes j + j + 1 := rfl

theorem firstChild_pos (nodes : List NodeInfo) (j : Nat) : 1 ≤ firstChild nodes j := by
  simp [firstChild]

theorem getChildLoop_spec {W : List Key} {c : Core} {nodes : List NodeInfo} (hT : Table W c nodes)
    {j : Nat} {n : NodeInfo} (h : nodes[j]? = some n) (ch : Nat) :
    ∀ (fuel t : Nat), t ≤ n.kids.length → (∀ t2, t2 < t → n.labels[t2]? ≠ some ch) →
      n.kids.length - t < fuel →
      (ch ∉ n.labels ∧
        getChildLoop c ch fuel (posOf nodes j + t) (firstChild nodes j + 1 + t) = some none) ∨
      (∃ t0, n.labels[t0]? = some ch ∧
        getChildLoop c ch fuel (posOf nodes j + t) (firstChild nodes j + 1 + t) =
          some (some (posOf nodes (firstChild nodes j + t0),
            firstChild nodes (firstChild nodes j + t0) + 1))) := by
  have hlen := (hT.ok n (mem_of_get h)).len
  intro fuel
  induction fuel with
  | zero => intro t _ _ hf; omega
  | succ fuel ih =>
    intro t ht hno hf
    by_cases hte : t = n.kids.length
    · left
      constructor
      · intro hmem
        obtain ⟨t2, ht2⟩ := List.mem_iff_getElem?.mp hmem
        have := (List.getElem?_eq_some.mp ht2).1
        exact hno t2 (by omega) ht2
      · have hb := getBit_loud_true h
        rw [← hT.loud_eq, ← hte] at hb
        simp [getChildLoop, hb]
    · have htl : t < n.kids.length := by omega
      have hb := getBit_loud_false h htl
      rw [← hT.loud_eq] at hb
      have he := edges_at hT h htl
      have hfc := firstChild_pos nodes j
      have hz : firstChild nodes j + 1 + t - 2 = firstChild nodes j + t - 1 := by omega
      have hnz : ¬ (firstChild nodes j + 1 + t < 2) := by omega
      have hlt : t < n.labels.length := by omega
      have hlab : n.labels[t]? = some n.labels[t] := List.getElem?_eq_getElem hlt
      rw [hlab] at he
      by_cases hec : n.labels[t] = ch
      · right
        refine ⟨t, by rw [hlab, hec], ?_⟩
        obtain ⟨m, hm, _, _⟩ := child_at hT h (List.getElem?_eq_getElem htl)
        have hml := (List.getElem?_eq_some.mp hm).1
        have hsel := @select_loud_true nodes (firstChild nodes j + t) hml
        rw [← hT.loud_eq] at hsel
        have hsel2 : select c.loud (firstChild nodes j + 1 + t) true =
            some (posOf nodes (firstChild nodes j + t) - 1) := by
          rw [← hsel]; congr 1; omega
        simp only [getChildLoop, hb, hnz, if_false, hz, he, hec, if_true, hsel2]
        have hp := posOf_eq nodes (firstChild nodes j + t)
        congr 3
        omega
      · have hno2 : ∀ t2, t2 < t + 1 → n.labels[t2]? ≠ some ch := by
          intro t2 ht2
          by_cases h2 : t2 = t
          · subst h2
            rw [hlab]
            simpa using hec
          · exact hno t2 (by omega)
        have := ih (t + 1) (by omega) hno2 (by omega)
        simp only [getChildLoop, hb, hnz, if_false, hz, he, hec]
        have e1 : posOf nodes j + t + 1 = posOf nodes j + (t + 1) := by omega
        have e2 : firstChild nodes j + 1 + t + 1 = firstChild nodes j + 1 + (t + 1) := by omega
        rw [e1, e2]
        exact this

theorem getChild_spec {W : List Key} {c : Core} {nodes : List NodeInfo} (hT : Table W c nodes)
    {j : Nat} {n : NodeInfo} (h : nodes[j]? = some n) (ch : Nat) :
    (ch ∉ n.labels ∧
      getChild c ch (posOf nodes j) (firstChild nodes j + 1) = some none) ∨
    (∃ t0, n.labels[t0]? = some ch ∧
      getChild c ch (posOf nodes j) (firstChild nodes j + 1) =
        some (some (posOf nodes (firstChild nodes j + t0),
          firstChild nodes (firstChild nodes j + t0) + 1))) := by
  have hl : c.loud.length = (loudBefore nodes j).length + ((n.kids.length + 1) +
      ((nodes.drop (j + 1)).flatMap
        (fun n => List.replicate n.kids.length false ++ [true])).length) := by
    rw [hT.loud_eq, loud_split h]
    simp
    omega
  have hj := (List.getElem?_eq_some.mp h).1
  rw [loudBefore_length (by omega)] at hl
  have := getChildLoop_spec hT h ch (c.loud.length + 1 - posOf nodes j) 0 (by omega)
    (by intro t2 ht2; omega) (by omega)
  simpa [getChild] using this

theorem getParent_child {W : List Key} {c : Core} {nodes : List NodeInfo} (hT : Table W c nodes)
    {j t e : Nat} {n : NodeInfo} (h : nodes[j]? = some n) (ht : t < n.kids.length)
    (he : n.labels[t]? = some e) (ch pos zeros : Nat)
    (hpz : pos - zeros + 1 = firstChild nodes j + t + 1) :
    getParent c ch pos zeros = some (e, posOf nodes j + t, firstChild nodes j + t + 1) := by
  have hsel := select_loud_false h ht
  rw [← hT.loud_eq] at hsel
  have hed := edges_at hT h ht
  rw [he] at hed
  have hfc := firstChild_pos nodes j
  have hnz : ¬ (firstChild nodes j + t + 1 < 2) := by omega
  have hz : firstChild nodes j + t + 1 - 2 = firstChild nodes j + t - 1 := by omega
  simp only [getParent, hpz, hsel, hnz, if_false, hz, hed]

theorem getParent_root {W : List Key} {c : Core} {nodes : List NodeInfo} (hT : Table W c nodes)
    (ch pos zeros : Nat) (hpz : pos - zeros + 1 = 1) :
    getParent c ch pos zeros = some (ch, 0, 1) := by
  have hsel := select_loud_false_one nodes
  rw [← hT.loud_eq] at hsel
  simp [getParent, hpz, hsel]

/-! ## decode -/

theorem decodeLoop_spec {W : List Key} {c : Core} {nodes : List NodeInfo} (hT : Table W c nodes) :
    ∀ (j2 : Nat) (n2 : NodeInfo), nodes[j2]? = some n2 →
      ∀ (fuel pos zeros : Nat) (ret : Key), j2 < fuel → pos - zeros + 1 = j2 + 1 →
        decodeLoop c fuel pos zeros ret = some (ret ++ n2.pre.reverse) := by
  intro j2
  induction j2 using Nat.strong_induction_on with
  | _ j2 ih =>
    intro n2 hn2 fuel pos zeros ret hf hpz
    cases fuel with
    | zero => omega
    | succ fuel =>
      by_cases hj0 : j2 = 0
      · subst hj0
        obtain ⟨r, hr, _, _, hpre⟩ := root_pre hT
        rw [hn2] at hr
        cases hr
        simp [decodeLoop, getParent_root hT 0 pos zeros hpz, hpre]
      · have hj2 := (List.getElem?_eq_some.mp hn2).1
        obtain ⟨j, t, n, k, hn, hk, hje⟩ := parent_of hT (by omega) hj2
        have hjl := (List.getElem?_eq_some.mp hn).1
        have hord := hT.order j hjl
        have htl := (List.getElem?_eq_some.mp hk).1
        have hlen := (hT.ok n (mem_of_get hn)).len
        have hlab : n.labels[t]? = some n.labels[t] := List.getElem?_eq_getElem (by omega)
        obtain ⟨m, hm, _, _, hmpre⟩ := child_pre hT hn hk hlab
        rw [← hje, hn2] at hm
        cases hm
        have hgp := getParent_child hT hn htl hlab 0 pos zeros (by omega)
        have hp := posOf_eq nodes j
        have hne : ¬ (posOf nodes j + t = 0) := by omega
        simp only [decodeLoop, hgp, hne, if_false]
        rw [ih j (by omega) n hn fuel (posOf nodes j + t) (firstChild nodes j + t + 1)
          (ret ++ [n.labels[t]]) (by omega) (by omega)]
        simp [hmpre]

theorem nodes_le_loud (nodes : List NodeInfo) : nodes.length ≤ (stateOf nodes).loudBV.length := by
  rw [loud_length, posOf_eq]
  omega

theorem decodeWith_spec {W : List Key} {c : Core} {nodes : List NodeInfo} (hT : Table W c nodes)
    (getTail : Nat → Option Key) {j : Nat} {n : NodeInfo} (hn : nodes[j]? = some n)
    (hterm : n.term = true)
    (htl : ∀ t, n.tail = some t → getTail (tailIdx nodes j) = some t) :
    decodeWith c getTail (idOf nodes j) = some n.key := by
  have hj := (List.getElem?_eq_some.mp hn).1
  have hb := getBit_terminal hT hn
  rw [hterm] at hb
  have hsel := select_of_getBit hb
  rw [hT.terminal_eq] at hsel
  simp only [stateOf, count_take_map_term] at hsel
  have hsel1 : select c.terminal (idOf nodes j + 1) true = some j := by
    rw [hT.terminal_eq]; exact hsel
  have hsel2 := @select_loud_true nodes j hj
  rw [← hT.loud_eq] at hsel2
  have hp := posOf_eq nodes j
  have hfc := firstChild_pos nodes j
  have hpos : posOf nodes j - 1 + 1 = posOf nodes j := by omega
  have hll := nodes_le_loud nodes
  rw [← hT.loud_eq] at hll
  have hdl := decodeLoop_spec hT j n hn (c.loud.length + 1) (posOf nodes j)
    (posOf nodes j - j) [] (by omega) (by omega)
  have hbt := getBit_tail hT hn
  simp only [decodeWith, hT.ready, Bool.not_true, Bool.false_eq_true, if_false, hsel1, hsel2,
    hpos, hdl, List.nil_append, List.reverse_reverse, hbt]
  cases htail : n.tail with
  | none => simp [NodeInfo.key, htail]
  | some t =>
    have hr := rank_tail hT hn htail
    simp [hr, htl t htail, NodeInfo.key, htail]

/-- Every identifier below the number of keys belongs to a terminal node. -/
theorem node_of_id {W : List Key} {c : Core} {nodes : List NodeInfo} (hT : Table W c nodes)
    {i : Nat} (hi : i < W.length) :
    ∃ j n, nodes[j]? = some n ∧ n.term = true ∧ idOf nodes j = i := by
  have hc : (nodes.map (fun n => n.term)).count true = W.length := by
    rw [← hT.termCount]
    have := count_take_map_term nodes nodes.length
    simp only [List.take_length, idOf] at this
    rw [← @List.take_length _ (nodes.map (fun n => n.term))]
    simpa using this
  obtain ⟨q, hq1, hq2⟩ := select_exists true (nodes.map (fun n => n.term)) (i + 1) (by omega)
    (by omega)
  unfold getBit at hq1
  rw [List.getElem?_map] at hq1
  cases hn : nodes[q]? with
  | none => rw [hn] at hq1; simp at hq1
  | some n =>
    rw [hn] at hq1
    simp at hq1
    refine ⟨q, n, hn, hq1, ?_⟩
    rw [count_take_map_term] at hq2
    omega

end ux_tool

namespace ux_tool

/-! ## Keys and nodes -/

theorem tailMatch_spec (s : Key) (d : Nat) (t : Key) :
    tailMatch s d t = if t <+: s.drop d then some t.length else none := by
  unfold tailMatch
  by_cases hl : t.length > s.length - d
  · rw [if_pos hl]
    have : ¬ t <+: s.drop d := by
      intro h
      have := h.length_le
      simp at this
      omega
    rw [if_neg this]
  · rw [if_neg hl]
    have hiff : ((List.range t.length).all (fun i => s[i + d]? == t[i]?) = true) ↔
        t <+: s.drop d := by
      rw [List.isPrefix_iff, List.all_eq_true]
      constructor
      · intro h i hi
        have := h i (List.mem_range.mpr hi)
        simp only [beq_iff_eq] at this
        rw [List.getElem?_drop, Nat.add_comm, this]
        exact List.getElem?_eq_getElem hi
      · intro h i hi
        have hi2 := List.mem_range.mp hi
        have := h i hi2
        rw [List.getElem?_drop, Nat.add_comm] at this
        simp only [beq_iff_eq]
        rw [this]
        exact (List.getElem?_eq_getElem hi2).symm
    by_cases hp : t <+: s.drop d
    · rw [if_pos hp, if_pos (hiff.mpr hp)]
    · rw [if_neg hp, if_neg (fun h => hp (hiff.mp h))]

theorem term_iff_mem {W : List Key} (hs : W.Pairwise (fun a b => keyLess a b = true))
    {n : NodeInfo} (hok : InfoOK W n) (ht : n.tail = none) : n.term = true ↔ n.pre ∈ W := by
  rw [hok.termCase ht]
  constructor
  · intro h
    exact List.mem_iff_getElem?.mpr ⟨_, h⟩
  · intro h
    obtain ⟨i, hi⟩ := List.mem_iff_getElem?.mp h
    have hr := hok.range
    have hin := (hr.2.2.2 i n.pre hi).mpr (List.prefix_refl _)
    by_cases hil : i = n.rn.left
    · rw [← hil]; exact hi
    · have := range_longer hs hr hi (by omega) hin.2
      have := hr.2.2.1
      omega

theorem tail_unique {W : List Key} {n : NodeInfo} (hok : InfoOK W n) {t : Key}
    (ht : n.tail = some t) {w : Key} (hw : w ∈ W) (hp : n.pre <+: w) : w = n.pre ++ t := by
  obtain ⟨_, _, _, hl, hr, _⟩ := hok.tailCase t ht
  obtain ⟨i, hi⟩ := List.mem_iff_getElem?.mp hw
  have hin := (hok.range.2.2.2 i w hi).mpr hp
  have : i = n.rn.left := by omega
  subst this
  rw [hl] at hi
  cases hi
  rfl

theorem key_mem {W : List Key} {n : NodeInfo} (hok : InfoOK W n) (ht : n.term = true) :
    n.key ∈ W := by
  cases htail : n.tail with
  | none =>
    have := (hok.termCase htail).mp ht
    simp only [NodeInfo.key, htail, Option.getD_none, List.append_nil]
    exact List.mem_iff_getElem?.mpr ⟨_, this⟩
  | some t =>
    obtain ⟨_, _, _, hl, _, _⟩ := hok.tailCase t htail
    simp only [NodeInfo.key, htail, Option.getD_some]
    exact List.mem_iff_getElem?.mpr ⟨_, hl⟩

/-! ## The keys among the beginnings of a string -/

theorem hitsSpec_nil (W : List Key) (s : Key) : ∀ (r d : Nat),
    (∀ i, i < r → s.take (d + i) ∉ W) → hitsSpec W s r d = []
  | 0, _, _ => rfl
  | r + 1, d, h => by
    have h0 := h 0 (by omega)
    simp only [Nat.add_zero] at h0
    simp only [hitsSpec, h0, if_false, List.nil_append]
    apply hitsSpec_nil W s r (d + 1)
    intro i hi
    have := h (i + 1) (by omega)
    rwa [show d + 1 + i = d + (i + 1) by omega]

theorem hitsSpec_single (W : List Key) (s : Key) : ∀ (r d i0 : Nat), i0 < r →
    s.take (d + i0) ∈ W → (∀ i, i < r → s.take (d + i) ∈ W → i = i0) →
    hitsSpec W s r d = [s.take (d + i0)]
  | 0, _, _, h, _, _ => by omega
  | r + 1, d, i0, h, hin, huniq => by
    cases i0 with
    | zero =>
      simp only [Nat.add_zero] at hin ⊢
      simp only [hitsSpec, hin, if_true]
      rw [hitsSpec_nil W s r (d + 1)]
      · rfl
      · intro i hi hmem
        rw [show d + 1 + i = d + (i + 1) by omega] at hmem
        have := huniq (i + 1) (by omega) hmem
        omega
    | succ i0 =>
      have h0 : s.take d ∉ W := by
        intro hmem
        have := huniq 0 (by omega) (by simpa using hmem)
        omega
      simp only [hitsSpec, h0, if_false, List.nil_append]
      rw [show d + (i0 + 1) = d + 1 + i0 by omega] at hin ⊢
      apply hitsSpec_single W s r (d + 1) i0 (by omega) hin
      intro i hi hmem
      rw [show d + 1 + i = d + (i + 1) by omega] at hmem
      have := huniq (i + 1) (by omega) hmem
      omega

theorem take_take_prefix (s : Key) (d i : Nat) : s.take d <+: s.take (d + i) := by
  rw [List.prefix_iff_eq_take]
  simp [List.take_take]

end ux_tool

namespace ux_tool

/-! ## traverse -/

theorem hitsSpec_no_child {W : List Key} {n : NodeInfo} (hok : InfoOK W n) (htail : n.tail = none)
    {s : Key} {d ch : Nat} (hpre : n.pre = s.take d) (hch : s[d]? = some ch)
    (hno : ch ∉ n.labels) (r : Nat) : hitsSpec W s r (d + 1) = [] := by
  apply hitsSpec_nil
  intro i _ hmem
  apply hno
  apply hok.cover htail _ hmem ch
  rw [hpre]
  have h1 : s.take d ++ [ch] = s.take (d + 1) := by
    rw [List.take_succ, hch]; rfl
  rw [h1]
  exact take_take_prefix s (d + 1) i

theorem getLast_length_cons (x : Key) (H : List Key) (lastLen : Nat) :
    (((x :: H).getLast?).map List.length).getD lastLen =
      ((H.getLast?).map List.length).getD x.length := by
  cases H with
  | nil => rfl
  | cons y ys =>
    rw [List.getLast?_cons_cons]
    cases h : (y :: ys).getLast? with
    | none => simp at h
    | some z => rfl

/-- The part of one round of `traverse` after the node's own bits: stop at
the end of the string, or move to the child. -/
theorem traverse_step_down {W : List Key} {c : Core} {nodes : List NodeInfo}
    (hT : Table W c nodes) (getTail : Nat → Option Key) (s : Key) (r d j : Nat) (n : NodeInfo)
    (hn : nodes[j]? = some n) (hd : n.depth = d) (hpre : n.pre = s.take d)
    (hdr : d + (r + 1) = s.length + 1) (htail : n.tail = none)
    (ih : ∀ (j2 : Nat) (m : NodeInfo), nodes[j2]? = some m → m.depth = d + 1 →
      m.pre = s.take (d + 1) → ∀ (fuel lastLen : Nat) (acc : List Nat), r + 1 ≤ fuel →
      ∃ ids, traverseLoop c getTail s 0 fuel (d + 1)
          (some (posOf nodes j2, firstChild nodes j2 + 1)) lastLen acc =
          some ((((hitsSpec W s r (d + 1)).getLast?).map List.length).getD lastLen, acc ++ ids) ∧
        List.Forall₂ (IdKey nodes) ids (hitsSpec W s r (d + 1)))
    (f lastLen : Nat) (acc : List Nat) (hf : r + 1 ≤ f) :
    ∃ ids,
      (if d = s.length then some (lastLen, acc)
       else
        match s[d]? with
        | none => none
        | some ch =>
          match getChild c ch (posOf nodes j) (firstChild nodes j + 1) with
          | none => none
          | some p => traverseLoop c getTail s 0 f (d + 1) p lastLen acc) =
        some ((((hitsSpec W s r (d + 1)).getLast?).map List.length).getD lastLen, acc ++ ids) ∧
      List.Forall₂ (IdKey nodes) ids (hitsSpec W s r (d + 1)) := by
  have hok := hT.ok n (mem_of_get hn)
  by_cases hds : d = s.length
  · have hr : r = 0 := by omega
    subst hr
    refine ⟨[], ?_, ?_⟩
    · simp [hds, hitsSpec]
    · simp [hitsSpec]
  · rw [if_neg hds]
    have hdl : d < s.length := by omega
    have hch : s[d]? = some s[d] := List.getElem?_eq_getElem hdl
    rw [hch]
    rcases getChild_spec hT hn s[d] with ⟨hno, hgc⟩ | ⟨t0, ht0, hgc⟩
    · simp only [hgc]
      refine ⟨[], ?_, ?_⟩
      · rw [hitsSpec_no_child hok htail hpre hch hno]
        cases f with
        | zero => omega
        | succ f => simp [traverseLoop]
      · rw [hitsSpec_no_child hok htail hpre hch hno]
        exact List.Forall₂.nil
    · simp only [hgc]
      have htl : t0 < n.kids.length := by
        rw [← hok.len]
        exact (List.getElem?_eq_some.mp ht0).1
      obtain ⟨m, hm, _, hmd, hmp⟩ := child_pre hT hn (List.getElem?_eq_getElem htl) ht0
      have hmp2 : m.pre = s.take (d + 1) := by
        rw [hmp, hpre, List.take_succ, hch]; rfl
      exact ih _ m hm (by rw [hmd, hd]) hmp2 f lastLen acc hf

theorem traverseLoop_spec {W : List Key} {c : Core} {nodes : List NodeInfo}
    (hT : Table W c nodes) (getTail : Nat → Option Key)
    (hgt : ∀ j n t, nodes[j]? = some n → n.tail = some t → getTail (tailIdx nodes j) = some t)
    (s : Key) :
    ∀ (r d j : Nat) (n : NodeInfo), nodes[j]? = some n → n.depth = d → n.pre = s.take d →
      d + r = s.length + 1 →
      ∀ (fuel lastLen : Nat) (acc : List Nat), r + 1 ≤ fuel →
      ∃ ids, traverseLoop c getTail s 0 fuel d
          (some (posOf nodes j, firstChild nodes j + 1)) lastLen acc =
          some ((((hitsSpec W s r d).getLast?).map List.length).getD lastLen, acc ++ ids) ∧
        List.Forall₂ (IdKey nodes) ids (hitsSpec W s r d) := by
  intro r
  induction r with
  | zero =>
    intro d j n hn hd hpre hdr
    have hok := hT.ok n (mem_of_get hn)
    have h1 := hok.range.2.2.1
    rw [hpre, hd, List.length_take] at h1
    omega
  | succ r ih =>
    intro d j n hn hd hpre hdr fuel lastLen acc hf
    have hok := hT.ok n (mem_of_get hn)
    have hdl : d ≤ s.length := by omega
    have hlt : (s.take d).length = d := by rw [List.length_take]; omega
    cases fuel with
    | zero => omega
    | succ f =>
      have hones : posOf nodes j - (firstChild nodes j + 1) = j := by
        rw [posOf_eq]; omega
      have hbt := getBit_tail hT hn
      cases htail : n.tail with
      | some t =>
        obtain ⟨hterm, _, _, hl, _, _⟩ := hok.tailCase t htail
        have hrt := rank_tail hT hn htail
        have hrk := rank_terminal hT hn hterm
        have hg := hgt j n t hn htail
        rw [htail] at hbt
        simp only [Option.isSome_some] at hbt
        simp only [traverseLoop, hones, hbt, hrt, hg, tailMatch_spec, hrk]
        by_cases hm : t <+: s.drop d
        · have htlen : t.length ≤ s.length - d := by
            have := hm.length_le
            simpa using this
          have htake : s.take (d + t.length) = s.take d ++ t := by
            rw [List.take_add]
            congr 1
            exact (List.prefix_iff_eq_take.mp hm).symm
          have hH : hitsSpec W s (r + 1) d = [s.take (d + t.length)] := by
            apply hitsSpec_single W s (r + 1) d t.length (by omega)
            · rw [htake, ← hpre]
              exact List.mem_iff_getElem?.mpr ⟨_, hl⟩
            · intro i hi hmem
              have hp : n.pre <+: s.take (d + i) := by
                rw [hpre]; exact take_take_prefix s d i
              have := tail_unique hok htail hmem hp
              have hlen := congrArg List.length this
              rw [List.length_take, List.length_append, hpre, hlt] at hlen
              omega
          refine ⟨[idOf nodes j], ?_, ?_⟩
          · rw [if_pos hm, hH]
            simp only [List.getLast?_singleton, Option.map_some', Option.getD_some,
              List.length_take]
            congr 2
            omega
          · rw [hH]
            refine List.Forall₂.cons ?_ List.Forall₂.nil
            refine ⟨j, n, hn, hterm, rfl, ?_⟩
            simp [NodeInfo.key, htail, htake, hpre]
        · have hH : hitsSpec W s (r + 1) d = [] := by
            apply hitsSpec_nil
            intro i hi hmem
            have hp : n.pre <+: s.take (d + i) := by
              rw [hpre]; exact take_take_prefix s d i
            have := tail_unique hok htail hmem hp
            apply hm
            have h2 : s.take (d + i) <+: s := List.take_prefix _ _
            rw [this, hpre] at h2
            have h3 : s.take d ++ t <+: s.take d ++ s.drop d := by
              rw [List.take_append_drop]; exact h2
            exact (List.prefix_append_right_inj _).mp h3
          refine ⟨[], ?_, ?_⟩
          · rw [if_neg hm, hH]
            simp
          · rw [hH]
            exact List.Forall₂.nil
      | none =>
        rw [htail] at hbt
        simp only [Option.isSome_none] at hbt
        have hbterm := getBit_terminal hT hn
        have htm := term_iff_mem hT.sortedW hok htail
        rw [hpre] at htm
        have ih2 := fun j2 m hm hmd hmp fuel lastLen acc hf =>
          ih (d + 1) j2 m hm hmd hmp (by omega) fuel lastLen acc hf
        cases hterm : n.term with
        | true =>
          have hrk := rank_terminal hT hn hterm
          rw [hterm] at hbterm
          have hmem : s.take d ∈ W := htm.mp hterm
          have hne : ¬ ((acc ++ [idOf nodes j]).length = 0) := by simp
          obtain ⟨ids, h1, h2⟩ := traverse_step_down hT getTail s r d j n hn hd hpre hdr htail
            ih2 f d (acc ++ [idOf nodes j]) (by omega)
          refine ⟨idOf nodes j :: ids, ?_, ?_⟩
          · simp only [traverseLoop, hones, hbt, hbterm, hrk, hne, if_false]
            refine h1.trans ?_
            simp only [hitsSpec, hmem, if_true, List.singleton_append, getLast_length_cons, hlt,
              List.append_assoc]
          · simp only [hitsSpec, hmem, if_true, List.singleton_append]
            refine List.Forall₂.cons ?_ h2
            refine ⟨j, n, hn, hterm, rfl, ?_⟩
            simp [NodeInfo.key, htail, hpre]
        | false =>
          rw [hterm] at hbterm
          have hmem : s.take d ∉ W := by
            intro h
            have := htm.mpr h
            rw [hterm] at this
            exact absurd this (by simp)
          obtain ⟨ids, h1, h2⟩ := traverse_step_down hT getTail s r d j n hn hd hpre hdr htail
            ih2 f lastLen acc (by omega)
          refine ⟨ids, ?_, ?_⟩
          · simp only [traverseLoop, hones, hbt, hbterm]
            refine h1.trans ?_
            simp only [hitsSpec, hmem, if_false, List.nil_append]
          · simp only [hitsSpec, hmem, if_false, List.nil_append]
            exact h2

end ux_tool

namespace ux_tool

/-! ## The limit of traverse -/

theorem traverseLoop_prefix (c : Core) (getTail : Nat → Option Key) (s : Key) (L : Nat) :
    ∀ (fuel depth : Nat) (st : Option (Nat × Nat)) (lastLen : Nat) (acc : List Nat)
      (r : Nat × List Nat),
      traverseLoop c getTail s L fuel depth st lastLen acc = some r → acc <+: r.2 := by
  intro fuel
  induction fuel with
  | zero => intro depth st lastLen acc r h; simp [traverseLoop] at h
  | succ fuel ih =>
    intro depth st lastLen acc r h
    cases st with
    | none =>
      simp only [traverseLoop, Option.some.injEq] at h
      subst h
      exact List.prefix_refl _
    | some p =>
      obtain ⟨pos, zeros⟩ := p
      simp only [traverseLoop] at h
      split at h
      · simp at h
      · split at h
        · simp at h
        · split at h
          · simp only [Option.some.injEq] at h
            subst h
            exact List.prefix_append _ _
          · simp only [Option.some.injEq] at h
            subst h
            exact List.prefix_refl _
      · split at h
        · simp at h
        · split at h
          · simp only [Option.some.injEq] at h
            subst h
            exact List.prefix_append _ _
          · split at h
            · simp only [Option.some.injEq] at h
              subst h
              exact List.prefix_append _ _
            · split at h
              · simp at h
              · split at h
                · simp at h
                · exact (List.prefix_append _ _).trans (ih _ _ _ _ _ h)
        · split at h
          · simp only [Option.some.injEq] at h
            subst h
            exact List.prefix_refl _
          · split at h
            · simp at h
            · split at h
              · simp at h
              · exact ih _ _ _ _ _ h

theorem traverseLoop_limit (c : Core) (getTail : Nat → Option Key) (s : Key) (L : Nat) :
    ∀ (fuel depth : Nat) (st : Option (Nat × Nat)) (lastLen : Nat) (acc : List Nat)
      (r : Nat × List Nat), acc.length < L →
      traverseLoop c getTail s 0 fuel depth st lastLen acc = some r →
      (r.2.length < L → traverseLoop c getTail s L fuel depth st lastLen acc = some r) ∧
      (∃ l2, traverseLoop c getTail s L fuel depth st lastLen acc = some (l2, r.2.take L)) := by
  intro fuel
  induction fuel with
  | zero => intro depth st lastLen acc r _ h; simp [traverseLoop] at h
  | succ fuel ih =>
    intro depth st lastLen acc r hacc h
    cases st with
    | none =>
      simp only [traverseLoop, Option.some.injEq] at h
      subst h
      simp only [traverseLoop, implies_true, true_and]
      exact ⟨lastLen, by rw [List.take_of_length_le (by first | omega | (simp; omega))]⟩
    | some p =>
      obtain ⟨pos, zeros⟩ := p
      simp only [traverseLoop] at h ⊢
      split at h
      · simp at h
      · split at h
        · simp at h
        · split at h
          · simp only [Option.some.injEq] at h
            subst h
            simp only [implies_true, true_and]
            rw [List.take_of_length_le (by first | omega | (simp; omega))]
            exact ⟨_, rfl⟩
          · simp only [Option.some.injEq] at h
            subst h
            simp only [implies_true, true_and]
            rw [List.take_of_length_le (by first | omega | (simp; omega))]
            exact ⟨_, rfl⟩
      · split at h
        · simp at h
        · rename_i hterm
          simp only [List.length_append, List.length_singleton, Nat.add_one_ne_zero,
            if_false] at h
          by_cases hlim : acc.length + 1 = L
          · -- the limit is reached at this hit
            have hpre : acc ++ [rank c.terminal (pos - zeros) true - 1] <+: r.2 := by
              split at h
              · simp only [Option.some.injEq] at h
                subst h
                exact List.prefix_refl _
              · split at h
                · simp at h
                · split at h
                  · simp at h
                  · exact traverseLoop_prefix _ _ _ _ _ _ _ _ _ _ h
            have htake : r.2.take L = acc ++ [rank c.terminal (pos - zeros) true - 1] := by
              have := List.prefix_iff_eq_take.mp hpre
              rw [this]
              congr 1
              simp
              omega
            simp only [List.length_append, List.length_singleton, hlim, if_true]
            constructor
            · intro hlt
              have := hpre.length_le
              simp at this
              omega
            · exact ⟨_, by rw [htake]⟩
          · simp only [List.length_append, List.length_singleton, hlim, if_false]
            split at h
            · rename_i hd
              simp only [Option.some.injEq] at h
              subst h
              rw [if_pos (by assumption)]
              simp only [implies_true, true_and]
              rw [List.take_of_length_le (by first | omega | (simp; omega))]
              exact ⟨_, rfl⟩
            · rename_i hd
              split at h
              · simp at h
              · split at h
                · simp at h
                · rw [if_neg (by assumption)]
                  exact ih _ _ _ _ _ (by simp; omega) h
        · split at h
          · simp only [Option.some.injEq] at h
            subst h
            rw [if_pos (by assumption)]
            simp only [implies_true, true_and]
            rw [List.take_of_length_le (by omega)]
            exact ⟨_, rfl⟩
          · split at h
            · simp at h
            · split at h
              · simp at h
              · rw [if_neg (by assumption)]
                exact ih _ _ _ _ _ hacc h

end ux_tool

namespace ux_tool

/-! ## Keys and identifiers -/

theorem hitsSpec_eq (W : List Key) (s : Key) : ∀ (r d : Nat),
    hitsSpec W s r d =
      ((List.range' d r).map (fun i => s.take i)).filter (fun k => decide (k ∈ W))
  | 0, _ => rfl
  | r + 1, d => by
    simp only [hitsSpec, List.range'_succ, List.map_cons, List.filter_cons, hitsSpec_eq W s r (d + 1)]
    by_cases h : s.take d ∈ W <;> simp [h]

theorem inits_eq_map_take (s : Key) :
    s.inits = (List.range' 0 (s.length + 1)).map (fun i => s.take i) := by
  apply List.ext_getElem
  · simp
  · intro i h1 h2
    simp [List.getElem_inits]

theorem hitsSpec_inits (W : List Key) (s : Key) :
    hitsSpec W s (s.length + 1) 0 = s.inits.filter (fun k => decide (k ∈ W)) := by
  rw [hitsSpec_eq, inits_eq_map_take]

theorem inits_pairwise_length (s : Key) :
    s.inits.Pairwise (fun a b => a.length < b.length) := by
  induction s with
  | nil => simp
  | cons a l ih =>
    rw [List.inits_cons, List.pairwise_cons]
    constructor
    · intro b hb
      obtain ⟨t, _, rfl⟩ := List.mem_map.mp hb
      simp
    · rw [List.pairwise_map]
      exact ih.imp (by intro x y h; simpa using h)

theorem inits_nodup (s : Key) : s.inits.Nodup :=
  (inits_pairwise_length s).imp (by intro a b h heq; subst heq; omega)

theorem sorted_nodup {W : List Key} (hs : W.Pairwise (fun a b => keyLess a b = true)) :
    W.Nodup := by
  refine List.Pairwise.imp ?_ hs
  intro a b hab heq
  subst heq
  rw [keyLess_irrefl] at hab
  exact absurd hab (by simp)

theorem hits_length_le {W : List Key} (s : Key) :
    (s.inits.filter (fun k => decide (k ∈ W))).length ≤ W.length := by
  have hnd : (s.inits.filter (fun k => decide (k ∈ W))).Nodup :=
    (inits_nodup s).sublist (List.filter_sublist _)
  have hsub : s.inits.filter (fun k => decide (k ∈ W)) ⊆ W := by
    intro k hk
    have := (List.mem_filter.mp hk).2
    simpa using this
  exact (List.subperm_of_subset hnd hsub).length_le

theorem forall₂_mem_right {α β : Type} {R : α → β → Prop} {l1 : List α} {l2 : List β}
    (h : List.Forall₂ R l1 l2) {b : β} (hb : b ∈ l2) : ∃ a, a ∈ l1 ∧ R a b := by
  induction h with
  | nil => simp at hb
  | cons hr _ ih =>
    rcases List.mem_cons.mp hb with rfl | hb2
    · exact ⟨_, List.mem_cons_self _ _, hr⟩
    · obtain ⟨a, ha, hab⟩ := ih hb2
      exact ⟨a, List.mem_cons_of_mem _ ha, hab⟩

theorem forall₂_getLast {α β : Type} {R : α → β → Prop} {l1 : List α} {l2 : List β}
    (h : List.Forall₂ R l1 l2) {b : β} (hb : l2.getLast? = some b) :
    ∃ a, l1.getLast? = some a ∧ R a b := by
  induction h with
  | nil => simp at hb
  | @cons x y xs ys hr hrest ih =>
    cases hrest with
    | nil =>
      simp at hb
      subst hb
      exact ⟨x, by simp, hr⟩
    | cons hr2 hrest2 =>
      rw [List.getLast?_cons_cons] at hb ⊢
      exact ih hb

theorem idOf_lt {W : List Key} {c : Core} {nodes : List NodeInfo} (hT : Table W c nodes)
    {j : Nat} {n : NodeInfo} (hn : nodes[j]? = some n) (ht : n.term = true) :
    idOf nodes j < W.length := by
  rw [← hT.termCount]
  have hs := nodes_split hn
  conv_rhs => rw [hs]
  simp [idOf, List.filter_append, List.filter_cons, ht]

theorem filter_at {nodes : List NodeInfo} {j : Nat} {n : NodeInfo} (hn : nodes[j]? = some n)
    (ht : n.term = true) : (nodes.filter (fun n => n.term))[idOf nodes j]? = some n := by
  have hs := nodes_split hn
  have hf : nodes.filter (fun n => n.term) =
      (nodes.take j).filter (fun n => n.term) ++
        n :: (nodes.drop (j + 1)).filter (fun n => n.term) := by
    conv_lhs => rw [hs]
    rw [List.filter_append, List.filter_cons, ht]
    simp
  rw [hf]
  simp only [idOf]
  rw [List.getElem?_append_right (le_refl _)]
  simp

theorem traverse_root {W : List Key} {c : Core} {nodes : List NodeInfo} (hT : Table W c nodes)
    (getTail : Nat → Option Key)
    (hgt : ∀ j n t, nodes[j]? = some n → n.tail = some t → getTail (tailIdx nodes j) = some t)
    (s : Key) :
    ∃ ids, traverseLoop c getTail s 0 (s.length + 2) 0 (some (2, 2)) 0 [] =
        some ((((s.inits.filter (fun k => decide (k ∈ W))).getLast?).map List.length).getD 0, ids) ∧
      List.Forall₂ (IdKey nodes) ids (s.inits.filter (fun k => decide (k ∈ W))) := by
  obtain ⟨r, hr, _, hrd, hrp⟩ := root_pre hT
  have := traverseLoop_spec hT getTail hgt s (s.length + 1) 0 0 r hr hrd (by simp [hrp])
    (by omega) (s.length + 2) 0 [] (by omega)
  rw [hitsSpec_inits] at this
  simpa [posOf, firstChild] using this

theorem idKey_exists {W : List Key} {c : Core} {nodes : List NodeInfo} (hT : Table W c nodes)
    {k : Key} (hk : k ∈ W) : ∃ i, IdKey nodes i k := by
  have hgt : ∀ j n t, nodes[j]? = some n → n.tail = some t →
      (fun i => c.vtails[i]?) (tailIdx nodes j) = some t :=
    fun j n t hn ht => vtails_at hT hn ht
  obtain ⟨ids, _, h2⟩ := traverse_root hT (fun i => c.vtails[i]?) hgt k
  have hmem : k ∈ k.inits.filter (fun k => decide (k ∈ W)) := by
    rw [List.mem_filter]
    exact ⟨(List.mem_inits _ _).mpr (List.prefix_refl _), by simpa using hk⟩
  obtain ⟨a, _, ha⟩ := forall₂_mem_right h2 hmem
  exact ⟨a, ha⟩

theorem terminal_keys_nodup {W : List Key} {c : Core} {nodes : List NodeInfo}
    (hT : Table W c nodes) : ((nodes.filter (fun n => n.term)).map NodeInfo.key).Nodup := by
  have hsub : W ⊆ (nodes.filter (fun n => n.term)).map NodeInfo.key := by
    intro k hk
    obtain ⟨i, j, n, hn, ht, _, hkey⟩ := idKey_exists hT hk
    rw [List.mem_map]
    exact ⟨n, List.mem_filter.mpr ⟨mem_of_get hn, by simpa using ht⟩, hkey⟩
  have hperm := (List.subperm_of_subset (sorted_nodup hT.sortedW) hsub).perm_of_length_le
    (by rw [List.length_map, hT.termCount])
  exact hperm.nodup_iff.mp (sorted_nodup hT.sortedW)

theorem idKey_inj {W : List Key} {c : Core} {nodes : List NodeInfo} (hT : Table W c nodes)
    {i i2 : Nat} {k : Key} (h1 : IdKey nodes i k) (h2 : IdKey nodes i2 k) : i = i2 := by
  obtain ⟨j, n, hn, ht, hi, hk⟩ := h1
  obtain ⟨j2, n2, hn2, ht2, hi2, hk2⟩ := h2
  have a1 : ((nodes.filter (fun n => n.term)).map NodeInfo.key)[i]? = some k := by
    rw [List.getElem?_map, ← hi, filter_at hn ht]
    simp [hk]
  have a2 : ((nodes.filter (fun n => n.term)).map NodeInfo.key)[i2]? = some k := by
    rw [List.getElem?_map, ← hi2, filter_at hn2 ht2]
    simp [hk2]
  have hlt : i < ((nodes.filter (fun n => n.term)).map NodeInfo.key).length :=
    (List.getElem?_eq_some.mp a1).1
  exact List.getElem?_inj hlt (terminal_keys_nodup hT) (by rw [a1, a2])

theorem idKey_facts {W : List Key} {c : Core} {nodes : List NodeInfo} (hT : Table W c nodes)
    {i : Nat} {k : Key} (h : IdKey nodes i k) :
    i < W.length ∧ k ∈ W ∧ decodeWith c (fun i => c.vtails[i]?) i = some k := by
  obtain ⟨j, n, hn, ht, hi, hk⟩ := h
  refine ⟨by rw [← hi]; exact idOf_lt hT hn ht, ?_, ?_⟩
  · rw [← hk]; exact key_mem (hT.ok n (mem_of_get hn)) ht
  · rw [← hi, ← hk]
    exact decodeWith_spec hT _ hn ht (fun t htl => vtails_at hT hn htl)

theorem idKey_of_lt {W : List Key} {c : Core} {nodes : List NodeInfo} (hT : Table W c nodes)
    {i : Nat} (hi : i < W.length) : ∃ k, IdKey nodes i k := by
  obtain ⟨j, n, hn, ht, hid⟩ := node_of_id hT hi
  exact ⟨n.key, j, n, hn, ht, hid, rfl⟩

end ux_tool

namespace ux_tool

/-! ## Dictionaries with flat tails -/

theorem getTail_flat (c : Core) : getTail (.flat c) = fun i => c.vtails[i]? := by
  funext i
  rfl

theorem build_flat (W : List Key) : build W false = (buildCore W).map UX.flat := by
  unfold build
  cases buildCore W <;> rfl

theorem build_flat_table (W : List Key) (hne : sortUnique W ≠ []) :
    ∃ c nodes, build W false = some (.flat c) ∧ Table (sortUnique W) c nodes := by
  obtain ⟨c, nodes, h1, h2⟩ := buildCore_table W hne
  exact ⟨c, nodes, by rw [build_flat, h1]; rfl, h2⟩

theorem build_flat_empty (W : List Key) (h : sortUnique W = []) :
    build W false = some (.flat ⟨[false, true], [], [], [], [], [], 0, 0, false⟩) := by
  rw [build_flat, buildCore_empty W h]
  rfl

theorem mem_filter_sortUnique (W : List Key) (s : Key) :
    s.inits.filter (fun k => decide (k ∈ sortUnique W)) =
      s.inits.filter (fun k => decide (k ∈ W)) := by
  apply List.filter_congr
  intro k _
  simp [mem_sortUnique]

/-- The hits of `traverse` on a dictionary with flat tails, for a limit that
is not reached before the last hit. -/
theorem traverse_flat_spec {W : List Key} {c : Core} {nodes : List NodeInfo}
    (hT : Table W c nodes) (s : Key) (L : Nat) (hL : 1 ≤ L) :
    ∃ ids, List.Forall₂ (IdKey nodes) ids (s.inits.filter (fun k => decide (k ∈ W))) ∧
      (ids.length < L → traverse (.flat c) s L =
        some ((((s.inits.filter (fun k => decide (k ∈ W))).getLast?).map List.length).getD 0,
          ids)) ∧
      (∃ l2, traverse (.flat c) s L = some (l2, ids.take L)) := by
  have hgt : ∀ j n t, nodes[j]? = some n → n.tail = some t →
      (fun i => c.vtails[i]?) (tailIdx nodes j) = some t :=
    fun j n t hn ht => vtails_at hT hn ht
  obtain ⟨ids, h1, h2⟩ := traverse_root hT (fun i => c.vtails[i]?) hgt s
  have hlim := traverseLoop_limit c (fun i => c.vtails[i]?) s L (s.length + 2) 0 (some (2, 2)) 0 []
    _ (by simpa using hL) h1
  have hL0 : ¬ (L = 0) := by omega
  refine ⟨ids, h2, ?_, ?_⟩
  · intro hlt
    simp only [traverse, UX.core, getTail_flat, traverseWith, hT.ready, Bool.not_true,
      Bool.false_eq_true, if_false, hL0]
    exact hlim.1 hlt
  · simp only [traverse, UX.core, getTail_flat, traverseWith, hT.ready, Bool.not_true,
      Bool.false_eq_true, if_false, hL0]
    exact hlim.2

theorem decode_flat (c : Core) (i : Nat) :
    decode (.flat c) i = decodeWith c (fun i => c.vtails[i]?) i := by
  simp [decode, UX.core, getTail_flat]

theorem getLast_inits_filter {W : List Key} {k : Key} (hk : k ∈ W) :
    (k.inits.filter (fun x => decide (x ∈ W))).getLast? = some k := by
  rw [inits_eq_map_take, List.range'_concat, List.map_append, List.filter_append,
    List.getLast?_append]
  simp [hk]

/-- The longest key among the beginnings of `s` is the last one listed. -/
theorem getLast_of_longest {W : List Key} {s k : Key} (hk : k ∈ W) (hp : k <+: s)
    (hmax : ∀ k2, k2 ∈ W → k2 <+: s → k2.length ≤ k.length) :
    (s.inits.filter (fun x => decide (x ∈ W))).getLast? = some k := by
  have hmem : k ∈ s.inits.filter (fun x => decide (x ∈ W)) :=
    List.mem_filter.mpr ⟨(List.mem_inits _ _).mpr hp, by simpa using hk⟩
  have hpw : (s.inits.filter (fun x => decide (x ∈ W))).Pairwise
      (fun a b => a.length < b.length) :=
    (inits_pairwise_length s).sublist (List.filter_sublist _)
  have hall : ∀ z, z ∈ s.inits.filter (fun x => decide (x ∈ W)) → z.length ≤ k.length := by
    intro z hz
    obtain ⟨h1, h2⟩ := List.mem_filter.mp hz
    exact hmax z (by simpa using h2) ((List.mem_inits _ _).mp h1)
  generalize s.inits.filter (fun x => decide (x ∈ W)) = H at hmem hpw hall
  rcases List.eq_nil_or_concat H with h | ⟨H2, z, h⟩
  · subst h; simp at hmem
  · subst h
    rw [List.concat_eq_append] at hmem hpw hall ⊢
    have hz : (H2 ++ [z]).getLast? = some z := by simp
    rw [hz]
    rcases List.mem_append.mp hmem with hk2 | hk2
    · have h1 := (List.pairwise_append.mp hpw).2.2 k hk2 z (by simp)
      have h2 := hall z (by simp)
      omega
    · simp at hk2
      rw [hk2]

/-- prefixSearch on a dictionary with flat tails, in terms of the keys that
begin `s`. -/
theorem prefixSearch_flat {W : List Key} {c : Core} {nodes : List NodeInfo}
    (hT : Table W c nodes) (hN : W.length < 0xFFFFFFFF) (s : Key) :
    ((s.inits.filter (fun k => decide (k ∈ W))) = [] →
      prefixSearch (.flat c) s = some (NOTFOUND, 0)) ∧
    (∀ k, (s.inits.filter (fun k => decide (k ∈ W))).getLast? = some k →
      ∃ id, prefixSearch (.flat c) s = some (id, k.length) ∧ IdKey nodes id k) := by
  obtain ⟨ids, h1, h2, _⟩ := traverse_flat_spec hT s 0xFFFFFFFF (by decide)
  have hlen := h1.length_eq
  have hle := @hits_length_le W s
  have htr := h2 (by omega)
  constructor
  · intro hnil
    rw [hnil] at h1 htr
    cases h1
    simp [prefixSearch, htr]
  · intro k hk
    obtain ⟨a, ha, hak⟩ := forall₂_getLast h1 hk
    refine ⟨a, ?_, hak⟩
    simp [prefixSearch, htr, ha, hk]

theorem decode_of_idKeys {W : List Key} {c : Core} {nodes : List NodeInfo}
    (hT : Table W c nodes) {ids : List Nat} {H : List Key}
    (h : List.Forall₂ (IdKey nodes) ids H) : ids.map (decode (.flat c)) = H.map some := by
  induction h with
  | nil => rfl
  | cons hr _ ih =>
    simp only [List.map_cons, ih]
    rw [decode_flat, (idKey_facts hT hr).2.2]

end ux_tool

namespace ux_tool

/-! ## Building the nested tail dictionary -/

theorem sortUnique_length_le (l : List Key) : (sortUnique l).length ≤ l.length := by
  have hsub : sortUnique l ⊆ l := fun k hk => (mem_sortUnique k l).mp hk
  exact (List.subperm_of_subset (sortUnique_nodup l) hsub).length_le

theorem tails_le_terms (W : List Key) : ∀ (nodes : List NodeInfo), (∀ n, n ∈ nodes → InfoOK W n) →
    (nodes.flatMap (fun n => n.tail.toList)).length ≤ (nodes.filter (fun n => n.term)).length
  | [], _ => by simp
  | n :: ns, h => by
    have ih := tails_le_terms W ns (fun m hm => h m (List.mem_cons_of_mem _ hm))
    have hok := h n (List.mem_cons_self _ _)
    simp only [List.flatMap_cons, List.length_append, List.filter_cons]
    cases htail : n.tail with
    | none =>
      simp only [Option.toList_none, List.length_nil, Nat.zero_add]
      split
      · simp only [List.length_cons]; omega
      · exact ih
    | some t =>
      have := (hok.tailCase t htail).1
      simp only [this, if_true, Option.toList_some, List.length_cons, List.length_nil]
      omega

theorem vtails_length_le {W : List Key} {c : Core} {nodes : List NodeInfo}
    (hT : Table W c nodes) : c.vtails.length ≤ W.length := by
  rw [hT.vtails_eq, ← hT.termCount]
  exact tails_le_terms W nodes hT.ok

theorem prefixSearch_key {W : List Key} {c : Core} {nodes : List NodeInfo}
    (hT : Table W c nodes) (hN : W.length < 0xFFFFFFFF) {k : Key} (hk : k ∈ W) :
    ∃ id, prefixSearch (.flat c) k = some (id, k.length) ∧ id < W.length := by
  obtain ⟨id, hps, hid⟩ := (prefixSearch_flat hT hN k).2 k (getLast_inits_filter hk)
  exact ⟨id, hps, (idKey_facts hT hid).1⟩

theorem packTails_ok {W : List Key} {c : Core} {nodes : List NodeInfo}
    (hT : Table W c nodes) (hN : W.length < 0xFFFFFFFF) (w : Nat) :
    ∀ (tails : List Key) (acc : List Bool), (∀ t, t ∈ tails → t.reverse ∈ W) →
      ∃ ids, packTails (.flat c) w tails acc = some ids
  | [], acc, _ => ⟨acc, rfl⟩
  | t :: rest, acc, h => by
    obtain ⟨id, hps, hid⟩ := prefixSearch_key hT hN (h t (List.mem_cons_self _ _))
    have hne : ¬ (id = NOTFOUND) := by
      simp only [NOTFOUND]
      omega
    obtain ⟨ids, hids⟩ := packTails_ok hT hN w rest (pushBackWithLen acc id w)
      (fun t2 ht2 => h t2 (List.mem_cons_of_mem _ ht2))
    refine ⟨ids, ?_⟩
    simp only [packTails, hps, hne, if_false, ne_eq, not_true_eq_false]
    exact hids

theorem buildTailUX_ok (c : Core) (hM : c.vtails.length < 0xFFFFFFFF) :
    ∃ ic ids, buildCore (c.vtails.map List.reverse) = some ic ∧
      buildTailUX c = some (.nested
        { c with tailIDs := ids, tailIDLen := log2 ic.keyNum, vtails := [] } (.flat ic)) := by
  by_cases hne : sortUnique (c.vtails.map List.reverse) = []
  · have hv : c.vtails = [] := by
      cases hvt : c.vtails with
      | nil => rfl
      | cons t ts =>
        have : t.reverse ∈ sortUnique (c.vtails.map List.reverse) := by
          rw [mem_sortUnique, hvt]
          simp
        rw [hne] at this
        simp at this
    have hb := buildCore_empty _ hne
    refine ⟨_, c.tailIDs, hb, ?_⟩
    simp only [buildTailUX, hb, packTails, getKeyNum, UX.core]
    rw [hv]
    rfl
  · obtain ⟨ic, nodes, hb, hT⟩ := buildCore_table _ hne
    have hlen := sortUnique_length_le (c.vtails.map List.reverse)
    rw [List.length_map] at hlen
    obtain ⟨ids, hids⟩ := packTails_ok hT (by omega) (log2 ic.keyNum) c.vtails c.tailIDs
      (by
        intro t ht
        rw [mem_sortUnique]
        exact List.mem_map_of_mem _ ht)
    refine ⟨ic, ids, hb, ?_⟩
    simp only [buildTailUX, hb, getKeyNum, UX.core, hids]

/-- For either flag `build` succeeds, and the flag only changes the tail store. -/
theorem build_ok (W : List Key) (isTailUX : Bool) (hN : (sortUnique W).length < 0xFFFFFFFF) :
    ∃ d c, buildCore W = some c ∧ build W isTailUX = some d ∧
      d.core.loud = c.loud ∧ d.core.terminal = c.terminal ∧ d.core.tail = c.tail ∧
      d.core.edges = c.edges ∧ d.core.keyNum = c.keyNum ∧ d.core.isReady = c.isReady := by
  have hc : ∃ c, buildCore W = some c ∧ c.vtails.length < 0xFFFFFFFF := by
    by_cases hne : sortUnique W = []
    · exact ⟨_, buildCore_empty W hne, by decide⟩
    · obtain ⟨c, nodes, hb, hT⟩ := buildCore_table W hne
      exact ⟨c, hb, lt_of_le_of_lt (vtails_length_le hT) hN⟩
  obtain ⟨c, hb, hM⟩ := hc
  cases isTailUX with
  | false =>
    exact ⟨.flat c, c, hb, by rw [build_flat, hb]; rfl, rfl, rfl, rfl, rfl, rfl, rfl⟩
  | true =>
    obtain ⟨ic, ids, _, h2⟩ := buildTailUX_ok c hM
    refine ⟨.nested { c with tailIDs := ids, tailIDLen := log2 ic.keyNum, vtails := [] }
      (.flat ic), c, hb, ?_, rfl, rfl, rfl, rfl, rfl, rfl⟩
    simp only [build, hb, if_true, h2]

end ux_tool

namespace ux_tool

/-! ## Counting bits of a built dictionary -/

theorem sortUnique_length_dedup (W : List Key) : (sortUnique W).length = W.dedup.length := by
  apply List.Perm.length_eq
  rw [List.perm_ext_iff_of_nodup (sortUnique_nodup W) (List.nodup_dedup W)]
  intro a
  rw [mem_sortUnique, List.mem_dedup]

theorem count_true_terminal {W : List Key} {c : Core} {nodes : List NodeInfo}
    (hT : Table W c nodes) : c.terminal.count true = W.length := by
  rw [hT.terminal_eq, ← hT.termCount]
  have := count_take_map_term nodes nodes.length
  simp only [List.take_length, idOf] at this
  rw [← @List.take_length _ (stateOf nodes).terminalBV]
  simpa [stateOf] using this

theorem count_true_loud (nodes : List NodeInfo) :
    (stateOf nodes).loudBV.count true = nodes.length + 1 := by
  simp only [stateOf, List.count_append, count_true_desc]
  simp
  omega

theorem count_false_loud {W : List Key} {c : Core} {nodes : List NodeInfo}
    (hT : Table W c nodes) : c.loud.count false = c.edges.length + 1 := by
  rw [hT.loud_eq, hT.edges_eq]
  have h1 := length_labels_take hT nodes.length
  have h2 := loudBefore_count_false nodes nodes.length
  simp only [List.take_length, loudBefore] at h1 h2
  simp only [stateOf]
  rw [h2, ← h1]

/-- The facts about the vectors that hold for every key list, empty or not. -/
theorem build_counts (W : List Key) :
    ∃ c, buildCore W = some c ∧ c.keyNum = (sortUnique W).length ∧
      c.terminal.count true = (sortUnique W).length ∧
      c.loud.count false = c.edges.length + 1 ∧
      c.terminal.length = c.tail.length ∧
      c.terminal.length + 1 = c.loud.count true := by
  by_cases hne : sortUnique W = []
  · refine ⟨_, buildCore_empty W hne, ?_, ?_, ?_, ?_, ?_⟩ <;> simp [hne]
  · obtain ⟨c, nodes, hb, hT⟩ := buildCore_table W hne
    refine ⟨c, hb, hT.keyNum_eq, count_true_terminal hT, count_false_loud hT, ?_, ?_⟩
    · rw [hT.terminal_eq, hT.tail_eq]
      simp [stateOf]
    · rw [hT.terminal_eq, hT.loud_eq, count_true_loud]
      simp [stateOf]

/-! ## Positions inside the description of a node -/

theorem pos_decompose {nodes : List NodeInfo} {p : Nat}
    (hb : getBit (stateOf nodes).loudBV p = some false) (hp : 2 ≤ p) :
    ∃ j n t, nodes[j]? = some n ∧ t < n.kids.length ∧ p = posOf nodes j + t := by
  have hlt : p < (stateOf nodes).loudBV.length := (List.getElem?_eq_some.mp hb).1
  have hlt2 : p - 2 < (nodes.flatMap
      (fun n => List.replicate n.kids.length false ++ [true])).length := by
    simp only [stateOf, List.length_append, List.length_cons, List.length_nil] at hlt
    omega
  obtain ⟨j, t, n, hn, ht, he⟩ := flatMap_index _ nodes (p - 2) hlt2
  have hj := (List.getElem?_eq_some.mp hn).1
  have hl := @loudBefore_length nodes j (by omega)
  simp only [loudBefore, List.length_append, List.length_cons, List.length_nil] at hl
  have hpe : p = posOf nodes j + t := by omega
  simp only [List.length_append, List.length_replicate, List.length_cons,
    List.length_nil] at ht
  refine ⟨j, n, t, hn, ?_, hpe⟩
  by_contra hcon
  have hte : t = n.kids.length := by omega
  have := getBit_loud_true hn
  rw [← hte, ← hpe, hb] at this
  simp at this

theorem rank_loud_false {nodes : List NodeInfo} {j t : Nat} {n : NodeInfo}
    (h : nodes[j]? = some n) (ht : t < n.kids.length) :
    rank (stateOf nodes).loudBV (posOf nodes j + t) false = firstChild nodes j + t + 1 := by
  rw [rank_of_getBit (getBit_loud_false h ht)]
  have hj := (List.getElem?_eq_some.mp h).1
  have hl := @loudBefore_length nodes j (by omega)
  have hc := loudBefore_count_false nodes j
  rw [loud_split h, ← hl, List.take_append, List.append_assoc, List.take_append_of_le_length
    (by simpa using (Nat.le_of_lt ht)), List.count_append, hc]
  simp [List.take_replicate, List.count_replicate, Nat.min_eq_left (Nat.le_of_lt ht)]

theorem run_in_node {nodes : List NodeInfo} {j t : Nat} {n : NodeInfo}
    (h : nodes[j]? = some n) (ht : t < n.kids.length) :
    ∀ m, (∀ x, posOf nodes j + t ≤ x → x ≤ posOf nodes j + t + m →
      getBit (stateOf nodes).loudBV x = some false) → t + m < n.kids.length
  | 0, _ => by simpa using ht
  | m + 1, hall => by
    have ih := run_in_node h ht m (fun x h1 h2 => hall x h1 (by omega))
    by_contra hcon
    have hte : t + (m + 1) = n.kids.length := by omega
    have h1 := getBit_loud_true h
    have h2 := hall (posOf nodes j + n.kids.length) (by omega) (by omega)
    rw [h1] at h2
    simp at h2

theorem siblings_ascending {W : List Key} {c : Core} {nodes : List NodeInfo}
    (hT : Table W c nodes) {p p2 : Nat} (hp : 2 ≤ p) (hlt : p < p2)
    (hall : ∀ x, p ≤ x → x ≤ p2 → getBit c.loud x = some false) :
    ∃ e e2, c.edges[rank c.loud p false - 2]? = some e ∧
      c.edges[rank c.loud p2 false - 2]? = some e2 ∧ e < e2 := by
  rw [hT.loud_eq] at hall ⊢
  obtain ⟨j, n, t, hn, ht, hpe⟩ := pos_decompose (hall p (le_refl _) (by omega)) hp
  subst hpe
  have hrun := run_in_node hn ht (p2 - (posOf nodes j + t))
    (fun x h1 h2 => hall x h1 (by omega))
  have hp2 : p2 = posOf nodes j + (t + (p2 - (posOf nodes j + t))) := by omega
  generalize t + (p2 - (posOf nodes j + t)) = t2 at hrun hp2
  subst hp2
  have hok := hT.ok n (mem_of_get hn)
  have hfc := firstChild_pos nodes j
  rw [rank_loud_false hn ht, rank_loud_false hn hrun]
  have e1 := edges_at hT hn ht
  have e2 := edges_at hT hn hrun
  have i1 : firstChild nodes j + t + 1 - 2 = firstChild nodes j + t - 1 := by omega
  have i2 : firstChild nodes j + t2 + 1 - 2 = firstChild nodes j + t2 - 1 := by omega
  rw [i1, i2, e1, e2]
  have hl1 : t < n.labels.length := by rw [hok.len]; exact ht
  have hl2 : t2 < n.labels.length := by rw [hok.len]; exact hrun
  refine ⟨n.labels[t], n.labels[t2], List.getElem?_eq_getElem hl1,
    List.getElem?_eq_getElem hl2, ?_⟩
  exact (List.pairwise_iff_getElem.mp hok.sorted) t t2 hl1 hl2 (by omega)

theorem tail_is_leaf {W : List Key} {c : Core} {nodes : List NodeInfo}
    (hT : Table W c nodes) {i : Nat} (hb : getBit c.tail i = some true) :
    getBit c.terminal i = some true ∧
      ∃ p, select c.loud (i + 1) true = some p ∧ getBit c.loud (p + 1) = some true := by
  have hi : i < nodes.length := by
    have := (List.getElem?_eq_some.mp hb).1
    rw [hT.tail_eq] at this
    simpa [stateOf] using this
  have hn : nodes[i]? = some nodes[i] := List.getElem?_eq_getElem hi
  have hb2 := getBit_tail hT hn
  rw [hb] at hb2
  have hsome : nodes[i].tail.isSome = true := by
    simpa using hb2.symm
  obtain ⟨t, ht⟩ := Option.isSome_iff_exists.mp hsome
  have hok := hT.ok _ (mem_of_get hn)
  obtain ⟨hterm, hkids, _⟩ := hok.tailCase t ht
  refine ⟨by rw [getBit_terminal hT hn, hterm], posOf nodes i - 1, ?_, ?_⟩
  · rw [hT.loud_eq]; exact select_loud_true hi
  · have := getBit_loud_true hn
    rw [hkids] at this
    rw [hT.loud_eq]
    have hp := posOf_eq nodes i
    have hfc := firstChild_pos nodes i
    have e : posOf nodes i - 1 + 1 = posOf nodes i + ([] : List RangeNode).length := by
      simp; omega
    rw [e]; exact this

end ux_tool

namespace ux_tool

/-! ## The sorted word list depends on the set of keys only -/

theorem sorted_ext : ∀ (l1 l2 : List Key), l1.Pairwise (fun a b => keyLess a b = true) →
    l2.Pairwise (fun a b => keyLess a b = true) → (∀ k, k ∈ l1 ↔ k ∈ l2) → l1 = l2
  | [], [], _, _, _ => rfl
  | [], b :: t2, _, _, h => by
    have := (h b).mpr (List.mem_cons_self _ _)
    simp at this
  | a :: t1, [], _, _, h => by
    have := (h a).mp (List.mem_cons_self _ _)
    simp at this
  | a :: t1, b :: t2, h1, h2, h => by
    rw [List.pairwise_cons] at h1 h2
    have hab : a = b := by
      by_contra hne
      have ha : a ∈ t2 := by
        have := (h a).mp (List.mem_cons_self _ _)
        rcases List.mem_cons.mp this with h3 | h3
        · exact absurd h3 hne
        · exact h3
      have hb : b ∈ t1 := by
        have := (h b).mpr (List.mem_cons_self _ _)
        rcases List.mem_cons.mp this with h3 | h3
        · exact absurd h3.symm hne
        · exact h3
      have x1 := h1.1 b hb
      have x2 := h2.1 a ha
      rw [keyLess_asymm _ _ x1] at x2
      exact absurd x2 (by simp)
    subst hab
    congr 1
    apply sorted_ext t1 t2 h1.2 h2.2
    intro k
    constructor
    · intro hk
      have := (h k).mp (List.mem_cons_of_mem _ hk)
      rcases List.mem_cons.mp this with h3 | h3
      · subst h3
        have := h1.1 k hk
        rw [keyLess_irrefl] at this
        exact absurd this (by simp)
      · exact h3
    · intro hk
      have := (h k).mpr (List.mem_cons_of_mem _ hk)
      rcases List.mem_cons.mp this with h3 | h3
      · subst h3
        have := h2.1 k hk
        rw [keyLess_irrefl] at this
        exact absurd this (by simp)
      · exact h3

theorem sortUnique_congr (W1 W2 : List Key) (h : ∀ k, k ∈ W1 ↔ k ∈ W2) :
    sortUnique W1 = sortUnique W2 := by
  apply sorted_ext _ _ (sortUnique_sorted W1) (sortUnique_sorted W2)
  intro k
  rw [mem_sortUnique, mem_sortUnique, h]

theorem buildCore_congr (W1 W2 : List Key) (h : sortUnique W1 = sortUnique W2) :
    buildCore W1 = buildCore W2 := by
  simp only [buildCore, h]

theorem build_congr (W1 W2 : List Key) (isTailUX : Bool) (h : sortUnique W1 = sortUnique W2) :
    build W1 isTailUX = build W2 isTailUX := by
  simp only [build, buildCore_congr W1 W2 h]

/-! ## The tail pool -/

theorem vtails_length_eq {W : List Key} {c : Core} {nodes : List NodeInfo}
    (hT : Table W c nodes) : c.vtails.length = c.tail.count true := by
  rw [hT.vtails_eq, hT.tail_eq]
  have := count_take_map_tail nodes nodes.length
  simp only [List.take_length, tailIdx] at this
  rw [← @List.take_length _ (stateOf nodes).tailBV]
  simp only [stateOf]
  rw [← this]
  simp

theorem queries_not_ready (c : Core) (h : c.isReady = false) (getTail : Nat → Option Key)
    (s : Key) (limit id : Nat) :
    traverseWith c getTail s limit = some (0, []) ∧ decodeWith c getTail id = some [] := by
  simp [traverseWith, decodeWith, h]

end ux_tool

namespace ux_tool

/-! ## enumerateAll -/

theorem keysAt_append (W : List Key) (a b : List Nat) :
    keysAt W (a ++ b) = keysAt W a ++ keysAt W b := by
  simp [keysAt, List.filterMap_append]

theorem keysAt_single {W : List Key} {i : Nat} {w : Key} (h : W[i]? = some w) :
    keysAt W [i] = [w] := by
  simp [keysAt, h]

theorem take_append_take {α : Type} (a b : List α) (m : Nat) :
    (a ++ b).take m = a.take m ++ b.take (m - (a.take m).length) := by
  rw [List.take_append_eq_append_take]
  congr 2
  rw [List.length_take]
  omega

/-- The loop of `enumerateAll` at a node whose children are known to be
enumerated correctly. -/
theorem enumerateLoop_spec {W : List Key} {c : Core} {nodes : List NodeInfo}
    (hT : Table W c nodes) {j : Nat} {n : NodeInfo} (hn : nodes[j]? = some n)
    (ihc : ∀ t k, n.kids[t]? = some k →
      ∃ I, List.Forall₂ (IdKey nodes) I (keysAt W (List.range' k.left k.size)) ∧
        ∀ (L : Nat) (a : List Nat) (fuel : Nat), a.length < L →
          nodes.length - j - 1 ≤ fuel →
          enumerateAll c L fuel (posOf nodes (firstChild nodes j + t))
            (firstChild nodes (firstChild nodes j + t) + 1) a = some (a ++ I.take (L - a.length))) :
    ∀ (r i : Nat), i + r = n.kids.length →
      ∃ R, List.Forall₂ (IdKey nodes) R
          (keysAt W ((n.kids.drop i).flatMap (fun k => List.range' k.left k.size))) ∧
        ∀ (L : Nat) (a : List Nat) (fuel lf : Nat), nodes.length - j - 1 ≤ fuel → r + 1 ≤ lf →
          enumerateLoop c L (enumerateAll c L fuel) lf (posOf nodes j) (firstChild nodes j + 1) i a =
            some (a ++ R.take (L - a.length)) := by
  intro r
  induction r with
  | zero =>
    intro i hi
    refine ⟨[], ?_, ?_⟩
    · have : n.kids.drop i = [] := List.drop_eq_nil_of_le (by omega)
      rw [this]
      exact List.Forall₂.nil
    · intro L a fuel lf _ hlf
      cases lf with
      | zero => omega
      | succ lf =>
        have hb := getBit_loud_true hn
        rw [← hT.loud_eq] at hb
        have hi2 : i = n.kids.length := by omega
        simp [enumerateLoop, hi2, hb]
  | succ r ih =>
    intro i hi
    have hil : i < n.kids.length := by omega
    have hk : n.kids[i]? = some n.kids[i] := List.getElem?_eq_getElem hil
    obtain ⟨I, hI1, hI2⟩ := ihc i _ hk
    obtain ⟨R, hR1, hR2⟩ := ih (i + 1) (by omega)
    have hdrop : n.kids.drop i = n.kids[i] :: n.kids.drop (i + 1) := by
      rw [List.drop_eq_getElem_cons hil]
    refine ⟨I ++ R, ?_, ?_⟩
    · rw [hdrop, List.flatMap_cons, keysAt_append]
      exact List.rel_append hI1 hR1
    · intro L a fuel lf hfuel hlf
      cases lf with
      | zero => omega
      | succ lf =>
        have hb := getBit_loud_false hn hil
        rw [← hT.loud_eq] at hb
        by_cases hal : a.length < L
        · obtain ⟨m, hm, _, _⟩ := child_at hT hn hk
          have hml := (List.getElem?_eq_some.mp hm).1
          have hsel := @select_loud_true nodes (firstChild nodes j + i) hml
          rw [← hT.loud_eq] at hsel
          have hsel2 : select c.loud (firstChild nodes j + 1 + i) true =
              some (posOf nodes (firstChild nodes j + i) - 1) := by
            rw [← hsel]; congr 1; omega
          have hp := posOf_eq nodes (firstChild nodes j + i)
          have hfc := firstChild_pos nodes (firstChild nodes j + i)
          have e1 : posOf nodes (firstChild nodes j + i) - 1 + 1 =
              posOf nodes (firstChild nodes j + i) := by omega
          have e2 : posOf nodes (firstChild nodes j + i) - (firstChild nodes j + 1) - i + 1 =
              firstChild nodes (firstChild nodes j + i) + 1 := by omega
          simp only [enumerateLoop, hb, hal, if_true, hsel2, e1, e2]
          rw [hI2 L a fuel hal hfuel]
          simp only
          rw [hR2 L _ fuel lf hfuel (by omega)]
          rw [take_append_take, List.append_assoc]
          simp only [List.length_append]
          congr 4
          omega
        · have h0 : L - a.length = 0 := by omega
          simp [enumerateLoop, hb, hal, h0]

theorem enumerateAll_spec {W : List Key} {c : Core} {nodes : List NodeInfo}
    (hT : Table W c nodes) :
    ∀ (m j : Nat) (n : NodeInfo), nodes.length - j ≤ m → nodes[j]? = some n →
      ∃ I, List.Forall₂ (IdKey nodes) I (keysAt W (List.range' n.rn.left n.rn.size)) ∧
        ∀ (L : Nat) (a : List Nat) (fuel : Nat), a.length < L → nodes.length - j ≤ fuel →
          enumerateAll c L fuel (posOf nodes j) (firstChild nodes j + 1) a =
            some (a ++ I.take (L - a.length)) := by
  intro m
  induction m with
  | zero =>
    intro j n hm hn
    have := (List.getElem?_eq_some.mp hn).1
    omega
  | succ m ih =>
    intro j n hm hn
    have hj := (List.getElem?_eq_some.mp hn).1
    have hok := hT.ok n (mem_of_get hn)
    have hord := hT.order j hj
    have ihc : ∀ t k, n.kids[t]? = some k →
        ∃ I, List.Forall₂ (IdKey nodes) I (keysAt W (List.range' k.left k.size)) ∧
          ∀ (L : Nat) (a : List Nat) (fuel : Nat), a.length < L →
            nodes.length - j - 1 ≤ fuel →
            enumerateAll c L fuel (posOf nodes (firstChild nodes j + t))
              (firstChild nodes (firstChild nodes j + t) + 1) a =
              some (a ++ I.take (L - a.length)) := by
      intro t k hk
      obtain ⟨ch, hch, hcr, _⟩ := child_at hT hn hk
      obtain ⟨I, h1, h2⟩ := ih (firstChild nodes j + t) ch (by omega) hch
      rw [hcr] at h1
      exact ⟨I, h1, fun L a fuel ha hf => h2 L a fuel ha (by omega)⟩
    obtain ⟨R, hR1, hR2⟩ := enumerateLoop_spec hT hn ihc n.kids.length 0 (by omega)
    simp only [List.drop_zero] at hR1
    have hones : posOf nodes j - (firstChild nodes j + 1) = j := by
      rw [posOf_eq]; omega
    have hbt := getBit_terminal hT hn
    have hlen : n.kids.length + 1 ≤ c.loud.length + 1 := by
      have : c.loud.length = (loudBefore nodes j).length + ((n.kids.length + 1) +
          ((nodes.drop (j + 1)).flatMap
            (fun n => List.replicate n.kids.length false ++ [true])).length) := by
        rw [hT.loud_eq, loud_split hn]
        simp
        omega
      omega
    have hlW : n.rn.left < W.length := by
      have := hok.range.1
      have := hok.range.2.1
      omega
    have hcur : W[n.rn.left]? = some W[n.rn.left] := List.getElem?_eq_getElem hlW
    cases htail : n.tail with
    | some t =>
      obtain ⟨hterm, hkids, _, hl, hr, _⟩ := hok.tailCase t htail
      have hR : R = [] := by
        rw [hkids] at hR1
        cases hR1
        rfl
      refine ⟨[idOf nodes j], ?_, ?_⟩
      · have hsize : n.rn.size = 1 := by simp [RangeNode.size, hr]
        rw [hsize]
        simp only [List.range'_one, keysAt_single hl]
        exact List.Forall₂.cons ⟨j, n, hn, hterm, rfl, by simp [NodeInfo.key, htail]⟩
          List.Forall₂.nil
      · intro L a fuel ha hf
        cases fuel with
        | zero => omega
        | succ fuel =>
          simp only [enumerateAll, hones, hbt, hterm, if_true, rank_terminal hT hn hterm]
          rw [hR2 L _ fuel _ (by omega) hlen, hR]
          have : L - a.length = (L - a.length - 1) + 1 := by omega
          rw [this]
          simp
    | none =>
      have hchain := hok.chain htail
      cases hterm : n.term with
      | true =>
        have hpre := (hok.termCase htail).mp hterm
        refine ⟨idOf nodes j :: R, ?_, ?_⟩
        · rw [← hchain, hterm, if_pos rfl, keysAt_append, keysAt_single hpre]
          exact List.Forall₂.cons ⟨j, n, hn, hterm, rfl, by simp [NodeInfo.key, htail]⟩ hR1
        · intro L a fuel ha hf
          cases fuel with
          | zero => omega
          | succ fuel =>
            simp only [enumerateAll, hones, hbt, hterm, if_true, rank_terminal hT hn hterm]
            rw [hR2 L _ fuel _ (by omega) hlen]
            have : L - a.length = (L - a.length - 1) + 1 := by omega
            rw [this]
            simp only [List.length_append, List.length_singleton, List.take_succ_cons,
              List.append_assoc, List.singleton_append]
            rw [Nat.sub_add_eq]
      | false =>
        refine ⟨R, ?_, ?_⟩
        · rw [← hchain, hterm]
          simp only [Bool.false_eq_true, if_false, List.nil_append]
          exact hR1
        · intro L a fuel ha hf
          cases fuel with
          | zero => omega
          | succ fuel =>
            simp only [enumerateAll, hones, hbt, hterm, Bool.false_eq_true, if_false]
            rw [hR2 L _ fuel _ (by omega) hlen]

end ux_tool

namespace ux_tool

/-! ## The descent of `predictiveSearch` and the keys below a node -/

theorem keysAt_range (W : List Key) : ∀ (n l : Nat),
    keysAt W (List.range' l n) = (W.drop l).take n := by
  intro n
  induction n with
  | zero => intro l; simp [keysAt]
  | succ n ih =>
    intro l
    have e : List.range' l (n + 1) = [l] ++ List.range' (l + 1) n := by
      simp [List.range'_succ]
    rw [e, keysAt_append, ih]
    by_cases hl : l < W.length
    · rw [keysAt_single (List.getElem?_eq_getElem hl), List.drop_eq_getElem_cons hl]
      rfl
    · have h1 : W.drop l = [] := List.drop_eq_nil_of_le (by omega)
      have h2 : W.drop (l + 1) = [] := List.drop_eq_nil_of_le (by omega)
      have h3 : W[l]? = none := List.getElem?_eq_none (by omega)
      simp [h1, h2, keysAt, h3]

theorem filter_range {W : List Key} {p : Key → Bool} {l r : Nat} (hlr : l ≤ r)
    (h : ∀ i w, W[i]? = some w → ((l ≤ i ∧ i < r) ↔ p w = true)) :
    W.filter p = (W.drop l).take (r - l) := by
  have e : W = W.take l ++ ((W.drop l).take (r - l) ++ (W.drop l).drop (r - l)) := by
    rw [List.take_append_drop, List.take_append_drop]
  have h1 : (W.take l).filter p = [] := by
    rw [List.filter_eq_nil_iff]
    intro a ha
    obtain ⟨i, hi⟩ := List.mem_iff_getElem?.mp ha
    have hil : i < l := by
      have := (List.getElem?_eq_some.mp hi).1
      simp at this
      omega
    rw [List.getElem?_take_of_lt hil] at hi
    intro hp
    have := (h i a hi).mpr hp
    omega
  have h2 : ((W.drop l).take (r - l)).filter p = (W.drop l).take (r - l) := by
    rw [List.filter_eq_self]
    intro a ha
    obtain ⟨i, hi⟩ := List.mem_iff_getElem?.mp ha
    have hil : i < r - l := by
      have := (List.getElem?_eq_some.mp hi).1
      simp at this
      omega
    rw [List.getElem?_take_of_lt hil, List.getElem?_drop] at hi
    exact (h (l + i) a hi).mp (by omega)
  have h3 : ((W.drop l).drop (r - l)).filter p = [] := by
    rw [List.filter_eq_nil_iff]
    intro a ha
    obtain ⟨i, hi⟩ := List.mem_iff_getElem?.mp ha
    rw [List.getElem?_drop, List.getElem?_drop] at hi
    intro hp
    have := (h _ a hi).mpr hp
    omega
  conv_lhs => rw [e]
  rw [List.filter_append, List.filter_append, h1, h2, h3]
  simp

/-- The keys in a node's range are the keys that start with the node's path. -/
theorem keysAt_node {W : List Key} {c : Core} {nodes : List NodeInfo} (hT : Table W c nodes)
    {j : Nat} {n : NodeInfo} (h : nodes[j]? = some n) :
    keysAt W (List.range' n.rn.left n.rn.size) = W.filter (fun k => decide (n.pre <+: k)) := by
  have hr := (hT.ok n (mem_of_get h)).range
  rw [keysAt_range, RangeNode.size]
  symm
  apply filter_range (by have := hr.1; omega)
  intro i w hw
  rw [hr.2.2.2 i w hw]
  simp

theorem descend_spec {W : List Key} {c : Core} {nodes : List NodeInfo} (hT : Table W c nodes) :
    ∀ (s : Key) (j : Nat) (n : NodeInfo) (lp lz : Nat), s ≠ [] → nodes[j]? = some n →
      descend c s lp lz (posOf nodes j) (firstChild nodes j + 1) = some none ∨
      ∃ j2 n2, nodes[j2]? = some n2 ∧ n2.pre = n.pre ++ s.dropLast ∧
        descend c s lp lz (posOf nodes j) (firstChild nodes j + 1) =
          some (some (posOf nodes j2, firstChild nodes j2 + 1)) := by
  intro s
  induction s with
  | nil => intro j n lp lz h; exact absurd rfl h
  | cons ch rest ih =>
    intro j n lp lz _ hn
    rcases getChild_spec hT hn ch with ⟨_, hg⟩ | ⟨t0, ht0, hg⟩
    · left
      simp only [descend, hg]
    · have hok := hT.ok n (mem_of_get hn)
      have htl : t0 < n.kids.length := by
        rw [← hok.len]
        exact (List.getElem?_eq_some.mp ht0).1
      obtain ⟨m, hm, _, _, hmp⟩ := child_pre hT hn (List.getElem?_eq_getElem htl) ht0
      cases rest with
      | nil =>
        right
        refine ⟨j, n, hn, by simp, ?_⟩
        simp only [descend, hg]
      | cons ch2 rest2 =>
        rcases ih (firstChild nodes j + t0) m (posOf nodes j) (firstChild nodes j + 1)
          (by simp) hm with h1 | ⟨j2, n2, hn2, hp2, h2⟩
        · left
          simp only [descend, hg]
          simpa only [descend] using h1
        · right
          refine ⟨j2, n2, hn2, ?_, ?_⟩
          · rw [hp2, hmp]
            simp
          · simp only [descend, hg]
            simpa only [descend] using h2

/-- What `predictiveSearch` returns on a flat dictionary for a non-empty input. -/
theorem predictiveSearch_flat_spec {W : List Key} {c : Core} {nodes : List NodeInfo}
    (hT : Table W c nodes) (s : Key) (hs : s ≠ []) :
    (descend c s 0 0 2 2 = some none ∧
      ∀ L, 1 ≤ L → predictiveSearch (.flat c) s L = some []) ∨
    (∃ p I, descend c s 0 0 2 2 = some (some p) ∧
      List.Forall₂ (IdKey nodes) I (W.filter (fun k => decide (s.dropLast <+: k))) ∧
      ∀ L, 1 ≤ L → predictiveSearch (.flat c) s L = some (I.take L)) := by
  obtain ⟨r, hr, _, _, hrp⟩ := root_pre hT
  have hpos : posOf nodes 0 = 2 := by simp [posOf, firstChild]
  have hfc : firstChild nodes 0 + 1 = 2 := by simp [firstChild]
  have hrdy : c.isReady = true := hT.ready
  rcases descend_spec hT s 0 r 0 0 hs hr with h | ⟨j2, n2, hn2, hp2, h⟩
  · rw [hpos, hfc] at h
    left
    refine ⟨h, ?_⟩
    intro L hL
    have hL0 : L ≠ 0 := by omega
    simp [predictiveSearch, UX.core, hrdy, hL0, h]
  · rw [hpos, hfc] at h
    right
    obtain ⟨I, hI1, hI2⟩ := enumerateAll_spec hT nodes.length j2 n2 (by omega) hn2
    rw [keysAt_node hT hn2, hp2, hrp, List.nil_append] at hI1
    refine ⟨_, I, h, hI1, ?_⟩
    intro L hL
    have hL0 : L ≠ 0 := by omega
    have hlen : c.terminal.length = nodes.length := by
      rw [hT.terminal_eq]
      simp [stateOf]
    have := hI2 L [] (c.terminal.length + 1) (by simpa using hL) (by omega)
    simp [predictiveSearch, UX.core, hrdy, hL0, h, this]

end ux_tool

namespace ux_tool

/-! ## The limit of the two enumerating queries, flat tails -/

/-- The hits of `traverse` with flat tails under every limit: the first
`limit` entries of one list. -/
theorem traverse_flat_limits {W : List Key} {c : Core} {nodes : List NodeInfo}
    (hT : Table W c nodes) (s : Key) :
    ∃ ids : List Nat, ∀ L, ∃ l2, traverse (.flat c) s L = some (l2, ids.take L) := by
  have hgt : ∀ j n t, nodes[j]? = some n → n.tail = some t →
      (fun i => c.vtails[i]?) (tailIdx nodes j) = some t :=
    fun j n t hn ht => vtails_at hT hn ht
  obtain ⟨ids, h1, _⟩ := traverse_root hT (fun i => c.vtails[i]?) hgt s
  refine ⟨ids, ?_⟩
  intro L
  by_cases hL : L = 0
  · refine ⟨0, ?_⟩
    simp [traverse, traverseWith, hL]
  · have hlim := traverseLoop_limit c (fun i => c.vtails[i]?) s L (s.length + 2) 0 (some (2, 2))
      0 [] _ (by simpa using Nat.pos_of_ne_zero hL) h1
    simp only [traverse, UX.core, getTail_flat, traverseWith, hT.ready, Bool.not_true,
      Bool.false_eq_true, if_false, hL]
    exact hlim.2

/-- With flat tails, `commonPrefixSearch` returns under every limit the first
`limit` entries of one list `full`. -/
theorem commonPrefixSearch_truncates (W : List Key) (s : Key) :
    ∃ (d : UX) (full : List Nat), build W false = some d ∧
      ∀ L, commonPrefixSearch d s L = some (List.take L full) := by
  by_cases hne : sortUnique W = []
  · refine ⟨_, [], build_flat_empty W hne, ?_⟩
    intro L
    simp [commonPrefixSearch, traverse, traverseWith, UX.core]
  · obtain ⟨c, nodes, hb, hT⟩ := build_flat_table W hne
    obtain ⟨ids, hL⟩ := traverse_flat_limits hT s
    refine ⟨_, ids, hb, ?_⟩
    intro L
    obtain ⟨l2, h2⟩ := hL L
    simp only [commonPrefixSearch, h2]

/-- With flat tails and a non-empty input, `predictiveSearch` returns the
first `limit` entries of one list `full` under every limit. -/
theorem predictiveSearch_truncates (W : List Key) (s : Key) (hs : s ≠ []) :
    ∃ (d : UX) (full : List Nat), build W false = some d ∧
      ∀ L, predictiveSearch d s L = some (List.take L full) := by
  by_cases hne : sortUnique W = []
  · refine ⟨_, [], build_flat_empty W hne, ?_⟩
    intro L
    simp [predictiveSearch, UX.core]
  · obtain ⟨c, nodes, hb, hT⟩ := build_flat_table W hne
    rcases predictiveSearch_flat_spec hT s hs with ⟨_, h2⟩ | ⟨p, I, _, _, h3⟩
    · refine ⟨_, [], hb, ?_⟩
      intro L
      by_cases hL : L = 0
      · simp [predictiveSearch, hL]
      · simpa using h2 L (by omega)
    · refine ⟨_, I, hb, ?_⟩
      intro L
      by_cases hL : L = 0
      · simp [predictiveSearch, hL]
      · exact h3 L (by omega)

end ux_tool

namespace ux_tool

/-! ## Level order of the nodes -/

/-- The ranges of a node's children lie inside the node's range, from left
to right. -/
theorem kids_ranges {W : List Key} {n : NodeInfo} (hok : InfoOK W n) :
    (∀ (t : Nat) (k : RangeNode), n.kids[t]? = some k →
      k.left < k.right ∧ n.rn.left ≤ k.left ∧ k.right ≤ n.rn.right) ∧
    (∀ (t1 t2 : Nat) (k1 k2 : RangeNode), t1 < t2 → n.kids[t1]? = some k1 →
      n.kids[t2]? = some k2 → k1.right ≤ k2.left) := by
  have hne : ∀ (t : Nat) (k : RangeNode), n.kids[t]? = some k → k.left < k.right := by
    intro t k hk
    have ht : t < n.labels.length := by
      rw [hok.len]
      exact (List.getElem?_eq_some.mp hk).1
    exact (hok.kidsOK t _ k (List.getElem?_eq_getElem ht) hk).1
  cases htail : n.tail with
  | some t0 =>
    have hk := (hok.tailCase t0 htail).2.1
    constructor
    · intro t k h; rw [hk] at h; simp at h
    · intro t1 t2 k1 k2 _ h; rw [hk] at h; simp at h
  | none =>
    have hchain := hok.chain htail
    have hlr := hok.range.1
    have hpw : (n.kids.flatMap (fun k => List.range' k.left k.size)).Pairwise (fun a b => a < b) := by
      have h1 : ((if n.term = true then [n.rn.left] else []) ++
          n.kids.flatMap (fun k => List.range' k.left k.size)).Pairwise (fun a b => a < b) := by
        rw [hchain]
        exact List.pairwise_lt_range' _ _
      exact (List.pairwise_append.mp h1).2.1
    have hmem : ∀ x, x ∈ n.kids.flatMap (fun k => List.range' k.left k.size) →
        n.rn.left ≤ x ∧ x < n.rn.right := by
      intro x hx
      have : x ∈ List.range' n.rn.left n.rn.size := by
        rw [← hchain]
        exact List.mem_append_right _ hx
      rw [List.mem_range'_1, RangeNode.size] at this
      omega
    constructor
    · intro t k hk
      have hkl := hne t k hk
      have hkm : k ∈ n.kids := List.mem_iff_getElem?.mpr ⟨t, hk⟩
      have h1 := hmem k.left (List.mem_flatMap.mpr ⟨k, hkm, by
        rw [List.mem_range'_1, RangeNode.size]; omega⟩)
      have h2 := hmem (k.right - 1) (List.mem_flatMap.mpr ⟨k, hkm, by
        rw [List.mem_range'_1, RangeNode.size]; omega⟩)
      omega
    · intro t1 t2 k1 k2 hlt hk1 hk2
      have hp := (List.pairwise_flatMap.mp hpw).2
      rw [List.pairwise_iff_getElem] at hp
      obtain ⟨h1, e1⟩ := List.getElem?_eq_some.mp hk1
      obtain ⟨h2, e2⟩ := List.getElem?_eq_some.mp hk2
      have hl1 := hne t1 k1 hk1
      have hl2 := hne t2 k2 hk2
      have := hp t1 t2 h1 h2 hlt (k1.right - 1) (by
        rw [e1, List.mem_range'_1, RangeNode.size]; omega) k2.left (by
        rw [e2, List.mem_range'_1, RangeNode.size]; omega)
      omega

theorem firstChild_succ {nodes : List NodeInfo} {j : Nat} {n : NodeInfo}
    (h : nodes[j]? = some n) : firstChild nodes (j + 1) = firstChild nodes j + n.kids.length := by
  have hj := (List.getElem?_eq_some.mp h).1
  have he := (List.getElem?_eq_some.mp h).2
  unfold firstChild
  rw [List.take_succ, h]
  simp
  omega

theorem firstChild_mono (nodes : List NodeInfo) {a b : Nat} (h : a ≤ b) :
    firstChild nodes a ≤ firstChild nodes b := by
  induction b with
  | zero =>
    have : a = 0 := by omega
    subst this
    exact le_refl _
  | succ b ih =>
    by_cases hab : a = b + 1
    · subst hab; exact le_refl _
    · have h1 := ih (by omega)
      have h2 : firstChild nodes b ≤ firstChild nodes (b + 1) := by
        unfold firstChild
        rw [List.take_succ]
        simp
      omega

/-- The nodes are listed in level order. -/
theorem nodes_ordered {W : List Key} {c : Core} {nodes : List NodeInfo} (hT : Table W c nodes) :
    ∀ (b a : Nat) (x y : NodeInfo), a < b → nodes[a]? = some x → nodes[b]? = some y →
      NodeBefore x y := by
  intro b
  induction b using Nat.strong_induction_on with
  | _ b ih =>
    intro a x y hab hx hy
    have hbl := (List.getElem?_eq_some.mp hy).1
    obtain ⟨pb, tb, nb, kb, hnb, hkb, hbe⟩ := parent_of hT (by omega) hbl
    obtain ⟨y2, hy2, hyr, hyd⟩ := child_at hT hnb hkb
    rw [← hbe, hy] at hy2
    cases hy2
    by_cases ha0 : a = 0
    · subst ha0
      obtain ⟨r, hr, _, hrd⟩ := root_at hT
      rw [hx] at hr
      cases hr
      left
      omega
    · have hal := (List.getElem?_eq_some.mp hx).1
      obtain ⟨pa, ta, na, ka, hna, hka, hae⟩ := parent_of hT (by omega) hal
      obtain ⟨x2, hx2, hxr, hxd⟩ := child_at hT hna hka
      rw [← hae, hx] at hx2
      cases hx2
      have hta := (List.getElem?_eq_some.mp hka).1
      have htb := (List.getElem?_eq_some.mp hkb).1
      have hpbl := (List.getElem?_eq_some.mp hnb).1
      have hpal := (List.getElem?_eq_some.mp hna).1
      have hordb := hT.order pb hpbl
      have hple : pa ≤ pb := by
        by_contra hcon
        have h1 := firstChild_mono nodes (show pb + 1 ≤ pa by omega)
        rw [firstChild_succ hnb] at h1
        omega
      have hokb := hT.ok nb (mem_of_get hnb)
      have hoka := hT.ok na (mem_of_get hna)
      by_cases hpe : pa = pb
      · subst hpe
        rw [hna] at hnb
        cases hnb
        right
        refine ⟨by omega, ?_⟩
        rw [hxr, hyr]
        exact (kids_ranges hoka).2 ta tb ka kb (by omega) hka hkb
      · have hrec := ih pb (by omega) pa na nb (by omega) hna hnb
        rcases hrec with hlt | ⟨heq, hrl⟩
        · left; omega
        · right
          refine ⟨by omega, ?_⟩
          rw [hxr, hyr]
          have h1 := ((kids_ranges hoka).1 ta ka hka).2.2
          have h2 := ((kids_ranges hokb).1 tb kb hkb).2.1
          omega

end ux_tool

namespace ux_tool

/-! ## The depth at which a key ends -/

theorem alone_iff (W : List Key) (k : Key) (d : Nat) :
    alone W k d = true ↔ ∀ w, w ∈ W → k.take d <+: w → w = k := by
  simp only [alone, List.all_eq_true, Bool.or_eq_true, Bool.not_eq_true', decide_eq_false_iff_not,
    decide_eq_true_eq]
  constructor
  · intro h w hw hp
    rcases h w hw with h1 | h1
    · exact absurd hp h1
    · exact h1
  · intro h w hw
    by_cases hp : k.take d <+: w
    · exact Or.inr (h w hw hp)
    · exact Or.inl hp

theorem firstAlone_none (W : List Key) (k : Key) : ∀ (r d0 : Nat),
    (∀ d, d0 ≤ d → d < d0 + r → alone W k d = false) → firstAlone W k r d0 = k.length := by
  intro r
  induction r with
  | zero => intro d0 _; rfl
  | succ r ih =>
    intro d0 h
    simp only [firstAlone, h d0 (le_refl _) (by omega), Bool.false_eq_true, if_false]
    exact ih (d0 + 1) (fun d h1 h2 => h d (by omega) (by omega))

theorem firstAlone_hit (W : List Key) (k : Key) (t : Nat) : ∀ (r d0 : Nat),
    d0 ≤ t → t < d0 + r → alone W k t = true →
    (∀ d, d0 ≤ d → d < t → alone W k d = false) → firstAlone W k r d0 = t := by
  intro r
  induction r with
  | zero => intro d0 h1 h2; omega
  | succ r ih =>
    intro d0 h1 h2 ht h
    by_cases hd : d0 = t
    · subst hd
      simp [firstAlone, ht]
    · simp only [firstAlone, h d0 (le_refl _) (by omega), Bool.false_eq_true, if_false]
      exact ih (d0 + 1) (by omega) (by omega) ht (fun d h3 h4 => h d (by omega) h4)

/-- Every node has an ancestor at each smaller depth, and no ancestor carries
a tail. -/
theorem ancestors {W : List Key} {c : Core} {nodes : List NodeInfo} (hT : Table W c nodes) :
    ∀ (j : Nat) (n : NodeInfo), nodes[j]? = some n → ∀ d, d < n.depth →
      ∃ (ja : Nat) (a : NodeInfo), nodes[ja]? = some a ∧ a.depth = d ∧ a.pre = n.pre.take d ∧
        a.tail = none := by
  intro j
  induction j using Nat.strong_induction_on with
  | _ j ih =>
    intro n hn d hd
    have hjl := (List.getElem?_eq_some.mp hn).1
    by_cases hj0 : j = 0
    · subst hj0
      obtain ⟨r, hr, _, hrd⟩ := root_at hT
      rw [hn] at hr
      cases hr
      omega
    · obtain ⟨pj, t, p, k, hp, hk, hje⟩ := parent_of hT (by omega) hjl
      have hokp := hT.ok p (mem_of_get hp)
      have htl : t < p.labels.length := by
        rw [hokp.len]
        exact (List.getElem?_eq_some.mp hk).1
      obtain ⟨m, hm, _, hmd, hmp⟩ := child_pre hT hp hk (List.getElem?_eq_getElem htl)
      rw [← hje, hn] at hm
      cases hm
      have hpl := (List.getElem?_eq_some.mp hp).1
      have hord := hT.order pj hpl
      have hptail : p.tail = none := by
        cases hpt : p.tail with
        | none => rfl
        | some t0 =>
          have := (hokp.tailCase t0 hpt).2.1
          rw [this] at hk
          simp at hk
      have hplen : p.pre.length = p.depth := hokp.range.2.2.1
      by_cases hdp : d = p.depth
      · refine ⟨pj, p, hp, hdp.symm, ?_, hptail⟩
        rw [hmp, hdp, ← hplen]
        simp
      · obtain ⟨ja, a, ha, had, hap, hat⟩ := ih pj (by omega) p hp d (by omega)
        refine ⟨ja, a, ha, had, ?_, hat⟩
        rw [hap, hmp, List.take_append_of_le_length (by omega)]

/-- Below a node without a tail a long enough key is not alone. -/
theorem not_alone_of_node {W : List Key} (hs : W.Pairwise (fun a b => keyLess a b = true))
    {a : NodeInfo} (hok : InfoOK W a) (hat : a.tail = none) {k : Key}
    (hpre : a.pre = k.take a.depth) (hlen : a.depth + 1 < k.length) :
    alone W k a.depth = false := by
  cases hal : alone W k a.depth with
  | false => rfl
  | true =>
    exfalso
    rw [alone_iff] at hal
    obtain ⟨hlr, hrN, hpl, hiff⟩ := hok.range
    have hl : a.rn.left < W.length := by omega
    have hcur : W[a.rn.left]? = some W[a.rn.left] := List.getElem?_eq_getElem hl
    have h0 : W[a.rn.left] = k := by
      apply hal _ (List.mem_iff_getElem?.mpr ⟨_, hcur⟩)
      rw [← hpre]
      exact (hiff _ _ hcur).mp ⟨le_refl _, hlr⟩
    have hnt := hok.noTail hat _ hcur
    rw [h0] at hnt
    have hl1 : a.rn.left + 1 < a.rn.right := by
      by_contra hcon
      exact hnt ⟨by omega, hlen⟩
    have hl1W : a.rn.left + 1 < W.length := by omega
    have hcur1 : W[a.rn.left + 1]? = some W[a.rn.left + 1] := List.getElem?_eq_getElem hl1W
    have h1 : W[a.rn.left + 1] = k := by
      apply hal _ (List.mem_iff_getElem?.mpr ⟨_, hcur1⟩)
      rw [← hpre]
      exact (hiff _ _ hcur1).mp ⟨by omega, hl1⟩
    have hlt := (List.pairwise_iff_getElem.mp hs) a.rn.left (a.rn.left + 1) hl hl1W (by omega)
    rw [h0, h1, keyLess_irrefl] at hlt
    exact absurd hlt (by simp)

/-- The key of a terminal node ends at the depth of the node. -/
theorem termDepth_node {W : List Key} {c : Core} {nodes : List NodeInfo} (hT : Table W c nodes)
    {j : Nat} {n : NodeInfo} (hn : nodes[j]? = some n) : termDepth W n.key = n.depth := by
  have hok := hT.ok n (mem_of_get hn)
  obtain ⟨hlr, hrN, hpl, hiff⟩ := hok.range
  have hbelow : ∀ d, d < n.depth → d + 1 < n.key.length → alone W n.key d = false := by
    intro d hd hlen
    obtain ⟨ja, a, ha, had, hap, hat⟩ := ancestors hT j n hn d hd
    have hpre : a.pre = n.key.take a.depth := by
      rw [hap, had, NodeInfo.key, List.take_append_of_le_length (by omega)]
    have := not_alone_of_node hT.sortedW (hT.ok a (mem_of_get ha)) hat hpre (by omega)
    rw [had] at this
    exact this
  cases htail : n.tail with
  | some t =>
    obtain ⟨_, _, _, hcur, hr1, ht2⟩ := hok.tailCase t htail
    have hkey : n.key = n.pre ++ t := by simp [NodeInfo.key, htail]
    have hklen : n.key.length = n.depth + t.length := by
      rw [hkey, List.length_append, hpl]
    unfold termDepth
    apply firstAlone_hit W n.key n.depth _ 0 (by omega) (by omega)
    · rw [alone_iff]
      intro w hw hp
      obtain ⟨i, hi⟩ := List.mem_iff_getElem?.mp hw
      have hpw : n.pre <+: w := by
        rw [hkey, ← hpl, List.take_left'] at hp
        · exact hp
        · rfl
      have hir := (hiff i w hi).mpr hpw
      have : i = n.rn.left := by omega
      subst this
      rw [hcur] at hi
      cases hi
      exact hkey.symm
    · intro d _ hd
      exact hbelow d hd (by omega)
  | none =>
    have hkey : n.key = n.pre := by simp [NodeInfo.key, htail]
    have hklen : n.key.length = n.depth := by rw [hkey, hpl]
    unfold termDepth
    rw [firstAlone_none W n.key _ 0 (fun d _ hd => hbelow d (by omega) (by omega))]
    exact hklen

end ux_tool

namespace ux_tool

/-! ## Identifiers count the keys before in level order -/

theorem key_at {W : List Key} {n : NodeInfo} (hok : InfoOK W n) (ht : n.term = true) :
    W[n.rn.left]? = some n.key := by
  cases htail : n.tail with
  | some t =>
    have := (hok.tailCase t htail).2.2.2.1
    simpa [NodeInfo.key, htail] using this
  | none =>
    have := (hok.termCase htail).mp ht
    simpa [NodeInfo.key, htail] using this

theorem levelBefore_asymm (W : List Key) (a b : Key) (h : levelBefore W a b = true) :
    levelBefore W b a = false := by
  simp only [levelBefore, Bool.or_eq_true, decide_eq_true_eq, Bool.and_eq_true] at h
  simp only [levelBefore, Bool.or_eq_false_iff, decide_eq_false_iff_not, Bool.and_eq_false_imp,
    decide_eq_true_eq]
  rcases h with h | ⟨h1, h2⟩
  · exact ⟨by omega, fun h3 => by omega⟩
  · exact ⟨by omega, fun _ => keyLess_asymm a b h2⟩

/-- Of two terminal nodes the earlier one has the key that comes first in
level order. -/
theorem level_of_nodes {W : List Key} {c : Core} {nodes : List NodeInfo} (hT : Table W c nodes)
    {a b : Nat} {x y : NodeInfo} (hab : a < b) (hx : nodes[a]? = some x)
    (hy : nodes[b]? = some y) (htx : x.term = true) (hty : y.term = true) :
    levelBefore W x.key y.key = true := by
  have hnb := nodes_ordered hT b a x y hab hx hy
  have hokx := hT.ok x (mem_of_get hx)
  have hoky := hT.ok y (mem_of_get hy)
  simp only [levelBefore, Bool.or_eq_true, decide_eq_true_eq, Bool.and_eq_true,
    termDepth_node hT hx, termDepth_node hT hy]
  rcases hnb with h | ⟨h1, h2⟩
  · exact Or.inl h
  · refine Or.inr ⟨h1, ?_⟩
    have kx := key_at hokx htx
    have ky := key_at hoky hty
    obtain ⟨lx, ex⟩ := List.getElem?_eq_some.mp kx
    obtain ⟨ly, ey⟩ := List.getElem?_eq_some.mp ky
    have := (List.pairwise_iff_getElem.mp hT.sortedW) x.rn.left y.rn.left lx ly
      (by have := hokx.range.1; omega)
    rw [ex, ey] at this
    exact this

/-- The keys of the terminal nodes are the keys of the dictionary. -/
theorem terminal_keys_perm {W : List Key} {c : Core} {nodes : List NodeInfo}
    (hT : Table W c nodes) : List.Perm W ((nodes.filter (fun n => n.term)).map NodeInfo.key) := by
  have hsub : W ⊆ (nodes.filter (fun n => n.term)).map NodeInfo.key := by
    intro k hk
    obtain ⟨i, j, n, hn, ht, _, hkey⟩ := idKey_exists hT hk
    rw [List.mem_map]
    exact ⟨n, List.mem_filter.mpr ⟨mem_of_get hn, by simpa using ht⟩, hkey⟩
  exact (List.subperm_of_subset (sorted_nodup hT.sortedW) hsub).perm_of_length_le
    (by rw [List.length_map, hT.termCount])

/-- The identifier of a key is the number of keys before it in level order. -/
theorem id_level_count {W : List Key} {c : Core} {nodes : List NodeInfo} (hT : Table W c nodes)
    {j : Nat} {n : NodeInfo} (hn : nodes[j]? = some n) (ht : n.term = true) :
    idOf nodes j = (W.filter (fun w => levelBefore W w n.key)).length := by
  have hperm := terminal_keys_perm hT
  rw [(hperm.filter _).length_eq, List.filter_map, List.length_map]
  have hs := nodes_split hn
  have hf : nodes.filter (fun n => n.term) =
      (nodes.take j).filter (fun n => n.term) ++
        n :: (nodes.drop (j + 1)).filter (fun n => n.term) := by
    conv_lhs => rw [hs]
    simp [List.filter_append, List.filter_cons, ht]
  have h1 : ((nodes.take j).filter (fun n => n.term)).filter
      ((fun w => levelBefore W w n.key) ∘ NodeInfo.key) =
        (nodes.take j).filter (fun n => n.term) := by
    rw [List.filter_eq_self]
    intro x hx
    obtain ⟨hx1, hx2⟩ := List.mem_filter.mp hx
    obtain ⟨a, ha⟩ := List.mem_iff_getElem?.mp hx1
    have hal : a < j := by
      have := (List.getElem?_eq_some.mp ha).1
      simp at this
      omega
    rw [List.getElem?_take_of_lt hal] at ha
    exact level_of_nodes hT hal ha hn hx2 ht
  have h2 : ((nodes.drop (j + 1)).filter (fun n => n.term)).filter
      ((fun w => levelBefore W w n.key) ∘ NodeInfo.key) = [] := by
    rw [List.filter_eq_nil_iff]
    intro y hy
    obtain ⟨hy1, hy2⟩ := List.mem_filter.mp hy
    obtain ⟨b, hb⟩ := List.mem_iff_getElem?.mp hy1
    rw [List.getElem?_drop] at hb
    have := levelBefore_asymm W _ _ (level_of_nodes hT (show j < j + 1 + b by omega) hn hb ht hy2)
    simp [this]
  have h3 : levelBefore W n.key n.key = false := by
    simp [levelBefore, keyLess_irrefl]
  rw [hf, List.filter_append, List.filter_cons, h1, h2]
  simp [h3, idOf]

end ux_tool

namespace ux_tool

/-! ## Level order does not depend on the order or repetition of the input -/

theorem alone_congr {W W2 : List Key} (h : ∀ w, w ∈ W ↔ w ∈ W2) (k : Key) (d : Nat) :
    alone W k d = alone W2 k d := by
  rw [Bool.eq_iff_iff, alone_iff, alone_iff]
  exact ⟨fun g w hw => g w ((h w).mpr hw), fun g w hw => g w ((h w).mp hw)⟩

theorem firstAlone_congr {W W2 : List Key} (h : ∀ w, w ∈ W ↔ w ∈ W2) (k : Key) :
    ∀ (r d : Nat), firstAlone W k r d = firstAlone W2 k r d := by
  intro r
  induction r with
  | zero => intro d; rfl
  | succ r ih =>
    intro d
    simp only [firstAlone, alone_congr h k d, ih]

theorem levelBefore_congr {W W2 : List Key} (h : ∀ w, w ∈ W ↔ w ∈ W2) (a b : Key) :
    levelBefore W a b = levelBefore W2 a b := by
  simp only [levelBefore, termDepth, firstAlone_congr h]

end ux_tool

namespace ux_tool

/-! ## Round trips and searches with flat tails -/

/-- C1. Round trip id -> key -> id with flat tails: for every key list (with
fewer than 2^32 - 1 distinct keys, so that identifiers fit `id_t`), build
succeeds and, for every identifier `i` below the number of distinct keys,
`decode(i)` is a key `k` with `prefixSearch(k) = (i, |k|)`. -/
theorem roundtrip_id_key_id (W : List Key) (hN : (sortUnique W).length < 0xFFFFFFFF) :
    ∃ d, build W false = some d ∧
      ∀ i, i < (sortUnique W).length →
        ∃ k, decode d i = some k ∧ prefixSearch d k = some (i, k.length) := by
  by_cases hne : sortUnique W = []
  · refine ⟨_, build_flat_empty W hne, ?_⟩
    intro i hi
    rw [hne] at hi
    simp at hi
  · obtain ⟨c, nodes, hb, hT⟩ := build_flat_table W hne
    refine ⟨_, hb, ?_⟩
    intro i hi
    obtain ⟨k, hik⟩ := idKey_of_lt hT hi
    obtain ⟨_, hkW, hdec⟩ := idKey_facts hT hik
    refine ⟨k, by rw [decode_flat]; exact hdec, ?_⟩
    obtain ⟨id, hps, hid⟩ := (prefixSearch_flat hT hN k).2 k (getLast_inits_filter hkW)
    rw [hps, idKey_inj hT hid hik]

/-- Witness of C1 on the keys `a`, `ab`. -/
theorem roundtrip_id_key_id_witness :
    (sortUnique [[97], [97, 98]]).length < 0xFFFFFFFF ∧
    ∃ d, build [[97], [97, 98]] false = some d ∧
      ∀ i, i < (sortUnique [[97], [97, 98]]).length →
        ∃ k, decode d i = some k ∧ prefixSearch d k = some (i, k.length) :=
  ⟨by decide, roundtrip_id_key_id [[97], [97, 98]] (by decide)⟩

/-- C2. Round trip key -> id -> key with flat tails: for every key list (with
fewer than 2^32 - 1 distinct keys) and every key `k` in it, `prefixSearch(k)`
returns an identifier below the number of distinct keys with matched length
`|k|`, `decode` maps the identifier back to `k`, and no other key of the list
gets that identifier. -/
theorem roundtrip_key_id_key (W : List Key) (k : Key) (hk : k ∈ W)
    (hN : (sortUnique W).length < 0xFFFFFFFF) :
    ∃ d id, build W false = some d ∧ prefixSearch d k = some (id, k.length) ∧
      id < (sortUnique W).length ∧ decode d id = some k ∧
      ∀ k2, k2 ∈ W → prefixSearch d k2 = some (id, k2.length) → k2 = k := by
  have hk2 : k ∈ sortUnique W := (mem_sortUnique k W).mpr hk
  have hne : sortUnique W ≠ [] := List.ne_nil_of_mem hk2
  obtain ⟨c, nodes, hb, hT⟩ := build_flat_table W hne
  obtain ⟨id, hps, hid⟩ := (prefixSearch_flat hT hN k).2 k (getLast_inits_filter hk2)
  obtain ⟨hlt, _, hdec⟩ := idKey_facts hT hid
  refine ⟨_, id, hb, hps, hlt, by rw [decode_flat]; exact hdec, ?_⟩
  intro k3 hk3 hps3
  have hk4 : k3 ∈ sortUnique W := (mem_sortUnique k3 W).mpr hk3
  obtain ⟨id3, hps4, hid3⟩ := (prefixSearch_flat hT hN k3).2 k3 (getLast_inits_filter hk4)
  rw [hps3] at hps4
  simp only [Option.some.injEq, Prod.mk.injEq] at hps4
  rw [← hps4.1] at hid3
  have h3 := (idKey_facts hT hid3).2.2
  rw [hdec] at h3
  exact (Option.some.inj h3).symm

/-- Witness of C2 on the keys `a`, `ab` and the key `ab`. -/
theorem roundtrip_key_id_key_witness :
    ([97, 98] : Key) ∈ [[97], [97, 98]] ∧ (sortUnique [[97], [97, 98]]).length < 0xFFFFFFFF ∧
    ∃ d id, build [[97], [97, 98]] false = some d ∧
      prefixSearch d [97, 98] = some (id, ([97, 98] : Key).length) ∧
      id < (sortUnique [[97], [97, 98]]).length ∧ decode d id = some [97, 98] ∧
      ∀ k2, k2 ∈ [[97], [97, 98]] → prefixSearch d k2 = some (id, k2.length) → k2 = [97, 98] :=
  ⟨by decide, by decide, roundtrip_key_id_key [[97], [97, 98]] [97, 98] (by decide) (by decide)⟩

/-- C3. prefixSearch is longest-prefix match with flat tails: for every key
list (with fewer than 2^32 - 1 distinct keys) and every input `s`, if a
stored key `k` begins `s` and no stored key that begins `s` is longer, then
`prefixSearch(s)` returns the identifier that decodes to `k` and the matched
length `|k|`; if no stored key begins `s` it returns `NOTFOUND` and length 0.
On the keys `a`, `ab`, `abc`, `prefixSearch("abcd") = (2, 3)`. -/
theorem prefixSearch_longest (W : List Key) (s : Key)
    (hN : (sortUnique W).length < 0xFFFFFFFF) :
    ∃ d, build W false = some d ∧
      (∀ k, k ∈ W → k <+: s → (∀ k2, k2 ∈ W → k2 <+: s → k2.length ≤ k.length) →
        ∃ id, prefixSearch d s = some (id, k.length) ∧ id < (sortUnique W).length ∧
          decode d id = some k) ∧
      ((∀ k, k ∈ W → ¬ k <+: s) → prefixSearch d s = some (NOTFOUND, 0)) ∧
      (build [[97], [97, 98], [97, 98, 99]] false).bind
        (fun d2 => prefixSearch d2 [97, 98, 99, 100]) = some (2, 3) := by
  by_cases hne : sortUnique W = []
  · refine ⟨_, build_flat_empty W hne, ?_, ?_, by decide⟩
    · intro k hk
      have := (mem_sortUnique k W).mpr hk
      rw [hne] at this
      simp at this
    · intro _
      simp [prefixSearch, traverse, traverseWith, UX.core]
  · obtain ⟨c, nodes, hb, hT⟩ := build_flat_table W hne
    refine ⟨_, hb, ?_, ?_, by decide⟩
    · intro k hk hp hmax
      have hk2 : k ∈ sortUnique W := (mem_sortUnique k W).mpr hk
      have hmax2 : ∀ k2, k2 ∈ sortUnique W → k2 <+: s → k2.length ≤ k.length :=
        fun k2 h2 => hmax k2 ((mem_sortUnique k2 W).mp h2)
      obtain ⟨id, hps, hid⟩ := (prefixSearch_flat hT hN s).2 k (getLast_of_longest hk2 hp hmax2)
      obtain ⟨hlt, _, hdec⟩ := idKey_facts hT hid
      exact ⟨id, hps, hlt, by rw [decode_flat]; exact hdec⟩
    · intro hno
      apply (prefixSearch_flat hT hN s).1
      rw [List.filter_eq_nil_iff]
      intro k hk1 hk2
      have : k ∈ sortUnique W := by simpa using hk2
      exact hno k ((mem_sortUnique k W).mp this) ((List.mem_inits _ _).mp hk1)

/-- Witness of C3 on the keys `a`, `ab` and the input `abc`. -/
theorem prefixSearch_longest_witness :
    (sortUnique [[97], [97, 98]]).length < 0xFFFFFFFF ∧
    ∃ d, build [[97], [97, 98]] false = some d ∧
      (∀ k, k ∈ [[97], [97, 98]] → k <+: [97, 98, 99] →
        (∀ k2, k2 ∈ [[97], [97, 98]] → k2 <+: [97, 98, 99] → k2.length ≤ k.length) →
        ∃ id, prefixSearch d [97, 98, 99] = some (id, k.length) ∧
          id < (sortUnique [[97], [97, 98]]).length ∧ decode d id = some k) ∧
      ((∀ k, k ∈ [[97], [97, 98]] → ¬ k <+: [97, 98, 99]) →
        prefixSearch d [97, 98, 99] = some (NOTFOUND, 0)) ∧
      (build [[97], [97, 98], [97, 98, 99]] false).bind
        (fun d2 => prefixSearch d2 [97, 98, 99, 100]) = some (2, 3) :=
  ⟨by decide, prefixSearch_longest [[97], [97, 98]] [97, 98, 99] (by decide)⟩

/-- C4. commonPrefixSearch is exact with flat tails: for every key list,
every input `s` and every limit not below the number of distinct keys, the
identifiers returned decode, in order, to exactly the stored keys that begin
`s`, each once, in strictly ascending length. -/
theorem commonPrefixSearch_exact (W : List Key) (s : Key) (limit : Nat)
    (hl : (sortUnique W).length ≤ limit) :
    ∃ d ids, build W false = some d ∧ commonPrefixSearch d s limit = some ids ∧
      ids.map (decode d) = (s.inits.filter (fun k => decide (k ∈ W))).map some ∧
      (s.inits.filter (fun k => decide (k ∈ W))).Pairwise (fun a b => a.length < b.length) ∧
      ∀ k, k ∈ s.inits.filter (fun k => decide (k ∈ W)) ↔ (k ∈ W ∧ k <+: s) := by
  have hpw : (s.inits.filter (fun k => decide (k ∈ W))).Pairwise
      (fun a b => a.length < b.length) :=
    (inits_pairwise_length s).sublist (List.filter_sublist _)
  have hmem : ∀ k, k ∈ s.inits.filter (fun k => decide (k ∈ W)) ↔ (k ∈ W ∧ k <+: s) := by
    intro k
    rw [List.mem_filter, List.mem_inits]
    simp [and_comm]
  by_cases hne : sortUnique W = []
  · refine ⟨_, [], build_flat_empty W hne, ?_, ?_, hpw, hmem⟩
    · simp [commonPrefixSearch, traverse, traverseWith, UX.core]
    · have : s.inits.filter (fun k => decide (k ∈ W)) = [] := by
        rw [List.filter_eq_nil_iff]
        intro k _ hk
        have hk2 : k ∈ sortUnique W := (mem_sortUnique k W).mpr (by simpa using hk)
        rw [hne] at hk2
        simp at hk2
      rw [this]
      rfl
  · obtain ⟨c, nodes, hb, hT⟩ := build_flat_table W hne
    have hpos : 1 ≤ limit := by
      have := List.length_pos.mpr hne
      omega
    obtain ⟨ids, h1, _, l2, h3⟩ := traverse_flat_spec hT s limit hpos
    have hlen := h1.length_eq
    have hle := @hits_length_le (sortUnique W) s
    rw [List.take_of_length_le (by omega)] at h3
    refine ⟨_, ids, hb, ?_, ?_, hpw, hmem⟩
    · simp [commonPrefixSearch, h3]
    · rw [← mem_filter_sortUnique]
      exact decode_of_idKeys hT h1

/-- Witness of C4 on the keys `a`, `ab`, the input `abc` and limit 2. -/
theorem commonPrefixSearch_exact_witness :
    (sortUnique [[97], [97, 98]]).length ≤ 2 ∧
    ∃ d ids, build [[97], [97, 98]] false = some d ∧
      commonPrefixSearch d [97, 98, 99] 2 = some ids ∧
      ids.map (decode d) =
        (([97, 98, 99] : Key).inits.filter (fun k => decide (k ∈ [[97], [97, 98]]))).map some ∧
      (([97, 98, 99] : Key).inits.filter (fun k => decide (k ∈ [[97], [97, 98]]))).Pairwise
        (fun a b => a.length < b.length) ∧
      ∀ k, k ∈ ([97, 98, 99] : Key).inits.filter (fun k => decide (k ∈ [[97], [97, 98]])) ↔
        (k ∈ [[97], [97, 98]] ∧ k <+: [97, 98, 99]) :=
  ⟨by decide, commonPrefixSearch_exact [[97], [97, 98]] [97, 98, 99] 2 (by decide)⟩

end ux_tool

namespace ux_tool

/-! ## Invariants of the built vectors -/

/-- C8. Key count: for every key list (any order, duplicates allowed, fewer
than 2^32 - 1 distinct keys) and either value of `isTailUX`, build succeeds,
the number of 1 bits of `terminal` equals `getKeyNum()`, and both equal the
number of distinct strings of the list. -/
theorem keyNum_eq_distinct (W : List Key) (isTailUX : Bool)
    (hN : (sortUnique W).length < 0xFFFFFFFF) :
    ∃ d, build W isTailUX = some d ∧ d.core.terminal.count true = getKeyNum d ∧
      getKeyNum d = W.dedup.length := by
  obtain ⟨d, c, hb, hd, _, hterm, _, _, hkn, _⟩ := build_ok W isTailUX hN
  obtain ⟨c2, hb2, h1, h2, _⟩ := build_counts W
  rw [hb] at hb2
  cases hb2
  refine ⟨d, hd, ?_, ?_⟩
  · rw [hterm, getKeyNum, hkn, h1, h2]
  · rw [getKeyNum, hkn, h1, sortUnique_length_dedup]

/-- Witness of C8 on the list `b`, `a`, `b` with nested tails. -/
theorem keyNum_eq_distinct_witness :
    (sortUnique [[98], [97], [98]]).length < 0xFFFFFFFF ∧
    ∃ d, build [[98], [97], [98]] true = some d ∧ d.core.terminal.count true = getKeyNum d ∧
      getKeyNum d = ([[98], [97], [98]] : List Key).dedup.length :=
  ⟨by decide, keyNum_eq_distinct [[98], [97], [98]] true (by decide)⟩

/-- C13, as stated, fails: on the keys `a`, `ab`, `abc` the builder stores 3
edges and 4 zero bits in `loud`, so `|edges| + 2 = 5` is not the number of
zeros. -/
theorem edges_plus_two_counter :
    (build [[97], [97, 98], [97, 98, 99]] false).map
      (fun d => (d.core.edges.length + 2, d.core.loud.count false)) = some (5, 4) := by
  decide

/-- C13, amended. For every key list (fewer than 2^32 - 1 distinct keys) and
either value of `isTailUX`, after build `|edges| + 1` equals the number of 0
bits of `loud`: one zero per edge and one for the super-root. -/
theorem edges_plus_one (W : List Key) (isTailUX : Bool)
    (hN : (sortUnique W).length < 0xFFFFFFFF) :
    ∃ d, build W isTailUX = some d ∧ d.core.edges.length + 1 = d.core.loud.count false := by
  obtain ⟨d, c, hb, hd, hloud, _, _, hedges, _, _⟩ := build_ok W isTailUX hN
  obtain ⟨c2, hb2, _, _, h3, _⟩ := build_counts W
  rw [hb] at hb2
  cases hb2
  exact ⟨d, hd, by rw [hloud, hedges, h3]⟩

/-- Witness of C13 (amended) on the keys `a`, `ab`, `abc`. -/
theorem edges_plus_one_witness :
    (sortUnique [[97], [97, 98], [97, 98, 99]]).length < 0xFFFFFFFF ∧
    ∃ d, build [[97], [97, 98], [97, 98, 99]] false = some d ∧
      d.core.edges.length + 1 = d.core.loud.count false :=
  ⟨by decide, edges_plus_one [[97], [97, 98], [97, 98, 99]] false (by decide)⟩

/-- C14. Parallel vectors: for every key list (fewer than 2^32 - 1 distinct
keys) and either value of `isTailUX`, after build `terminal` and `tail` have
the same length, which is the number of 1 bits of `loud` minus one (one
closing 1 per node, and one for the super-root). -/
theorem parallel_vectors (W : List Key) (isTailUX : Bool)
    (hN : (sortUnique W).length < 0xFFFFFFFF) :
    ∃ d, build W isTailUX = some d ∧ d.core.terminal.length = d.core.tail.length ∧
      d.core.terminal.length + 1 = d.core.loud.count true := by
  obtain ⟨d, c, hb, hd, hloud, hterm, htail, _, _, _⟩ := build_ok W isTailUX hN
  obtain ⟨c2, hb2, _, _, _, h4, h5⟩ := build_counts W
  rw [hb] at hb2
  cases hb2
  exact ⟨d, hd, by rw [hterm, htail, h4], by rw [hterm, hloud, h5]⟩

/-- Witness of C14 on the keys `apple`, `apply`, `apricot`. -/
theorem parallel_vectors_witness :
    (sortUnique [[97, 112, 112, 108, 101], [97, 112, 112, 108, 121],
      [97, 112, 114, 105, 99, 111, 116]]).length < 0xFFFFFFFF ∧
    ∃ d, build [[97, 112, 112, 108, 101], [97, 112, 112, 108, 121],
        [97, 112, 114, 105, 99, 111, 116]] false = some d ∧
      d.core.terminal.length = d.core.tail.length ∧
      d.core.terminal.length + 1 = d.core.loud.count true :=
  ⟨by decide, parallel_vectors _ false (by decide)⟩

/-- C15. Tail nodes are terminal leaves: for every key list (fewer than
2^32 - 1 distinct keys) and either value of `isTailUX`, after build every
node index `i` with `tail[i] = 1` has `terminal[i] = 1`, and the bit of `loud`
at the start of the node's description, the position after the `(i+1)`-th 1,
is 1: the node has no children. -/
theorem tail_nodes_terminal_leaves (W : List Key) (isTailUX : Bool)
    (hN : (sortUnique W).length < 0xFFFFFFFF) :
    ∃ d, build W isTailUX = some d ∧
      ∀ i, getBit d.core.tail i = some true →
        getBit d.core.terminal i = some true ∧
        ∃ p, select d.core.loud (i + 1) true = some p ∧
          getBit d.core.loud (p + 1) = some true := by
  obtain ⟨d, c, hb, hd, hloud, hterm, htail, _, _, _⟩ := build_ok W isTailUX hN
  refine ⟨d, hd, ?_⟩
  rw [hloud, hterm, htail]
  by_cases hne : sortUnique W = []
  · rw [buildCore_empty W hne] at hb
    cases hb
    intro i hi
    simp [getBit] at hi
  · obtain ⟨c2, nodes, hb2, hT⟩ := buildCore_table W hne
    rw [hb] at hb2
    cases hb2
    intro i hi
    exact tail_is_leaf hT hi

/-- Witness of C15 on the single key `hello`. -/
theorem tail_nodes_terminal_leaves_witness :
    (sortUnique [[104, 101, 108, 108, 111]]).length < 0xFFFFFFFF ∧
    ∃ d, build [[104, 101, 108, 108, 111]] false = some d ∧
      ∀ i, getBit d.core.tail i = some true →
        getBit d.core.terminal i = some true ∧
        ∃ p, select d.core.loud (i + 1) true = some p ∧
          getBit d.core.loud (p + 1) = some true :=
  ⟨by decide, tail_nodes_terminal_leaves [[104, 101, 108, 108, 111]] false (by decide)⟩

/-- C16. Sibling order: for every key list (fewer than 2^32 - 1 distinct keys)
and either value of `isTailUX`, after build, whenever `p < p2` are positions
of `loud` in the same run of 0 bits (the children of one node, from position 2
on), the edge labels `edges[zeros - 2]` that `getChild` reads at the two
positions, `zeros` being the number of 0 bits up to and including the
position, exist and are strictly ascending; so at most one child of a node
carries a given byte. -/
theorem sibling_labels_ascending (W : List Key) (isTailUX : Bool)
    (hN : (sortUnique W).length < 0xFFFFFFFF) :
    ∃ d, build W isTailUX = some d ∧
      ∀ p p2, 2 ≤ p → p < p2 →
        (∀ x, p ≤ x → x ≤ p2 → getBit d.core.loud x = some false) →
        ∃ e e2, d.core.edges[rank d.core.loud p false - 2]? = some e ∧
          d.core.edges[rank d.core.loud p2 false - 2]? = some e2 ∧ e < e2 := by
  obtain ⟨d, c, hb, hd, hloud, _, _, hedges, _, _⟩ := build_ok W isTailUX hN
  refine ⟨d, hd, ?_⟩
  rw [hloud, hedges]
  by_cases hne : sortUnique W = []
  · rw [buildCore_empty W hne] at hb
    cases hb
    intro p p2 hp hlt hall
    have := hall p (le_refl _) (by omega)
    have hp2 : ¬ (p < 2) := by omega
    simp [getBit, List.getElem?_eq_none, hp] at this
  · obtain ⟨c2, nodes, hb2, hT⟩ := buildCore_table W hne
    rw [hb] at hb2
    cases hb2
    intro p p2 hp hlt hall
    exact siblings_ascending hT hp hlt hall

/-- Witness of C16 on the keys `cat`, `car`, `card`, `care`, `cares`. -/
theorem sibling_labels_ascending_witness :
    (sortUnique [[99, 97, 116], [99, 97, 114], [99, 97, 114, 100], [99, 97, 114, 101],
      [99, 97, 114, 101, 115]]).length < 0xFFFFFFFF ∧
    ∃ d, build [[99, 97, 116], [99, 97, 114], [99, 97, 114, 100], [99, 97, 114, 101],
        [99, 97, 114, 101, 115]] false = some d ∧
      ∀ p p2, 2 ≤ p → p < p2 →
        (∀ x, p ≤ x → x ≤ p2 → getBit d.core.loud x = some false) →
        ∃ e e2, d.core.edges[rank d.core.loud p false - 2]? = some e ∧
          d.core.edges[rank d.core.loud p2 false - 2]? = some e2 ∧ e < e2 :=
  ⟨by decide, sibling_labels_ascending _ false (by decide)⟩

end ux_tool

namespace ux_tool

/-! ## Scenarios evaluated on the code -/

/-- C5, failing input. On the keys `cat`, `car`, `card`, `care`, `cares`
(identifiers: car 0, cat 1, card 2, care 3, cares 4), `predictiveSearch("car")`
with limit 10 returns five identifiers, that of `cat` included: the
enumeration starts at the node reached before the last byte.  On the single
key `hello`, `predictiveSearch("h")` returns nothing: the descent does not
enter a tail. -/
theorem predictiveSearch_car_cat :
    (build [[99, 97, 116], [99, 97, 114], [99, 97, 114, 100], [99, 97, 114, 101],
        [99, 97, 114, 101, 115]] false).bind
      (fun d => predictiveSearch d [99, 97, 114] 10) = some [0, 2, 3, 4, 1] ∧
    (build [[99, 97, 116], [99, 97, 114], [99, 97, 114, 100], [99, 97, 114, 101],
        [99, 97, 114, 101, 115]] false).bind
      (fun d => decode d 1) = some [99, 97, 116] ∧
    (build [[104, 101, 108, 108, 111]] false).bind
      (fun d => predictiveSearch d [104] 10) = some [] := by
  decide

/-- C7, failing input. On the keys `aXX`, `bYY`, `cZZ` the three tails get the
nested identifiers 0, 1, 2, packed with `tailIDLen = floor(log2 3) = 1` bit:
identifier 2 is stored as 0, so with `isTailUX = true` `decode(2)` is `cXX` and
`prefixSearch("cZZ")` is `NOTFOUND`, where the flat dictionary answers `cZZ`
and `(2, 3)`. -/
theorem nested_tail_id_truncated :
    (build [[97, 88, 88], [98, 89, 89], [99, 90, 90]] true).map (fun d => d.core.tailIDLen) =
      some 1 ∧
    (build [[97, 88, 88], [98, 89, 89], [99, 90, 90]] true).bind (fun d => decode d 2) =
      some [99, 88, 88] ∧
    (build [[97, 88, 88], [98, 89, 89], [99, 90, 90]] false).bind (fun d => decode d 2) =
      some [99, 90, 90] ∧
    (build [[97, 88, 88], [98, 89, 89], [99, 90, 90]] true).bind
      (fun d => prefixSearch d [99, 90, 90]) = some (NOTFOUND, 0) ∧
    (build [[97, 88, 88], [98, 89, 89], [99, 90, 90]] false).bind
      (fun d => prefixSearch d [99, 90, 90]) = some (2, 3) := by
  decide

/-- C12, failing input. The dictionary built from the empty key list is not
ready; `load` of what `save` wrote sets `isReady_ = true` whatever was saved,
so the loaded dictionary is ready and `prefixSearch` on it reads bit 0 of the
empty `tail` vector, where the original returns `NOTFOUND`. -/
theorem reload_empty_is_ready :
    (build [] false).map (fun d => d.core.isReady) = some false ∧
    ((build [] false).bind reload).map (fun d => d.core.isReady) = some true ∧
    (build [] false).bind (fun d => prefixSearch d [97]) = some (NOTFOUND, 0) ∧
    ((build [] false).bind reload).bind (fun d => prefixSearch d [97]) = none := by
  decide

/-- C17, as stated, fails: the keys `axyz`, `bxyz` are distinct and both store
the tail `xyz`; with `isTailUX = true` the nested dictionary has one key for
the two tail slots. -/
theorem tails_repeat_counter :
    (build [[97, 120, 121, 122], [98, 120, 121, 122]] false).map (fun d => d.core.vtails) =
      some [[120, 121, 122], [120, 121, 122]] ∧
    (build [[97, 120, 121, 122], [98, 120, 121, 122]] true).map
      (fun d => match d with
        | .flat _ => (0, 0)
        | .nested c vtailux => (getKeyNum vtailux, c.tail.count true)) = some (1, 2) := by
  decide

/-- C18, as stated, fails: on `apple`, `apply`, `apricot` with flat tails the
tail pool does not hold `ricot`. -/
theorem ricot_not_stored :
    (build [[97, 112, 112, 108, 101], [97, 112, 112, 108, 121],
        [97, 112, 114, 105, 99, 111, 116]] false).map
      (fun d => decide (([114, 105, 99, 111, 116] : Key) ∈ d.core.vtails)) = some false := by
  decide

/-- C18, amended. On `apple`, `apply`, `apricot` with flat tails the builder
stores the byte `r` as the label of the edge (edge 3) and the suffix `icot`
after it as the only tail, at the leaf reached over that edge (node 4);
`apple` and `apply` get no tail, and all three keys decode. -/
theorem apricot_tail_icot :
    (build [[97, 112, 112, 108, 101], [97, 112, 112, 108, 121],
        [97, 112, 114, 105, 99, 111, 116]] false).map
      (fun d => (d.core.vtails, d.core.tail, d.core.edges)) =
      some ([[105, 99, 111, 116]],
        [false, false, false, false, true, false, false, false],
        [97, 112, 112, 114, 108, 101, 121]) ∧
    (build [[97, 112, 112, 108, 101], [97, 112, 112, 108, 121],
        [97, 112, 114, 105, 99, 111, 116]] false).bind
      (fun d => (List.range 3).mapM (decode d)) =
      some [[97, 112, 114, 105, 99, 111, 116], [97, 112, 112, 108, 101],
        [97, 112, 112, 108, 121]] := by
  decide

/-- C6, as stated, fails: on the keys `ab`, `b` the key `b` ends at depth 1
and gets identifier 0, the key `ab` ends at depth 2 and gets identifier 1,
while `ab` comes first in ascending order. -/
theorem id_not_key_order_counter :
    (build [[97, 98], [98]] false).bind (fun d => prefixSearch d [98]) = some (0, 1) ∧
    (build [[97, 98], [98]] false).bind (fun d => prefixSearch d [97, 98]) = some (1, 2) ∧
    (sortUnique [[97, 98], [98]]).indexOf [98] = 1 ∧
    (sortUnique [[97, 98], [98]]).indexOf [97, 98] = 0 := by
  decide

/-- C20, as stated, fails: on the keys `aXX`, `bYY` node 2 carries the second
tail and is the second terminal node; with the half-open rank,
`rank_1(tail, 2) - 1 = 0` is the slot of the first tail, and
`id = rank_1(terminal, 2) - 1 = 0` selects node 1. -/
theorem half_open_rank_counter :
    (build [[97, 88, 88], [98, 89, 89]] false).bind (fun d => getBit d.core.tail 2) =
      some true ∧
    (build [[97, 88, 88], [98, 89, 89]] false).bind
      (fun d => d.core.vtails[rankHalfOpen d.core.tail 2 true - 1]?) = some [88, 88] ∧
    (build [[97, 88, 88], [98, 89, 89]] false).bind
      (fun d => d.core.vtails[rank d.core.tail 2 true - 1]?) = some [89, 89] ∧
    (build [[97, 88, 88], [98, 89, 89]] false).bind (fun d => getBit d.core.terminal 2) =
      some true ∧
    (build [[97, 88, 88], [98, 89, 89]] false).bind
      (fun d => select d.core.terminal (rankHalfOpen d.core.terminal 2 true - 1 + 1) true) =
      some 1 := by
  decide

end ux_tool

namespace ux_tool

/-! ## The empty key set, input order, tails and rank -/

/-- C10. Empty key set: for either value of `isTailUX`, build of the empty key
list succeeds with `getKeyNum() = 0` and a dictionary that is not ready; on it,
for every input, limit and identifier, `prefixSearch` returns `NOTFOUND` and
length 0, `commonPrefixSearch` and `predictiveSearch` return no identifiers
and `decode` returns the empty string; and a dictionary that is not ready
gives these answers whatever its vectors hold, so no bit vector is read. -/
theorem empty_key_set (isTailUX : Bool) (s : Key) (limit id : Nat) :
    ∃ d, build [] isTailUX = some d ∧ getKeyNum d = 0 ∧ d.core.isReady = false ∧
      prefixSearch d s = some (NOTFOUND, 0) ∧ commonPrefixSearch d s limit = some [] ∧
      predictiveSearch d s limit = some [] ∧ decode d id = some [] ∧
      ∀ c : Core,
        prefixSearch (.flat { c with isReady := false }) s = some (NOTFOUND, 0) ∧
        commonPrefixSearch (.flat { c with isReady := false }) s limit = some [] ∧
        predictiveSearch (.flat { c with isReady := false }) s limit = some [] ∧
        decode (.flat { c with isReady := false }) id = some [] := by
  have hgen : ∀ d : UX, d.core.isReady = false →
      prefixSearch d s = some (NOTFOUND, 0) ∧ commonPrefixSearch d s limit = some [] ∧
      predictiveSearch d s limit = some [] ∧ decode d id = some [] := by
    intro d hd
    refine ⟨?_, ?_, ?_, ?_⟩
    · simp [prefixSearch, traverse, traverseWith, hd]
    · simp [commonPrefixSearch, traverse, traverseWith, hd]
    · simp [predictiveSearch, hd]
    · simp [decode, decodeWith, hd]
  cases isTailUX with
  | false =>
    have hb : build [] false = some (.flat ⟨[false, true], [], [], [], [], [], 0, 0, false⟩) := by
      decide
    obtain ⟨h1, h2, h3, h4⟩ := hgen _ (rfl : (UX.flat
      ⟨[false, true], [], [], [], [], [], 0, 0, false⟩).core.isReady = false)
    exact ⟨_, hb, rfl, rfl, h1, h2, h3, h4, fun c => hgen _ rfl⟩
  | true =>
    have hb : build [] true = some (.nested ⟨[false, true], [], [], [], [], [], 0, 0, false⟩
        (.flat ⟨[false, true], [], [], [], [], [], 0, 0, false⟩)) := by
      decide
    obtain ⟨h1, h2, h3, h4⟩ := hgen _ (rfl : (UX.nested
      ⟨[false, true], [], [], [], [], [], 0, 0, false⟩
      (.flat ⟨[false, true], [], [], [], [], [], 0, 0, false⟩)).core.isReady = false)
    exact ⟨_, hb, rfl, rfl, h1, h2, h3, h4, fun c => hgen _ rfl⟩

/-- C11. Identifiers are stable under input order and duplicates: for key
lists `W1` and `W2` with the same set of strings (fewer than 2^32 - 1 of them)
and the same `isTailUX`, build succeeds on both with the same state, hence
the same identifiers; the list that build leaves to the caller is the same
for both, strictly ascending (so without duplicates) and has the strings of
the input. -/
theorem build_stable (W1 W2 : List Key) (isTailUX : Bool) (h : ∀ k, k ∈ W1 ↔ k ∈ W2)
    (hN : (sortUnique W1).length < 0xFFFFFFFF) :
    (∃ d, build W1 isTailUX = some d ∧ build W2 isTailUX = some d) ∧
      sortUnique W1 = sortUnique W2 ∧
      (sortUnique W1).Pairwise (fun a b => keyLess a b = true) ∧
      ∀ k, k ∈ sortUnique W1 ↔ k ∈ W1 := by
  have hs := sortUnique_congr W1 W2 h
  obtain ⟨d, _, _, hd, _⟩ := build_ok W1 isTailUX hN
  refine ⟨⟨d, hd, ?_⟩, hs, sortUnique_sorted W1, fun k => mem_sortUnique k W1⟩
  rw [← build_congr W1 W2 isTailUX hs]
  exact hd

/-- Witness of C11 on the lists `b`, `a`, `b` and `a`, `b`. -/
theorem build_stable_witness :
    (∀ k, k ∈ ([[98], [97], [98]] : List Key) ↔ k ∈ ([[97], [98]] : List Key)) ∧
    (sortUnique [[98], [97], [98]]).length < 0xFFFFFFFF ∧
    (∃ d, build [[98], [97], [98]] true = some d ∧ build [[97], [98]] true = some d) ∧
      sortUnique [[98], [97], [98]] = sortUnique [[97], [98]] ∧
      (sortUnique [[98], [97], [98]]).Pairwise (fun a b => keyLess a b = true) ∧
      ∀ k, k ∈ sortUnique [[98], [97], [98]] ↔ k ∈ ([[98], [97], [98]] : List Key) :=
  ⟨by simp, by decide,
    build_stable [[98], [97], [98]] [[97], [98]] true (by simp) (by decide)⟩

/-- C17, amended. For every key list (fewer than 2^32 - 1 distinct keys), with
`isTailUX = true` build succeeds; the nested dictionary is built from the
reversed tails `vtails` of the flat build, which fill the tail slots (one per
1 bit of `tail`) and may repeat; its keys are exactly the distinct reversed
tails: its key count is their number, at most the number of tail slots, every
reversed tail is decoded from an identifier below the key count, and every
such identifier decodes to a reversed tail. -/
theorem nested_keys_distinct_tails (W : List Key) (hN : (sortUnique W).length < 0xFFFFFFFF) :
    ∃ c ic ids, buildCore W = some c ∧ buildCore (c.vtails.map List.reverse) = some ic ∧
      build W true = some (.nested
        { c with tailIDs := ids, tailIDLen := log2 ic.keyNum, vtails := [] } (.flat ic)) ∧
      c.vtails.length = c.tail.count true ∧
      ic.keyNum = (c.vtails.map List.reverse).dedup.length ∧
      ic.keyNum ≤ c.tail.count true ∧
      (∀ t, t ∈ c.vtails → ∃ id, id < ic.keyNum ∧ decode (.flat ic) id = some t.reverse) ∧
      (∀ id, id < ic.keyNum → ∃ t, t ∈ c.vtails ∧ decode (.flat ic) id = some t.reverse) := by
  have hc : ∃ c, buildCore W = some c ∧ c.vtails.length < 0xFFFFFFFF ∧
      c.vtails.length = c.tail.count true := by
    by_cases hne : sortUnique W = []
    · exact ⟨_, buildCore_empty W hne, by decide, rfl⟩
    · obtain ⟨c, nodes, hb, hT⟩ := buildCore_table W hne
      exact ⟨c, hb, lt_of_le_of_lt (vtails_length_le hT) hN, vtails_length_eq hT⟩
  obtain ⟨c, hb, hM, hcount⟩ := hc
  obtain ⟨ic, ids, hic, hbt⟩ := buildTailUX_ok c hM
  have hlen := sortUnique_length_le (c.vtails.map List.reverse)
  rw [List.length_map] at hlen
  have hkn : ic.keyNum = (sortUnique (c.vtails.map List.reverse)).length := by
    obtain ⟨c2, hb2, h1, _⟩ := build_counts (c.vtails.map List.reverse)
    rw [hic] at hb2
    cases hb2
    exact h1
  refine ⟨c, ic, ids, hb, hic, ?_, hcount, ?_, ?_, ?_, ?_⟩
  · simp only [build, hb, if_true, hbt]
  · rw [hkn, sortUnique_length_dedup]
  · rw [hkn, ← hcount]; exact hlen
  · intro t ht
    have hmem : t.reverse ∈ sortUnique (c.vtails.map List.reverse) := by
      rw [mem_sortUnique]
      exact List.mem_map_of_mem _ ht
    have hne : sortUnique (c.vtails.map List.reverse) ≠ [] := List.ne_nil_of_mem hmem
    obtain ⟨ic2, nodes, hb2, hT⟩ := buildCore_table _ hne
    rw [hic] at hb2
    cases hb2
    obtain ⟨id, hid⟩ := idKey_exists hT hmem
    obtain ⟨h1, _, h3⟩ := idKey_facts hT hid
    exact ⟨id, by rw [hkn]; exact h1, by rw [decode_flat]; exact h3⟩
  · intro id hid
    rw [hkn] at hid
    have hne : sortUnique (c.vtails.map List.reverse) ≠ [] := by
      intro h0
      rw [h0] at hid
      simp at hid
    obtain ⟨ic2, nodes, hb2, hT⟩ := buildCore_table _ hne
    rw [hic] at hb2
    cases hb2
    obtain ⟨k, hk⟩ := idKey_of_lt hT hid
    obtain ⟨_, h2, h3⟩ := idKey_facts hT hk
    rw [mem_sortUnique] at h2
    obtain ⟨t, ht, hte⟩ := List.mem_map.mp h2
    exact ⟨t, ht, by rw [decode_flat, hte]; exact h3⟩

/-- Witness of C17 (amended) on the keys `axyz`, `bxyz`. -/
theorem nested_keys_distinct_tails_witness :
    (sortUnique [[97, 120, 121, 122], [98, 120, 121, 122]]).length < 0xFFFFFFFF ∧
    ∃ c ic ids, buildCore [[97, 120, 121, 122], [98, 120, 121, 122]] = some c ∧
      buildCore (c.vtails.map List.reverse) = some ic ∧
      build [[97, 120, 121, 122], [98, 120, 121, 122]] true = some (.nested
        { c with tailIDs := ids, tailIDLen := log2 ic.keyNum, vtails := [] } (.flat ic)) ∧
      c.vtails.length = c.tail.count true ∧
      ic.keyNum = (c.vtails.map List.reverse).dedup.length ∧
      ic.keyNum ≤ c.tail.count true ∧
      (∀ t, t ∈ c.vtails → ∃ id, id < ic.keyNum ∧ decode (.flat ic) id = some t.reverse) ∧
      (∀ id, id < ic.keyNum → ∃ t, t ∈ c.vtails ∧ decode (.flat ic) id = some t.reverse) :=
  ⟨by decide, nested_keys_distinct_tails _ (by decide)⟩

/-- C20, amended. With the rank that counts positions `0..i` inclusive, as the
call sites of `traverse` and `decode` need it, for every key list built with
`isTailUX = false`: at a node `i` with `tail[i] = 1`, `rank_1(tail, i) - 1` is
the number of 1 bits of `tail` before `i` (the half-open count), so the slot of
the pool that the builder filled at node `i`; the slot holds a tail, and the
key decoded from the node's identifier `rank_1(terminal, i) - 1` ends with it.
At a node `i` with `terminal[i] = 1`, `id = rank_1(terminal, i) - 1` satisfies
`select_1(terminal, id + 1) = i`. -/
theorem inclusive_rank_call_sites (W : List Key) :
    ∃ d, build W false = some d ∧
      (∀ i, getBit d.core.tail i = some true →
        rank d.core.tail i true - 1 = rankHalfOpen d.core.tail i true ∧
        ∃ t k, d.core.vtails[rank d.core.tail i true - 1]? = some t ∧
          decode d (rank d.core.terminal i true - 1) = some k ∧ t <:+ k) ∧
      (∀ i, getBit d.core.terminal i = some true →
        select d.core.terminal (rank d.core.terminal i true - 1 + 1) true = some i) := by
  have hsel : ∀ (bv : List Bool) (i : Nat), getBit bv i = some true →
      select bv (rank bv i true - 1 + 1) true = some i := by
    intro bv i hb
    rw [rank_of_getBit hb]
    exact select_of_getBit hb
  by_cases hne : sortUnique W = []
  · refine ⟨_, build_flat_empty W hne, ?_, fun i hi => hsel _ i hi⟩
    intro i hi
    simp [getBit, UX.core] at hi
  · obtain ⟨c, nodes, hb, hT⟩ := build_flat_table W hne
    refine ⟨_, hb, ?_, fun i hi => hsel _ i hi⟩
    intro i hi
    simp only [UX.core] at hi ⊢
    refine ⟨by rw [rank_of_getBit hi]; rfl, ?_⟩
    have hil : i < nodes.length := by
      have := (List.getElem?_eq_some.mp hi).1
      rw [hT.tail_eq] at this
      simpa [stateOf] using this
    have hn : nodes[i]? = some nodes[i] := List.getElem?_eq_getElem hil
    have hb2 := getBit_tail hT hn
    rw [hi] at hb2
    have hsome : nodes[i].tail.isSome = true := by simpa using hb2.symm
    obtain ⟨t, ht⟩ := Option.isSome_iff_exists.mp hsome
    have hterm := ((hT.ok _ (mem_of_get hn)).tailCase t ht).1
    refine ⟨t, nodes[i].key, ?_, ?_, ?_⟩
    · rw [rank_tail hT hn ht]; exact vtails_at hT hn ht
    · rw [rank_terminal hT hn hterm, decode_flat]
      exact decodeWith_spec hT _ hn hterm (fun t2 ht2 => vtails_at hT hn ht2)
    · exact ⟨nodes[i].pre, by simp [NodeInfo.key, ht]⟩

end ux_tool

namespace ux_tool

/-! ## What predictiveSearch enumerates -/

/-- C19. What predictiveSearch enumerates, with flat tails: for every key
list, every non-empty input `s` and every limit of at least 1,
`predictiveSearch` returns a list.  When the descent follows all of `s` with
`getChild`, the identifiers returned decode, in order, to the first `limit`
stored keys that begin with `s` less its last byte, in ascending key order
(which is the depth-first pre-order of the trie with children in ascending
label order, tail-carrying leaves included).  When a step of the descent
fails, no identifier is returned.  On a non-empty dictionary the descent
always ends in one of these two ways. -/
theorem predictiveSearch_enumerates (W : List Key) (s : Key) (limit : Nat)
    (hs : s ≠ []) (hl : 1 ≤ limit) :
    ∃ d ids, build W false = some d ∧ predictiveSearch d s limit = some ids ∧
      ((∃ p, descend d.core s 0 0 2 2 = some (some p)) →
        ids.map (decode d) =
          (((sortUnique W).filter (fun k => decide (s.dropLast <+: k))).take limit).map some) ∧
      (descend d.core s 0 0 2 2 = some none → ids = []) ∧
      (sortUnique W ≠ [] → descend d.core s 0 0 2 2 ≠ none) := by
  by_cases hne : sortUnique W = []
  · refine ⟨_, [], build_flat_empty W hne, ?_, ?_, fun _ => rfl, fun h => absurd hne h⟩
    · simp [predictiveSearch, UX.core]
    · intro _
      rw [hne]
      simp
  · obtain ⟨c, nodes, hb, hT⟩ := build_flat_table W hne
    rcases predictiveSearch_flat_spec hT s hs with ⟨h1, h2⟩ | ⟨p, I, h1, h2, h3⟩
    · refine ⟨_, [], hb, h2 limit hl, ?_, fun _ => rfl, ?_⟩
      · rintro ⟨p, hp⟩
        simp only [UX.core] at hp
        rw [h1] at hp
        simp at hp
      · intro _
        simp only [UX.core]
        rw [h1]
        simp
    · refine ⟨_, I.take limit, hb, h3 limit hl, ?_, ?_, ?_⟩
      · intro _
        exact decode_of_idKeys hT (List.forall₂_take limit h2)
      · intro h
        simp only [UX.core] at h
        rw [h1] at h
        simp at h
      · intro _
        simp only [UX.core]
        rw [h1]
        simp

/-- Witness of C19 on the keys `cat`, `car`, `card`, `care`, `cares`, `dog`, the
input `car` and limit 3. -/
theorem predictiveSearch_enumerates_witness :
    ([99, 97, 114] : Key) ≠ [] ∧ 1 ≤ 3 ∧
    ∃ d ids, build [[99, 97, 116], [99, 97, 114], [99, 97, 114, 100], [99, 97, 114, 101],
        [99, 97, 114, 101, 115], [100, 111, 103]] false = some d ∧
      predictiveSearch d [99, 97, 114] 3 = some ids ∧
      ((∃ p, descend d.core [99, 97, 114] 0 0 2 2 = some (some p)) →
        ids.map (decode d) =
          (((sortUnique [[99, 97, 116], [99, 97, 114], [99, 97, 114, 100], [99, 97, 114, 101],
            [99, 97, 114, 101, 115], [100, 111, 103]]).filter
              (fun k => decide (([99, 97, 114] : Key).dropLast <+: k))).take 3).map some) ∧
      (descend d.core [99, 97, 114] 0 0 2 2 = some none → ids = []) ∧
      (sortUnique [[99, 97, 116], [99, 97, 114], [99, 97, 114, 100], [99, 97, 114, 101],
        [99, 97, 114, 101, 115], [100, 111, 103]] ≠ [] →
          descend d.core [99, 97, 114] 0 0 2 2 ≠ none) :=
  ⟨by decide, by decide,
    predictiveSearch_enumerates [[99, 97, 116], [99, 97, 114], [99, 97, 114, 100],
      [99, 97, 114, 101], [99, 97, 114, 101, 115], [100, 111, 103]] [99, 97, 114] 3
      (by decide) (by decide)⟩

end ux_tool

namespace ux_tool

/-! ## predictiveSearch on the empty input -/

/-- C9, failing input. With `len = 0` the descent loop of `predictiveSearch`
does not run and `enumerateAll` starts at `(lastPos, lastZeros) = (0, 0)`,
which is no node: on the single key `""` limit 1 returns identifier 0, and
every larger limit enters the loop and calls `loud_.select(0, 1)`, for which
the bit vector has no value, so no list is returned; on the keys `a`, `b` the
same happens for every limit of at least 1.  `commonPrefixSearch` on the same
inputs does truncate. -/
theorem predictiveSearch_empty_input :
    (build [[]] false).bind (fun d => predictiveSearch d [] 1) = some [0] ∧
    (build [[]] false).bind (fun d => predictiveSearch d [] 2) = none ∧
    (build [[97], [98]] false).bind (fun d => predictiveSearch d [] 1) = none ∧
    (build [[97], [98]] false).bind (fun d => predictiveSearch d [] 0) = some [] ∧
    (build [[], [97]] false).bind (fun d => commonPrefixSearch d [97] 1) = some [0] ∧
    (build [[], [97]] false).bind (fun d => commonPrefixSearch d [97] 2) = some [0, 1] ∧
    select [false, true, true] 0 true = none := by
  decide

end ux_tool

namespace ux_tool

/-! ## Identifiers and level order -/

/-- C6, amended. Identifiers follow level order: with flat tails, for every
key list of fewer than `0xFFFFFFFF` distinct keys and every stored key `k`,
the identifier that `prefixSearch` returns for `k` and `decode` inverts is the
number of distinct stored keys that come before `k` in level order, that is,
that end at a shallower trie node than `k`, or at the same depth and are
smaller than `k`.  A key ends at the first depth `d` with `d + 1 < |k|` at which
it is the only stored key beginning with its first `d` bytes, and at depth `|k|`
when there is no such depth. -/
theorem ids_follow_level_order (W : List Key) (k : Key) (hk : k ∈ W)
    (hN : (sortUnique W).length < 0xFFFFFFFF) :
    ∃ d id, build W false = some d ∧ prefixSearch d k = some (id, k.length) ∧
      decode d id = some k ∧
      id = ((sortUnique W).filter (fun w => levelBefore W w k)).length := by
  have hks : k ∈ sortUnique W := (mem_sortUnique k W).mpr hk
  have hne : sortUnique W ≠ [] := List.ne_nil_of_mem hks
  obtain ⟨c, nodes, hb, hT⟩ := build_flat_table W hne
  obtain ⟨id, hps, hid⟩ := (prefixSearch_flat hT hN k).2 k (getLast_inits_filter hks)
  have hdec := (idKey_facts hT hid).2.2
  obtain ⟨j, n, hn, ht, hi, hkey⟩ := hid
  refine ⟨_, id, hb, hps, by rw [decode_flat]; exact hdec, ?_⟩
  rw [← hi, id_level_count hT hn ht, hkey]
  congr 1
  apply List.filter_congr
  intro w _
  exact levelBefore_congr (fun w => mem_sortUnique w W) w k

/-- Witness of C6, amended, on the keys `ab`, `b` and the key `ab`. -/
theorem ids_follow_level_order_witness :
    ([97, 98] : Key) ∈ [[97, 98], [98]] ∧ (sortUnique [[97, 98], [98]]).length < 0xFFFFFFFF ∧
    ∃ d id, build [[97, 98], [98]] false = some d ∧
      prefixSearch d [97, 98] = some (id, ([97, 98] : Key).length) ∧
      decode d id = some [97, 98] ∧
      id = ((sortUnique [[97, 98], [98]]).filter
        (fun w => levelBefore [[97, 98], [98]] w [97, 98])).length :=
  ⟨by decide, by decide, ids_follow_level_order [[97, 98], [98]] [97, 98] (by decide) (by decide)⟩

end ux_tool
